import Mathlib

/-! Verification of libtorrent-webui: the event bus, range streaming, the
piece request broker and two string functions.

A shallow embedding of `src/alert_handler.cpp` (the alert bus), of the
streaming part of `src/file_downloader.cpp` (`piece_alert_dispatch` and
`file_downloader::handle_http`, from the range check to the cleanup, and
`url_has_argument`), of `src/file_requests.cpp` (the broker) and of
`parse_http_auth` in `src/auth.cpp`, followed by the properties proved about
them.

Conventions of the embedding:

* C++ objects are identified by natural numbers (their addresses): observers
  and promises are `observer_id` and `promise_id`.
* C++ `int`, `std::int64_t` quantities are `Int`; no operation of the modelled
  code overflows on the inputs considered, which is stated where it matters.
* the arrays `m_observers[...]` and `m_promises[...]` are functions from the
  index to the element; the valid indices are `0 ≤ t < num_alert_types`.
* calls that only produce effects outside the program (the socket, the
  engine) are recorded in log fields of the state.
* a `std::multiset` or `std::multimap` is the list of its elements in iteration
  order; an iterator is the element it points to, or `none` for `end()`.
* a `std::string` or `string_view` is the list of its characters; a function
  that can throw returns an `Except`.
-/

set_option linter.unusedVariables false

/-! ## Part 1: definitions -/

/-! ### The alert bus (`src/alert_handler.cpp`, `src/alert_observer.hpp`) -/

/-- Address of an `alert_observer` object. -/
abbrev observer_id := Nat

/-- Address of a `std::promise<alert*>` created by `std::make_shared`. -/
abbrev promise_id := Nat

/-- An engine event: `type` is what `alert::type()` returns, `payload` stands for
the type-specific fields. -/
structure alert where
  type : Int
  payload : Nat
deriving DecidableEq, Repr

/-- The private fields of `struct alert_observer`: the 64 `uint8_t` slots of
`types`, `num_types` and `flags`. -/
structure alert_observer where
  types : List Nat
  num_types : Nat
  flags : Int
deriving DecidableEq, Repr

/-- A default-constructed observer (`num_types = 0`, `flags = 0`). -/
def alert_observer.fresh : alert_observer :=
  { types := List.replicate 64 0, num_types := 0, flags := 0 }

/-- The state of an `alert_handler` together with the observer objects it
points to. `handled` records every `handle_alert` call and `fulfilled` every
`set_value` call on a promise of `m_promises` (`none` is `NULL`, `some a` is a
clone of `a`); `next_promise` is the next fresh promise address.
`out_of_bounds` records that `subscribe_impl` has stored to `o->types[i]` with
`i ≥ 64`, past the `std::array<std::uint8_t, 64>`. That store is undefined in
C++: from then on the program may do anything, and what a state with
`out_of_bounds = true` holds is a convention of this embedding, not the
behaviour of the program. -/
structure alert_handler where
  m_abort : Bool
  m_observers : Int → List observer_id
  m_promises : Int → List promise_id
  observer : observer_id → alert_observer
  handled : List (observer_id × alert)
  fulfilled : List (promise_id × Option alert)
  next_promise : promise_id
  out_of_bounds : Bool

/-- The constructor `alert_handler::alert_handler`: nothing aborted, all lists empty. -/
def alert_handler.init : alert_handler :=
  { m_abort := false
    m_observers := fun _ => []
    m_promises := fun _ => []
    observer := fun _ => alert_observer.fresh
    handled := []
    fulfilled := []
    next_promise := 0
    out_of_bounds := false }

/-- Array or object store update: the value at `k` becomes `v`. -/
def store {κ : Type} [DecidableEq κ] {α : Type} (f : κ → α) (k : κ) (v : α) : κ → α :=
  fun x => if x = k then v else f x

/-- The result of the `std::future<alert*>` returned by `subscribe_impl(int)`:
already holding a value, or waiting on a promise of `m_promises`. -/
inductive alert_future where
  | ready (value : Option alert)
  | pending (p : promise_id)
deriving DecidableEq, Repr

/-- The body of `alert_handler::unsubscribe`, one loop iteration: `type` is
`o->types[i]`. A zero slot and an out-of-range type are skipped; otherwise the
first occurrence of `o` in `m_observers[type]` is erased. -/
def alert_handler.unsubscribe_slot (N : Int) (o : observer_id)
    (m : Int → List observer_id) (type : Nat) : Int → List observer_id :=
  if type = 0 then m
  else if (type : Int) < 0 ∨ (type : Int) ≥ N then m
  else store m (type : Int) ((m (type : Int)).erase o)

/-- The method `alert_handler::unsubscribe(alert_observer* o)`: walks the slots
`o->types[0 .. num_types)` and then sets `o->num_types = 0`. Slots past the
64th do not exist: reading them is undefined in C++, and the walk of the
embedding stops there. `num_types` exceeds 64 only in a state with
`out_of_bounds = true` (`overflow_is_recorded`). The two `TORRENT_ASSERT`s are
compiled out of a build without assertions, which is the build embedded here. -/
def alert_handler.unsubscribe (N : Int) (o : observer_id) (s : alert_handler) : alert_handler :=
  let ob := s.observer o
  { s with
    m_observers := (ob.types.take ob.num_types).foldl (alert_handler.unsubscribe_slot N o) s.m_observers
    observer := store s.observer o { ob with num_types := 0 } }

/-- The loop of `alert_handler::subscribe_impl(type_list, num_types, o, flags)`
over the remaining entries of `type_list`. A zero ends the loop; a type already
among `o->types[0 .. o->num_types)` or outside `[0, N)` is skipped; otherwise it
is stored (as a `uint8_t`) in slot `o->num_types`, the count is incremented and
`o` is pushed at the back of `m_observers[type]`. The three `TORRENT_ASSERT`s
are compiled out of a build without assertions, which is the build embedded
here: there the `if` after the first two skips an out-of-range type.

When `o->num_types` is 64 or more the store goes past the array. That is
undefined in C++ (with the usual object layout the byte written belongs to
`num_types` itself). The embedding sets `out_of_bounds`, drops the store and
goes on; what it computes from there on is a convention, and the properties
proved of `subscribe` for defined behaviour assume that the slots suffice. -/
def alert_handler.subscribe_loop (N : Int) (o : observer_id) :
    List Int → alert_handler → alert_handler
  | [], s => s
  | type :: rest, s =>
    if type = 0 then s
    else
      let ob := s.observer o
      if (ob.types.take ob.num_types).any (fun x => decide ((x : Int) = type)) then
        alert_handler.subscribe_loop N o rest s
      else if type < 0 ∨ type ≥ N then
        alert_handler.subscribe_loop N o rest s
      else
        alert_handler.subscribe_loop N o rest
          { s with
            observer := store s.observer o
              { ob with
                types := ob.types.set ob.num_types (type % 256).toNat
                num_types := ob.num_types + 1 }
            m_observers := store s.m_observers type (s.m_observers type ++ [o])
            out_of_bounds := s.out_of_bounds || decide (64 ≤ ob.num_types) }

/-- The method `alert_handler::subscribe_impl(int const*, int, alert_observer*, int)`:
`memset(o->types, 0, ...)`, `o->flags = flags`, then the loop. Neither
`o->num_types` nor the lists `m_observers[...]` are reset here. -/
def alert_handler.subscribe_impl (N : Int) (type_list : List Int) (o : observer_id) (flags : Int)
    (s : alert_handler) : alert_handler :=
  let ob := s.observer o
  alert_handler.subscribe_loop N o type_list
    { s with observer := store s.observer o { ob with types := List.replicate 64 0, flags := flags } }

/-- The `while (t != 0 && i < 64)` loop of the variadic `alert_handler::subscribe`:
the arguments up to the first zero, at most `room` of them. -/
def alert_handler.collect_types : List Int → Nat → List Int
  | [], _ => []
  | _ :: _, 0 => []
  | t :: rest, room + 1 => if t = 0 then [] else t :: alert_handler.collect_types rest room

/-- The method `alert_handler::subscribe(o, flags, ...)`; `args` are the variadic arguments. -/
def alert_handler.subscribe (N : Int) (o : observer_id) (flags : Int) (args : List Int)
    (s : alert_handler) : alert_handler :=
  alert_handler.subscribe_impl N (alert_handler.collect_types args 64) o flags s

/-- A call that an observer makes on the bus from inside `handle_alert`:
`wait_alert_observer::handle_alert` calls `unsubscribe(this)`; no observer of the
repository calls `abort` or waits for an alert from inside a handler. -/
inductive bus_call where
  | subscribe (o : observer_id) (flags : Int) (args : List Int)
  | unsubscribe (o : observer_id)
deriving DecidableEq, Repr

/-- Effect of one `bus_call` on the bus. -/
def alert_handler.call (N : Int) (s : alert_handler) : bus_call → alert_handler
  | .subscribe o flags args => alert_handler.subscribe N o flags args s
  | .unsubscribe o => alert_handler.unsubscribe N o s

/-- The virtual `handle_alert` of the observers: the bus calls that observer `o`
makes when it is handed `a` in bus state `s`. -/
abbrev alert_handlers := observer_id → alert → alert_handler → List bus_call

/-- The inner loop of `dispatch_alerts` over the copied vector
`alert_dispatchers`: each observer of the copy is handed the alert, and the
calls its handler makes are run before the next observer is visited. -/
def alert_handler.fan_out (N : Int) (h : alert_handlers) (a : alert) :
    List observer_id → alert_handler → alert_handler
  | [], s => s
  | k :: ks, s =>
    let s1 := { s with handled := s.handled ++ [(k, a)] }
    alert_handler.fan_out N h a ks ((h k a s1).foldl (alert_handler.call N) s1)

/-- The second half of one iteration of `dispatch_alerts` (the `promises.swap`
and the `set_value` loop): the promises of `m_promises[type]` are taken out and
each is given its own clone of `a`. -/
def alert_handler.fulfil (a : alert) (s : alert_handler) : alert_handler :=
  { s with
    m_promises := store s.m_promises a.type []
    fulfilled := s.fulfilled ++ (s.m_promises a.type).map (fun p => (p, some a)) }

/-- One iteration of the outer loop of `dispatch_alerts`, for alert `a`. -/
def alert_handler.dispatch_alert (N : Int) (h : alert_handlers) (s : alert_handler) (a : alert) :
    alert_handler :=
  alert_handler.fulfil a (alert_handler.fan_out N h a (s.m_observers a.type) s)

/-- The method `alert_handler::dispatch_alerts(std::vector<alert*>&)`. -/
def alert_handler.dispatch_alerts (N : Int) (h : alert_handlers) (alerts : List alert)
    (s : alert_handler) : alert_handler :=
  alerts.foldl (alert_handler.dispatch_alert N h) s

/-- The method `alert_handler::subscribe_impl(int cat)`: the new bus state and the
result of the returned future. -/
def alert_handler.subscribe_impl_cat (cat : Int) (s : alert_handler) : alert_handler × alert_future :=
  if s.m_abort then (s, alert_future.ready none)
  else
    ({ s with
       m_promises := store s.m_promises cat (s.m_promises cat ++ [s.next_promise])
       next_promise := s.next_promise + 1 },
     alert_future.pending s.next_promise)

/-- One iteration of the `for (int i = 0; i < num_alert_types; ++i)` loop of `abort`. -/
def alert_handler.abort_slot (s : alert_handler) (i : Nat) : alert_handler :=
  { s with
    m_promises := store s.m_promises (i : Int) []
    fulfilled := s.fulfilled ++ (s.m_promises (i : Int)).map (fun p => (p, none)) }

/-- The method `alert_handler::abort`; `N` is `num_alert_types`. -/
def alert_handler.abort (N : Nat) (s : alert_handler) : alert_handler :=
  (List.range N).foldl alert_handler.abort_slot { s with m_abort := true }

/-- A call on the public interface of the bus. -/
inductive api_call where
  | subscribe (o : observer_id) (flags : Int) (args : List Int)
  | unsubscribe (o : observer_id)
  | dispatch_alerts (alerts : List alert)
  | wait (cat : Int)
  | abort
deriving DecidableEq, Repr

/-- Effect of one interface call; `N` is `num_alert_types`, the size of both arrays. -/
def alert_handler.api (N : Nat) (h : alert_handlers) (s : alert_handler) : api_call → alert_handler
  | .subscribe o flags args => alert_handler.subscribe N o flags args s
  | .unsubscribe o => alert_handler.unsubscribe N o s
  | .dispatch_alerts alerts => alert_handler.dispatch_alerts N h alerts s
  | .wait cat => (alert_handler.subscribe_impl_cat cat s).1
  | .abort => alert_handler.abort N s

/-- A sequence of interface calls, run from state `s`. -/
def alert_handler.run (N : Nat) (h : alert_handlers) (calls : List api_call) (s : alert_handler) :
    alert_handler :=
  calls.foldl (alert_handler.api N h) s

/-- The waiters outstanding in `m_promises[0 .. N)`, by ascending type. -/
def alert_handler.outstanding (N : Nat) (s : alert_handler) : List promise_id :=
  (List.range N).flatMap (fun t => s.m_promises (t : Int))

/-- Observers whose `handle_alert` makes no call on the bus. -/
def passive_handlers : alert_handlers := fun _ _ _ => []

/-- The handler of `wait_alert_observer` for every observer: `unsubscribe(this)`. -/
def unsubscribing_handlers : alert_handlers := fun o _ _ => [bus_call.unsubscribe o]

/-- Calls whose indices lie inside the arrays: every dispatched alert has a type
in `[0, N)` and every wait is for a type in `[0, N)`. -/
def api_call.in_range (N : Nat) : api_call → Prop
  | .dispatch_alerts alerts => ∀ a ∈ alerts, 0 ≤ a.type ∧ a.type < N
  | .wait cat => 0 ≤ cat ∧ cat < N
  | _ => True

/-- The promise side and the log of handled alerts agree in two bus states. -/
def same_promise_side (s s' : alert_handler) : Prop :=
  s'.handled = s.handled ∧ s'.fulfilled = s.fulfilled ∧ s'.m_promises = s.m_promises ∧
    s'.m_abort = s.m_abort ∧ s'.next_promise = s.next_promise

/-- Bookkeeping of the promises in a bus state: every promise in a waiter list
or already fulfilled was created before `next_promise`, no promise stands twice
in the waiter lists, and no promise is both waiting and fulfilled or fulfilled twice. -/
structure promise_inv (s : alert_handler) : Prop where
  waiting_lt : ∀ t p, p ∈ s.m_promises t → p < s.next_promise
  fulfilled_lt : ∀ p, p ∈ s.fulfilled.map Prod.fst → p < s.next_promise
  nodup : ∀ t, (s.m_promises t).Nodup
  one_list : ∀ t t' p, p ∈ s.m_promises t → p ∈ s.m_promises t' → t = t'
  unfulfilled : ∀ t p, p ∈ s.m_promises t → p ∉ s.fulfilled.map Prod.fst
  fulfilled_once : (s.fulfilled.map Prod.fst).Nodup

/-- The bus state reached from a newly constructed bus by the interface calls `calls`. -/
def alert_handler.reached (N : Nat) (h : alert_handlers) (calls : List api_call) : alert_handler :=
  alert_handler.run N h calls alert_handler.init

/-- The entries that a step added at the end of a log. -/
def added {α : Type} (before after : List α) : List α :=
  after.drop before.length

/-- The tags `a, a + 1, ..., a + n - 1`. -/
def tags_from (a : Int) (n : Nat) : List Int :=
  (List.range n).map (fun (k : Nat) => a + (k : Int))

/-- The guard `type < 0 || type >= num_alert_types` of `subscribe_impl` does not
fire for the type `t`. -/
def tag_in_range (N : Int) (t : Int) : Bool := decide (0 ≤ t ∧ t < N)

/-- Every non-zero slot among the recorded slots `o->types[0 .. num_types)`
names a type whose subscriber list holds `o`. -/
def slots_registered (o : observer_id) (s : alert_handler) : Prop :=
  ∀ x, x ∈ (s.observer o).types.take (s.observer o).num_types → x ≠ 0 →
    o ∈ s.m_observers (x : Int)

/-! ### Range streaming (`src/file_downloader.cpp`) -/

/-- The `struct piece_entry`: a delivered piece (`buffer` holds the bytes the
`boost::shared_array<char>` points to). -/
structure piece_entry where
  buffer : List Nat
  size : Int
  piece : Int
deriving DecidableEq, Repr

/-- The `top()` of the `std::priority_queue<piece_entry>`: with the reversed
`operator<` this is an entry of smallest piece index. Among entries of equal
index the standard leaves the choice open; here it is the earliest pushed. -/
def queue_top : List piece_entry → Option piece_entry
  | [] => none
  | e :: q =>
    match queue_top q with
    | none => some e
    | some m => if m.piece < e.piece then some m else some e

/-- The `pop()` of the priority queue: the entry that `queue_top` returns is removed. -/
def queue_pop : List piece_entry → List piece_entry
  | [] => []
  | e :: q =>
    match queue_top q with
    | none => []
    | some m => if m.piece < e.piece then e :: queue_pop q else q

/-- One `mg_write(conn, &pe.buffer[offset], amount)` call that returned
`length > 0`: the bytes `buffer[offset .. offset + length)` went to the socket. -/
structure socket_write where
  buffer : List Nat
  offset : Int
  length : Int
deriving DecidableEq, Repr

/-- The elements `l[a .. a + n)` of a list. -/
def bytes_at {α : Type} (l : List α) (a n : Int) : List α :=
  (l.drop a.toNat).take n.toNat

/-- Where the thread running `handle_http` stands: in the `pq.cond.wait` loop at
the head of iteration `i`, inside an `mg_write` call of the inner loop (with the
piece being sent and `amount_to_send`), or past the `for` loop. -/
inductive stream_pc where
  | waiting
  | writing (pe : piece_entry) (amount_to_send : Int)
  | left_loop
deriving DecidableEq, Repr

/-- The `torrent_piece_queue pq` and the locals of `handle_http` during
streaming. `socket` records the successful `mg_write` calls, `deadlines` the
`set_piece_deadline(piece, milliseconds)` calls and `priorities` the
`(piece, priority)` pairs passed to `prioritize_pieces`. -/
structure stream_state where
  pq_begin : Int
  pq_end : Int
  pq_finish : Int
  queue : List piece_entry
  priority_cursor : Int
  i : Int
  offset : Int
  left_to_send : Int
  bytes_sent : Int
  request_size : Int
  pc : stream_pc
  socket : List socket_write
  deadlines : List (Int × Int)
  priorities : List (Int × Int)
deriving DecidableEq, Repr

/-- The bytes written to the socket so far, in the order written. -/
def stream_state.body (s : stream_state) : List Nat :=
  s.socket.flatMap (fun w => bytes_at w.buffer w.offset w.length)

/-- The method `piece_alert_dispatch::on_alert` for one subscribed
`torrent_piece_queue`: a piece outside `[begin, end)` is skipped, any other is
pushed on the queue (and the condition variable notified). -/
def piece_alert_dispatch.on_alert (pe : piece_entry) (s : stream_state) : stream_state :=
  if pe.piece < s.pq_begin ∨ pe.piece ≥ s.pq_end then s
  else { s with queue := s.queue ++ [pe] }

/-- The `while (priority_cursor < pq.end)` loops of `handle_http`: every piece
from the cursor up to `pq.end` gets the deadline `100 * (piece - base)`. -/
def stream_state.set_deadlines (base : Int) (s : stream_state) : stream_state :=
  let n := (s.pq_end - s.priority_cursor).toNat
  { s with
    deadlines := s.deadlines ++
      (List.range n).map (fun k => (s.priority_cursor + k, 100 * (s.priority_cursor + k - base)))
    priority_cursor := s.priority_cursor + n }

/-- The condition `i < pq.finish` of the `for` loop, evaluated after `++i`. -/
def stream_state.for_head (s : stream_state) : stream_state :=
  if s.i < s.pq_finish then { s with pc := stream_pc.waiting }
  else { s with pc := stream_pc.left_loop }

/-- The head of the inner `while (amount_to_send > 0)` loop and what follows it:
`if (ret <= 0) break; offset = 0;` and the `++i` of the `for` loop. -/
def stream_state.write_head (pe : piece_entry) (amount_to_send ret : Int) (s : stream_state) :
    stream_state :=
  if amount_to_send > 0 then { s with pc := stream_pc.writing pe amount_to_send }
  else if ret ≤ 0 then { s with pc := stream_pc.left_loop }
  else stream_state.for_head { s with offset := 0, i := s.i + 1 }

/-- The window update and the deadline loop that follow the pop of piece `i`:
`pq.end = min(next(pq.end), pq.finish)`, `pq.begin = min(next(pq.begin), pq.end)`,
then every piece from the cursor up to the new `pq.end` gets its deadline. -/
def stream_state.slide (s : stream_state) : stream_state :=
  let e := min (s.pq_end + 1) s.pq_finish
  let b := min (s.pq_begin + 1) e
  stream_state.set_deadlines s.i { s with pq_end := e, pq_begin := b }

/-- The consuming thread is woken in the `pq.cond.wait` loop: while the queue is
empty or its top is beyond `i` it keeps waiting; otherwise the top is popped. A
piece below `i` is dropped and the iteration repeated; the piece `i` slides the
window, extends the deadlines, and is sent (ending the loop if its size is 0).
The amount is `min(int64_t(pe.size - offset), left_to_send)`: the difference is
taken in `uint64_t` and converted back, which yields the signed difference. -/
def stream_state.wake (s : stream_state) : stream_state :=
  match s.pc with
  | stream_pc.waiting =>
    match queue_top s.queue with
    | none => s
    | some pe =>
      if pe.piece > s.i then s
      else
        let s1 := { s with queue := queue_pop s.queue }
        if pe.piece < s.i then s1
        else
          let s2 := s1.slide
          if pe.size = 0 then { s2 with pc := stream_pc.left_loop }
          else s2.write_head pe (min (pe.size - s2.offset) s2.left_to_send) (-1)
  | _ => s

/-- The bookkeeping after an `mg_write` of piece `pe` that returned `ret > 0`:
`r.bytes_sent += ret; left_to_send -= ret; offset += ret;` the socket log gets
the bytes that were written. -/
def stream_state.sent (pe : piece_entry) (ret : Int) (s : stream_state) : stream_state :=
  { s with
    socket := s.socket ++ [{ buffer := pe.buffer, offset := s.offset, length := ret }]
    bytes_sent := s.bytes_sent + ret
    left_to_send := s.left_to_send - ret
    offset := s.offset + ret }

/-- The pending `mg_write` call returns `ret`; `eagain` tells whether `errno` is
`EAGAIN`. A failed write is retried on `EAGAIN` and ends the loop otherwise; a
successful one advances the counters (`amount_to_send -= ret`). -/
def stream_state.write_returns (ret : Int) (eagain : Bool) (s : stream_state) : stream_state :=
  match s.pc with
  | stream_pc.writing pe amount_to_send =>
    if ret ≤ 0 then
      if ret < 0 ∧ eagain = true then s
      else { s with pc := stream_pc.left_loop }
    else
      (s.sent pe ret).write_head pe (amount_to_send - ret) ret
  | _ => s

/-- What can happen to a streaming session: the engine posts a piece for the
torrent, the consuming thread is woken, or its pending `mg_write` returns. -/
inductive stream_event where
  | deliver (pe : piece_entry)
  | wake
  | write_returns (ret : Int) (eagain : Bool)
deriving DecidableEq, Repr

/-- Effect of one event on the session. -/
def stream_state.step (s : stream_state) : stream_event → stream_state
  | .deliver pe => piece_alert_dispatch.on_alert pe s
  | .wake => stream_state.wake s
  | .write_returns ret eagain => stream_state.write_returns ret eagain s

/-- A sequence of events, applied from state `s`. -/
def stream_state.run (s : stream_state) (es : List stream_event) : stream_state :=
  es.foldl stream_state.step s

/-- What `handle_http` reads from the `torrent_info`: the piece length, and the
offset (in the torrent) and the size of the requested file. -/
structure torrent_file where
  piece_length : Int
  file_offset : Int
  file_size : Int
deriving DecidableEq, Repr

/-- Modelled from the spec: the engine's `torrent_info::map_file(file, offset, 0)`,
which is not part of the repository; the spec calls it the standard file to
piece mapping using the torrent's fixed piece length and the file's offset
within the torrent. The result is `(piece, start)`. -/
def torrent_file.map_file (ti : torrent_file) (offset : Int) : Int × Int :=
  ((ti.file_offset + offset) / ti.piece_length, (ti.file_offset + offset) % ti.piece_length)

/-- The value `m_queue_size` is given by the constructor of `file_downloader`. -/
def file_downloader.m_queue_size : Int := 20 * 1024 * 1024

/-- The arguments of the `mg_printf` calls that send the response head. -/
structure response_head where
  status : Nat
  reason : String
  content_length : Int
  content_range : Option (Int × Int × Int)
deriving DecidableEq, Repr

/-- Outcome of `handle_http` from the range stage on: the 416 reply (with its
`Content-Length` value and no body), or a response head followed by streaming. -/
inductive http_reply where
  | range_not_satisfiable (content_length : Int)
  | streaming (head : response_head) (s : stream_state)
deriving DecidableEq, Repr

/-- The parsing block of `handle_http` (the `mg_get_header(conn, "range")`
block). The argument is `none` when there is no `Range` header, no `bytes=` in
it or no `-` after that; otherwise it holds `strtoll` of the text after
`bytes=` and, unless nothing follows the `-`, `strtoll` of the text after it.
The result is `(range_first_byte, range_last_byte, range_request)`. -/
def file_downloader.parse_range (file_size : Int) : Option (Int × Option Int) → Int × Int × Bool
  | none => (0, file_size - 1, false)
  | some (first, none) => (first, file_size - 1, true)
  | some (first, some last) => (first, last, true)

/-- The part of `handle_http` between the range check and the consumption loop
(from `torrent_piece_queue pq;` to the first deadline loop): the window is set
up, the pieces of `[begin, finish)` get priority 5 and those of `[begin, end)`
their deadlines, and the `for` loop is entered at `i = pq.begin`. -/
def file_downloader.start_stream (m_queue_size : Int) (ti : torrent_file)
    (range_first_byte range_last_byte : Int) : stream_state :=
  let req := ti.map_file range_first_byte
  let first_piece := req.1
  let end_piece := (ti.map_file range_last_byte).1 + 1
  let num_pieces := max (m_queue_size.tdiv ti.piece_length) 1
  stream_state.for_head (stream_state.set_deadlines first_piece
    { pq_begin := first_piece
      pq_end := min (first_piece + num_pieces) end_piece
      pq_finish := end_piece
      queue := []
      priority_cursor := first_piece
      i := first_piece
      offset := req.2
      left_to_send := range_last_byte - range_first_byte + 1
      bytes_sent := 0
      request_size := range_last_byte - range_first_byte + 1
      pc := stream_pc.waiting
      socket := []
      deadlines := []
      priorities := (List.range (end_piece - first_piece).toNat).map
        (fun k => (first_piece + k, 5)) })

/-- The function `file_downloader::handle_http` for a request that has passed
the checks on the URI, the credentials, the arguments, the torrent and the file
index: from `file_size = ti->files().file_size(file)` to the entry of the
consumption loop. -/
def file_downloader.handle_http (m_queue_size : Int) (ti : torrent_file)
    (range : Option (Int × Option Int)) : http_reply :=
  let r := file_downloader.parse_range ti.file_size range
  let range_first_byte := r.1
  let range_last_byte := r.2.1
  let range_request := r.2.2
  if range_request = true ∧ (range_first_byte > range_last_byte
      ∨ range_last_byte ≥ ti.file_size ∨ range_first_byte < 0) then
    http_reply.range_not_satisfiable ti.file_size
  else
    http_reply.streaming
      { status := if range_request then 206 else 200
        reason := if range_request then "Partial Content" else "OK"
        content_length := range_last_byte - range_first_byte + 1
        content_range :=
          if range_request then some (range_first_byte, range_last_byte, ti.file_size) else none }
      (file_downloader.start_stream m_queue_size ti range_first_byte range_last_byte)

/-- The stream state with which `handle_http` enters the consumption loop, if it does. -/
def http_reply.session : http_reply → Option stream_state
  | .range_not_satisfiable _ => none
  | .streaming _ s => some s

/-- Size of piece `p` of a torrent of `total_size` bytes: the piece length,
except for a shorter last piece. -/
def piece_size (total_size piece_length p : Int) : Int :=
  max 0 (min piece_length (total_size - p * piece_length))

/-- The piece `p` as the engine reads it from a torrent whose bytes are `content`. -/
def true_piece (content : List Nat) (total_size piece_length p : Int) : piece_entry :=
  { buffer := bytes_at content (p * piece_length) piece_length
    size := piece_size total_size piece_length p
    piece := p }

/-- An event of a run in which the engine posts true pieces and every socket
write succeeds: a delivered entry is the true piece of its index, and a
returning `mg_write` reports between 1 and `amount_to_send` bytes written. -/
def stream_event.faithful (content : List Nat) (total_size piece_length : Int) (s : stream_state) :
    stream_event → Prop
  | .deliver pe => pe = true_piece content total_size piece_length pe.piece
  | .wake => True
  | .write_returns ret _ =>
    match s.pc with
    | stream_pc.writing _ amount_to_send => 0 < ret ∧ ret ≤ amount_to_send
    | _ => True

/-- Every event of the run from `s` is faithful in the state it occurs in. -/
def stream_state.faithful_run (content : List Nat) (total_size piece_length : Int) :
    stream_state → List stream_event → Prop
  | _, [] => True
  | s, e :: es =>
    e.faithful content total_size piece_length s ∧
      stream_state.faithful_run content total_size piece_length (s.step e) es

/-- The piece indices that `on_alert` pushed on the queue during the run from `s`. -/
def stream_state.accepted : stream_state → List stream_event → List Int
  | _, [] => []
  | s, e :: es =>
    (match e with
      | .deliver pe => if pe.piece < s.pq_begin ∨ pe.piece ≥ s.pq_end then [] else [pe.piece]
      | _ => []) ++ stream_state.accepted (s.step e) es

/-- The piece indices that the engine posted during a run, accepted or not. -/
def delivered_pieces : List stream_event → List Int
  | [] => []
  | .deliver pe :: es => pe.piece :: delivered_pieces es
  | _ :: es => delivered_pieces es

/-- The consuming thread has nothing to do until another piece arrives or for
good: it has left the loop, or it waits with the queue empty or topped by a
piece beyond `i`. -/
def stream_state.idle (s : stream_state) : Bool :=
  match s.pc with
  | stream_pc.left_loop => true
  | stream_pc.writing _ _ => false
  | stream_pc.waiting =>
    match queue_top s.queue with
    | none => true
    | some pe => decide (pe.piece > s.i)

/-- The window invariant of a `torrent_piece_queue`: `begin ≤ end ≤ finish` and
at most `M` pieces between `begin` and `end`. -/
def stream_state.window_ok (M : Int) (s : stream_state) : Prop :=
  s.pq_begin ≤ s.pq_end ∧ s.pq_end ≤ s.pq_finish ∧ s.pq_end - s.pq_begin ≤ M

/-- What holds of a streaming session in every state of a run in which the
engine posts true pieces and every socket write succeeds, for the request of the
bytes `first .. last` of a file at offset `fo` in a torrent of `total` bytes
`content` and piece length `pl`. -/
structure stream_inv (content : List Nat) (total pl fo first last : Int) (s : stream_state) :
    Prop where
  finish_eq : s.pq_finish = (fo + last) / pl + 1
  window : s.pq_begin ≤ s.pq_end ∧ s.pq_end ≤ s.pq_finish
  sent_eq : s.bytes_sent + s.left_to_send = last - first + 1
  sent_nonneg : 0 ≤ s.bytes_sent
  left_nonneg : 0 ≤ s.left_to_send
  body_eq : s.body = bytes_at content (fo + first) s.bytes_sent
  queue_true : ∀ pe, pe ∈ s.queue → pe = true_piece content total pl pe.piece
  first_le : (fo + first) / pl ≤ s.i
  at_wait : s.pc = stream_pc.waiting →
    s.pq_begin = s.i ∧ s.i < s.pq_finish ∧ fo + first + s.bytes_sent = s.i * pl + s.offset ∧
      0 ≤ s.offset ∧ s.offset < pl ∧ 0 < s.left_to_send ∧ s.pq_begin < s.pq_end
  at_write : ∀ pe amount, s.pc = stream_pc.writing pe amount →
    pe = true_piece content total pl s.i ∧ s.pq_begin = s.i + 1 ∧ s.i < s.pq_finish ∧
      fo + first + s.bytes_sent = s.i * pl + s.offset ∧ 0 ≤ s.offset ∧ 0 < amount ∧
      amount = min (pe.size - s.offset) s.left_to_send ∧ min (s.i + 2) s.pq_finish ≤ s.pq_end
  at_exit : s.pc = stream_pc.left_loop → s.left_to_send = 0

/-- The session no longer needs a delivery of piece `p`: the piece is in the
queue, or the loop is over, or the loop index has passed it. -/
def stream_state.has_piece (s : stream_state) (p : Int) : Prop :=
  p ∈ s.queue.map piece_entry.piece ∨ s.pc = stream_pc.left_loop ∨
    (s.pc = stream_pc.waiting ∧ p < s.i) ∨ (s.pc ≠ stream_pc.waiting ∧ p ≤ s.i)

/-- A well-formed request: positive piece length, a file that lies inside the
torrent of `total` bytes (whose bytes are `content`), and `0 ≤ first ≤ last`
inside the file, so that byte `last` of the file is byte `fo + last < total` of
the torrent. -/
structure request_ok (content : List Nat) (total pl fo first last : Int) : Prop where
  pl_pos : 0 < pl
  fo_nonneg : 0 ≤ fo
  first_nonneg : 0 ≤ first
  first_le_last : first ≤ last
  last_lt : fo + last < total
  length_eq : (content.length : Int) = total

/-- What holds of the window and the buffer of a session in every state, when
`on_alert` pushes no piece index twice: the thread waits at `begin`, or writes the
piece before `begin`; no buffered piece is below `begin`, and no two buffered
pieces have the same index. -/
structure buffer_inv (s : stream_state) : Prop where
  end_le : s.pq_end ≤ s.pq_finish
  at_wait : s.pc = stream_pc.waiting → s.pq_begin = s.i ∧ s.i < s.pq_end
  at_write : ∀ pe amount, s.pc = stream_pc.writing pe amount →
    s.pq_begin = s.i + 1 ∧ min (s.i + 2) s.pq_finish ≤ s.pq_end
  fresh : ∀ pe, pe ∈ s.queue → s.pq_begin ≤ pe.piece
  once : (s.queue.map (fun pe => pe.piece)).Nodup

/-- What holds of the byte counters of a session in every state: the bytes sent
and the bytes left add up to the request, the offset is not negative, and a
pending `mg_write` asks for bytes inside the piece and not more than are left. -/
structure counter_inv (s : stream_state) : Prop where
  sum_eq : s.bytes_sent + s.left_to_send = s.request_size
  offset_nonneg : 0 ≤ s.offset
  at_write : ∀ pe amount, s.pc = stream_pc.writing pe amount →
    0 < amount ∧ s.offset + amount ≤ pe.size ∧ amount ≤ s.left_to_send

/-! ### The end of a streaming session (`src/file_downloader.cpp`) -/

/-- The pieces `k` visited by a loop `for (k = first; k < last; ++k)`. -/
def pieces_between (first last : Int) : List Int :=
  (List.range (last - first).toNat).map (fun (k : Nat) => first + (k : Int))

/-- The loop of `piece_alert_dispatch::unsubscribe` over `equal_range(ih)`. The
entries come with their position in `m_torrents`; a queue is named by a number
(for its address) and `window` gives its `begin` and `end`. An entry of another
queue adds the overlap of the two windows to `pieces` when that pointer is set;
an entry of `pq` becomes `to_delete`, and ends the loop when `pieces` is null. -/
def piece_alert_dispatch.unsubscribe_loop (window : Nat → Int × Int) (pq : Nat) (pieces : Bool) :
    List (Nat × Nat × Nat) → Option Nat × List Int → Option Nat × List Int
  | [], st => st
  | i :: rest, st =>
    if i.2.2 ≠ pq then
      if pieces then
        piece_alert_dispatch.unsubscribe_loop window pq pieces rest
          (st.1, st.2 ++ pieces_between (max (window pq).1 (window i.2.2).1)
            (min (window pq).2 (window i.2.2).2))
      else piece_alert_dispatch.unsubscribe_loop window pq pieces rest st
    else if pieces = false then (some i.1, st.2)
    else piece_alert_dispatch.unsubscribe_loop window pq pieces rest (some i.1, st.2)

/-- The method `piece_alert_dispatch::unsubscribe(ih, pq, pieces)` on the
`std::multimap` `m_torrents` (its entries in iteration order): the result is the
new `m_torrents` and what was inserted into `*pieces`. `range.first` is `end()`
when every key is below `ih`. -/
def piece_alert_dispatch.unsubscribe (window : Nat → Int × Int) (ih pq : Nat) (pieces : Bool)
    (m_torrents : List (Nat × Nat)) : List (Nat × Nat) × List Int :=
  if m_torrents.all (fun e => decide (e.1 < ih)) then (m_torrents, [])
  else
    let st := piece_alert_dispatch.unsubscribe_loop window pq pieces
      (m_torrents.enum.filter (fun i => decide (i.2.1 = ih))) (none, [])
    match st.1 with
    | none => (m_torrents, st.2)
    | some to_delete => (m_torrents.eraseIdx to_delete, st.2)

/-- What the code of `handle_http` after the consumption loop does: the new
`m_torrents` of the dispatch, the set `still_in_use`, the pieces passed to
`reset_piece_deadline` and the pairs passed to the last `prioritize_pieces`. -/
structure cleanup_result where
  m_torrents : List (Nat × Nat)
  still_in_use : List Int
  reset_deadlines : List Int
  priorities : List (Int × Int)
deriving DecidableEq, Repr

/-- The code of `handle_http` from `std::set<piece_index_t> still_in_use;` to
`return true;`, for the session with queue `pq` on torrent `info_hash`;
`default_priority` is the engine's constant of that name. -/
def file_downloader.cleanup (default_priority : Int) (window : Nat → Int × Int)
    (info_hash pq : Nat) (m_torrents : List (Nat × Nat)) (s : stream_state) : cleanup_result :=
  let u := piece_alert_dispatch.unsubscribe (store window pq (s.pq_begin, s.pq_end))
    info_hash pq true m_torrents
  { m_torrents := u.1
    still_in_use := u.2
    reset_deadlines :=
      (pieces_between s.pq_begin s.priority_cursor).filter (fun k => !u.2.contains k)
    priorities := s.priorities.map (fun e => (e.1, default_priority)) }

/-- Where control goes when the consumption loop has been left, by `break` or
by its condition: to the cleanup. Inside the loop there is no result yet. -/
def stream_state.finish (default_priority : Int) (window : Nat → Int × Int)
    (info_hash pq : Nat) (m_torrents : List (Nat × Nat)) (s : stream_state) :
    Option cleanup_result :=
  match s.pc with
  | stream_pc.left_loop =>
    some (file_downloader.cleanup default_priority window info_hash pq m_torrents s)
  | _ => none

/-- Modelled from the spec: the engine's `torrent_handle::prioritize_pieces`,
which is not part of the repository; the spec lists it as "set piece
priority(torrent, index, level)". Each listed piece gets the listed priority. -/
def prioritize_pieces (prio : Int → Int) (pieces : List (Int × Int)) : Int → Int :=
  pieces.foldl (fun f e => store f e.1 e.2) prio

/-! ### The piece request broker (`src/file_requests.cpp`) -/

/-- The largest value of the 32-bit `piece_index_t`. -/
def INT_MAX : Int := 2147483647

/-- The engine's `lt::top_priority` (the log line of `read_piece` prints it as 7). -/
def lt_top_priority : Int := 7

/-- The `struct piece_request`: the torrent (its info-hash as a number), the
piece, the promise (named by its id) and the time point of the timeout. -/
structure piece_request where
  info_hash : Nat
  piece : Int
  promise : promise_id
  timeout : Int
deriving DecidableEq, Repr

/-- The member `piece_request::operator<`. -/
def piece_request.lt (a rq : piece_request) : Bool :=
  if a.info_hash = rq.info_hash then decide (a.piece < rq.piece)
  else decide (a.info_hash < rq.info_hash)

/-- A call that the broker makes on the torrent engine. -/
inductive engine_call where
  | piece_priority (info_hash : Nat) (piece : Int) (priority : Int)
  | read_piece (info_hash : Nat) (piece : Int)
deriving DecidableEq, Repr

/-- The state of `struct file_requests`. `m_requests` is the
`std::multiset<piece_request>` in iteration order; the iterator
`m_next_timeout` names the node it points to by the node's promise, `none` is
`m_requests.end()`. `fulfilled` logs the `set_value` calls on promises, `engine`
the calls on torrent handles; `next_promise` numbers the promises made. -/
structure file_requests where
  m_requests : List piece_request
  m_next_timeout : Option promise_id
  m_have_pieces : Nat → Int → Bool
  fulfilled : List (promise_id × piece_entry)
  engine : List engine_call
  next_promise : promise_id

/-- The constructor `file_requests::file_requests()`: `m_next_timeout` is
`begin()` of the empty set, which is `end()`. -/
def file_requests.init : file_requests :=
  { m_requests := [], m_next_timeout := none, m_have_pieces := fun _ _ => false,
    fulfilled := [], engine := [], next_promise := 0 }

/-- The position `std::multiset::lower_bound(rq)`: the first element that is not
less than `rq`. -/
def requests_t.lower_bound (rq : piece_request) (l : List piece_request) : Nat :=
  (l.takeWhile (fun r => r.lt rq)).length

/-- The position `std::multiset::upper_bound(rq)`: the first element that `rq`
is less than. -/
def requests_t.upper_bound (rq : piece_request) (l : List piece_request) : Nat :=
  (l.takeWhile (fun r => !rq.lt r)).length

/-- The iterator at position `k`; `end()` past the last element. -/
def requests_t.iter_at (l : List piece_request) (k : Nat) : Option promise_id :=
  (l.drop k).head?.map (fun r => r.promise)

/-- The iterator `++it` for an iterator at the node of promise `id`. -/
def requests_t.next (l : List piece_request) (id : promise_id) : Option promise_id :=
  requests_t.iter_at (l.dropWhile (fun r => decide (r.promise ≠ id))) 1

/-- The elements between the positions `first` and `last`. -/
def requests_t.range (l : List piece_request) (first last : Nat) : List piece_request :=
  (l.take last).drop first

/-- The call `std::multiset::erase(first, last)`. -/
def requests_t.erase_range (l : List piece_request) (first last : Nat) : List piece_request :=
  l.take first ++ l.drop last

/-- The call `std::multiset::insert(rq)`: a new element goes to the upper bound
of the elements equivalent to it. -/
def requests_t.insert (rq : piece_request) (l : List piece_request) : List piece_request :=
  l.take (requests_t.upper_bound rq l) ++ rq :: l.drop (requests_t.upper_bound rq l)

/-- The loop `for (iter i = range.first; i != range.second; ++i)` of the
`read_piece_alert` branch: every promise of the range gets `pe`, and
`m_next_timeout` steps on when it points to the element visited. -/
def file_requests.fulfil_range (l : List piece_request) (pe : piece_entry) :
    List piece_request → List (promise_id × piece_entry) × Option promise_id →
      List (promise_id × piece_entry) × Option promise_id
  | [], st => st
  | i :: rest, st =>
    file_requests.fulfil_range l pe rest
      (st.1 ++ [(i.promise, pe)],
        if st.2 = some i.promise then requests_t.next l i.promise else st.2)

/-- The loop `for (iter i = first; i != last; ++i)` of the torrent-removed
branch: when `m_next_timeout` points into the range it is set to `last`. -/
def file_requests.skip_range (last : Option promise_id) :
    List piece_request → Option promise_id → Option promise_id
  | [], c => c
  | i :: rest, c =>
    if some i.promise ≠ c then file_requests.skip_range last rest c
    else last

/-- The last branch of `file_requests::on_alert`: the requests of a torrent that
was removed or paused are erased. -/
def file_requests.abort_requests (info_hash : Nat) (s : file_requests) : file_requests :=
  let first := requests_t.lower_bound ⟨info_hash, 0, 0, 0⟩ s.m_requests
  let last := requests_t.upper_bound ⟨info_hash, INT_MAX, 0, 0⟩ s.m_requests
  if first = last then s
  else
    { s with
      m_next_timeout :=
        file_requests.skip_range (requests_t.iter_at s.m_requests last)
          (requests_t.range s.m_requests first last) s.m_next_timeout
      m_requests := requests_t.erase_range s.m_requests first last }

/-- The alerts that `file_requests::on_alert` tells apart. -/
inductive broker_alert where
  | read_piece (info_hash : Nat) (buffer : List Nat) (piece : Int) (size : Int)
  | piece_finished (info_hash : Nat) (piece_index : Int)
  | torrent_removed (info_hash : Nat)
  | torrent_paused (info_hash : Nat)
  | other
deriving DecidableEq, Repr

/-- The method `file_requests::on_alert`. -/
def file_requests.on_alert (s : file_requests) : broker_alert → file_requests
  | .read_piece info_hash buffer piece size =>
    let first := requests_t.lower_bound ⟨info_hash, piece, 0, 0⟩ s.m_requests
    let second := requests_t.upper_bound ⟨info_hash, piece, 0, 0⟩ s.m_requests
    if first = s.m_requests.length then s
    else
      let pe : piece_entry := { buffer := buffer, piece := piece, size := size }
      let st := file_requests.fulfil_range s.m_requests pe
        (requests_t.range s.m_requests first second) (s.fulfilled, s.m_next_timeout)
      { s with
        fulfilled := st.1
        m_next_timeout := st.2
        m_requests := requests_t.erase_range s.m_requests first second }
  | .piece_finished info_hash piece_index =>
    let s1 := { s with
      m_have_pieces := store s.m_have_pieces info_hash
        (store (s.m_have_pieces info_hash) piece_index true) }
    if requests_t.lower_bound ⟨info_hash, piece_index, 0, 0⟩ s.m_requests = s.m_requests.length
    then s1
    else { s1 with engine := s1.engine ++ [engine_call.read_piece info_hash piece_index] }
  | .torrent_removed info_hash => file_requests.abort_requests info_hash s
  | .torrent_paused info_hash => file_requests.abort_requests info_hash s
  | .other => s

/-- The method `file_requests::on_tick`, at clock reading `now`. An iterator
that points to no element cannot be read; the model leaves the state alone. -/
def file_requests.on_tick (now : Int) (s : file_requests) : file_requests :=
  let c := if s.m_next_timeout = none then requests_t.iter_at s.m_requests 0 else s.m_next_timeout
  match c with
  | none => { s with m_next_timeout := c }
  | some id =>
    match s.m_requests.find? (fun r => decide (r.promise = id)) with
    | none => { s with m_next_timeout := c }
    | some r =>
      if r.timeout < now then
        { s with
          m_next_timeout := requests_t.next s.m_requests id
          m_requests := s.m_requests.eraseP (fun r => decide (r.promise = id)) }
      else
        { s with m_next_timeout := requests_t.next s.m_requests id }

/-- The method `file_requests::read_piece(h, piece, timeout_ms)` at clock reading
`now`; the future returned is that of the promise `s.next_promise`. -/
def file_requests.read_piece (info_hash : Nat) (piece : Int) (now timeout_ms : Int)
    (s : file_requests) : file_requests :=
  let rq : piece_request :=
    { info_hash := info_hash, piece := piece, promise := s.next_promise,
      timeout := now + timeout_ms }
  { s with
    m_requests := requests_t.insert rq s.m_requests
    next_promise := s.next_promise + 1
    engine := s.engine ++ [engine_call.piece_priority info_hash piece lt_top_priority]
      ++ (if s.m_have_pieces info_hash piece then [engine_call.read_piece info_hash piece]
          else []) }

/-- A call on the broker: by a reader, or by the session (alert, tick). -/
inductive broker_call where
  | read_piece (info_hash : Nat) (piece : Int) (now timeout_ms : Int)
  | on_alert (a : broker_alert)
  | on_tick (now : Int)
deriving DecidableEq, Repr

/-- Effect of one call on the broker. -/
def file_requests.api (s : file_requests) : broker_call → file_requests
  | .read_piece info_hash piece now timeout_ms =>
    file_requests.read_piece info_hash piece now timeout_ms s
  | .on_alert a => file_requests.on_alert s a
  | .on_tick now => file_requests.on_tick now s

/-- A sequence of calls, run from state `s`. -/
def file_requests.run (calls : List broker_call) (s : file_requests) : file_requests :=
  calls.foldl file_requests.api s

/-- The broker state reached from a newly constructed broker. -/
def file_requests.reached (calls : List broker_call) : file_requests :=
  file_requests.run calls file_requests.init

/-- The precondition of `read_piece`: its assertion `piece >= 0`, and the range
of the 32-bit `piece_index_t`. -/
def broker_call.admissible : broker_call → Prop
  | .read_piece _ piece _ _ => 0 ≤ piece ∧ piece ≤ INT_MAX
  | _ => True

/-- The promises of the pending requests, in iteration order. -/
def file_requests.pending (s : file_requests) : List promise_id :=
  s.m_requests.map (fun r => r.promise)

/-- The invariant of the broker: the set is ordered by `operator<`, every
pending request has a promise of its own that was made earlier and was not
fulfilled, and `m_next_timeout` is `end()` or points to a pending request. -/
structure broker_inv (s : file_requests) : Prop where
  sorted : s.m_requests.Pairwise (fun a b => b.lt a = false)
  ids_nodup : s.pending.Nodup
  ids_lt : ∀ p, p ∈ s.pending → p < s.next_promise
  cursor_ok : ∀ id, s.m_next_timeout = some id → id ∈ s.pending
  fulfilled_lt : ∀ p, p ∈ s.fulfilled.map Prod.fst → p < s.next_promise
  unfulfilled : ∀ p, p ∈ s.pending → p ∉ s.fulfilled.map Prod.fst

/-- The order in which the tick sweep visits the pending requests: from
`m_next_timeout` to the end, then from the beginning. -/
def file_requests.sweep_order (s : file_requests) : List piece_request :=
  match s.m_next_timeout with
  | none => s.m_requests
  | some id =>
    s.m_requests.dropWhile (fun r => decide (r.promise ≠ id))
      ++ s.m_requests.takeWhile (fun r => decide (r.promise ≠ id))

/-- One step of the sweep on the visiting order: the first request is dropped
when its timeout has passed, and goes to the back otherwise. -/
def sweep_step (now : Int) : List piece_request → List piece_request
  | [] => []
  | r :: rest => if r.timeout < now then rest else rest ++ [r]

/-- Every pending request has a piece index in the range that `read_piece`
asserts and `piece_index_t` can hold. -/
def file_requests.pieces_ok (s : file_requests) : Prop :=
  ∀ r, r ∈ s.m_requests → 0 ≤ r.piece ∧ r.piece ≤ INT_MAX

/-- The promise `p` was made, and it is neither pending nor fulfilled. -/
def file_requests.retired (s : file_requests) (p : promise_id) : Prop :=
  p < s.next_promise ∧ p ∉ s.pending ∧ p ∉ s.fulfilled.map Prod.fst

/-! ### Strings: the Basic credentials (`src/auth.cpp`) and the query string
(`src/file_downloader.cpp`) -/

/-- The C++ exceptions that the embedded code can throw. -/
inductive cxx_exception where
  | out_of_range
deriving DecidableEq, Repr

/-- The constant `npos` of `std::string` and `string_view` (64-bit `size_type`). -/
def npos : Nat := 2 ^ 64 - 1

/-- The member `substr(pos, n)` of `std::string` and `string_view`: it throws
`std::out_of_range` when `pos > size()`, and `n` may reach past the end. -/
def substr (s : List Char) (pos n : Nat) : Except cxx_exception (List Char) :=
  if pos > s.length then Except.error cxx_exception.out_of_range
  else Except.ok ((s.drop pos).take n)

/-- The string `s` begins with `needle`. -/
def starts_with : List Char → List Char → Bool
  | _, [] => true
  | [], _ :: _ => false
  | x :: s, y :: needle => x = y && starts_with s needle

/-- The member `find(needle)`: the first position at which `needle` stands, or
`npos`. -/
def find_str (needle : List Char) : List Char → Nat
  | [] => if needle = [] then 0 else npos
  | x :: rest =>
    if starts_with (x :: rest) needle then 0
    else if find_str needle rest = npos then npos else find_str needle rest + 1

/-- The members `find(c)` and `find_first_of(c)` for one character. -/
def find_char (c : Char) (s : List Char) : Nat := find_str [c] s

/-- The C library's `strcasestr(haystack, needle)`: the rest of `haystack` from
the first place where `needle` stands, letter case ignored; `none` is `NULL`. -/
def strcasestr (needle : List Char) : List Char → Option (List Char)
  | [] => if needle = [] then some [] else none
  | x :: rest =>
    if starts_with ((x :: rest).map Char.toLower) (needle.map Char.toLower) then some (x :: rest)
    else strcasestr needle rest

/-- The function `parse_http_auth(conn, auth)`. `authorization` is what
`mg_get_header(conn, "authorization")` returns, `find_user` the virtual
`auth->find_user` (a permissions object is named by a number, `none` is
`nullptr`), and `base64decode` the function of that name, whose header
`base64.hpp` is not among the sources. -/
def parse_http_auth (base64decode : List Char → List Char)
    (find_user : List Char → List Char → Option Nat) (authorization : Option (List Char)) :
    Except cxx_exception (Option Nat) :=
  match authorization with
  | none => Except.ok (find_user [] [])
  | some header =>
    match strcasestr "basic ".toList header with
    | none => Except.ok (find_user [] [])
    | some at_basic =>
      let cred := base64decode ((at_basic.drop 6).dropWhile (fun c => c = ' ' || c = '\t'))
      match substr cred 0 (find_char ':' cred) with
      | Except.error e => Except.error e
      | Except.ok user =>
        match substr cred (user.length + 1) npos with
        | Except.error e => Except.error e
        | Except.ok pwd => Except.ok (find_user user pwd)

/-- The file-local function `find(haystack, needle, pos)` of
`file_downloader.cpp`. -/
def find_from (haystack needle : List Char) (pos : Nat) : Except cxx_exception Nat :=
  match substr haystack pos npos with
  | Except.error e => Except.error e
  | Except.ok tail =>
    if find_str needle tail = npos then Except.ok (find_str needle tail)
    else Except.ok (pos + find_str needle tail)

/-- The function `url_has_argument(url, argument)`, called without `out_pos`;
the empty list is the empty view `{}`. The difference `find(url, "&", pos) - pos`
is taken where the first term is `npos` or at least `pos`. -/
def url_has_argument (url argument : List Char) : Except cxx_exception (List Char) :=
  if find_char '?' url = npos then Except.ok []
  else
    match substr url (find_char '?' url + 1) (argument ++ ['=']).length with
    | Except.error e => Except.error e
    | Except.ok head =>
      if head = argument ++ ['='] then
        match substr url (find_char '?' url + 1 + (argument ++ ['=']).length) npos with
        | Except.error e => Except.error e
        | Except.ok tail =>
          substr url (find_char '?' url + 1 + (argument ++ ['=']).length) (find_char '&' tail)
      else
        match find_from url ('&' :: (argument ++ ['='])) (find_char '?' url + 1) with
        | Except.error e => Except.error e
        | Except.ok i =>
          if i = npos then Except.ok []
          else
            match find_from url ['&'] (i + ('&' :: (argument ++ ['='])).length) with
            | Except.error e => Except.error e
            | Except.ok q =>
              substr url (i + ('&' :: (argument ++ ['='])).length)
                (q - (i + ('&' :: (argument ++ ['='])).length))

/-- The parameters `&k=v` that follow the first one in a query string. -/
def sep_args : List (List Char × List Char) → List Char
  | [] => []
  | p :: rest => '&' :: (p.1 ++ '=' :: (p.2 ++ sep_args rest))

/-- The query string `?k1=v1&k2=v2&...&kn=vn` of the parameters `(k, v)`. -/
def query_string : List (List Char × List Char) → List Char
  | [] => ['?']
  | p :: rest => '?' :: (p.1 ++ '=' :: (p.2 ++ sep_args rest))

/-- The value of the first parameter whose key is `k`; empty if there is none. -/
def first_value (k : List Char) (params : List (List Char × List Char)) : List Char :=
  match params.find? (fun p => decide (p.1 = k)) with
  | some p => p.2
  | none => []

/-! ### Example data -/

/-- A torrent of twelve bytes. -/
def demo_content : List Nat := [10, 11, 12, 13, 14, 15, 16, 17, 18, 19, 20, 21]

/-- A file of nine bytes at offset 2 of `demo_content`, in pieces of four bytes. -/
def demo_file : torrent_file := { piece_length := 4, file_offset := 2, file_size := 9 }

/-- A run for the bytes 1 to 7 of `demo_file` with a queue budget of eight
bytes: pieces 1 and 0 arrive in the wrong order, piece 1 is written in two
parts, piece 2 arrives once the window has moved on. -/
def demo_events : List stream_event :=
  [ .deliver (true_piece demo_content 12 4 1), .deliver (true_piece demo_content 12 4 0),
    .wake, .write_returns 1 false, .wake, .write_returns 2 false, .write_returns 2 false,
    .deliver (true_piece demo_content 12 4 2), .wake, .write_returns 2 false ]

/-- The content of the torrent of the 100000-byte scenario. -/
def scenario_content : List Nat := (List.range 100000).map (fun k => k % 251)

/-- The file of the scenario: 100000 bytes at offset 0, piece length 16384. -/
def scenario_file : torrent_file := { piece_length := 16384, file_offset := 0, file_size := 100000 }

/-- A run of the scenario for `bytes=20000-39999`: piece 2 arrives before piece 1. -/
def scenario_events : List stream_event :=
  [ .deliver (true_piece scenario_content 100000 16384 2),
    .deliver (true_piece scenario_content 100000 16384 1),
    .wake, .write_returns 12768 false, .wake, .write_returns 7232 false ]

/-- A torrent of two pieces of 16 MiB. -/
def large_content : List Nat := List.replicate 33554432 0

/-- The only file of `large_content`. -/
def large_file : torrent_file :=
  { piece_length := 16777216, file_offset := 0, file_size := 33554432 }

/-- A run for the whole of `large_file` in which the engine posts piece 1 and
then piece 0, each once, and the consuming thread writes all it can. -/
def large_events : List stream_event :=
  [ .deliver (true_piece large_content 33554432 16777216 1),
    .deliver (true_piece large_content 33554432 16777216 0),
    .wake, .write_returns 16777216 false ]

/-- Three observers subscribed to type 4. -/
def demo_bus : alert_handler :=
  alert_handler.reached 100 unsubscribing_handlers
    [.subscribe 1 0 [4, 0], .subscribe 2 0 [4, 0], .subscribe 3 0 [4, 0]]

/-- Interface calls that leave two waiters for type 4 and one for type 6. -/
def demo_calls : List api_call :=
  [.wait 4, .wait 5, .wait 4, .subscribe 1 0 [5, 0], .dispatch_alerts [⟨5, 0⟩], .wait 6]

/-- Calls on a new broker that leave five pending requests: one for piece 2 and
three for piece 3 of torrent 1, one for piece 0 of torrent 2. -/
def demo_broker_calls : List broker_call :=
  [.read_piece 1 3 0 10, .read_piece 1 2 0 10, .read_piece 2 0 1 10, .read_piece 1 3 2 10,
    .on_alert (.piece_finished 1 3), .read_piece 1 3 5 10]

/-- A decoder for the examples: it knows the encodings of `user` and of
`user:pw`. -/
def demo_decode (s : List Char) : List Char :=
  if s = "dXNlcg==".toList then "user".toList
  else if s = "dXNlcjpwdw==".toList then "user:pw".toList
  else []

/-- An account list for the examples: the user `user` with the password `pw` has
the permissions object 0. -/
def demo_find_user (user pwd : List Char) : Option Nat :=
  if user = "user".toList ∧ pwd = "pw".toList then some 0 else none

/-- The parameters of the example query string `?ih=abc&xsid=9&sid=7&sid=8`. -/
def demo_params : List (List Char × List Char) :=
  [("ih".toList, "abc".toList), ("xsid".toList, "9".toList), ("sid".toList, "7".toList),
    ("sid".toList, "8".toList)]

/-! ## Part 2: theorems -/

/-! ### The alert bus -/

theorem same_promise_side_refl (s : alert_handler) : same_promise_side s s :=
  ⟨rfl, rfl, rfl, rfl, rfl⟩

theorem same_promise_side_trans {s1 s2 s3 : alert_handler}
    (h12 : same_promise_side s1 s2) (h23 : same_promise_side s2 s3) : same_promise_side s1 s3 := by
  obtain ⟨a1, a2, a3, a4, a5⟩ := h12
  obtain ⟨b1, b2, b3, b4, b5⟩ := h23
  exact ⟨b1.trans a1, b2.trans a2, b3.trans a3, b4.trans a4, b5.trans a5⟩

theorem subscribe_loop_promise_side (N : Int) (o : observer_id) (l : List Int) :
    ∀ s : alert_handler, same_promise_side s (alert_handler.subscribe_loop N o l s) := by
  induction l with
  | nil => intro s; exact same_promise_side_refl s
  | cons type rest ih =>
    intro s
    unfold alert_handler.subscribe_loop
    by_cases h0 : type = 0
    · simp only [h0, if_true]; exact same_promise_side_refl s
    · simp only [h0, if_false]
      split
      · exact ih s
      · split
        · exact ih s
        · exact same_promise_side_trans ⟨rfl, rfl, rfl, rfl, rfl⟩ (ih _)

theorem call_promise_side (N : Int) (s : alert_handler) (c : bus_call) :
    same_promise_side s (alert_handler.call N s c) := by
  cases c with
  | subscribe o flags args =>
    exact same_promise_side_trans ⟨rfl, rfl, rfl, rfl, rfl⟩ (subscribe_loop_promise_side N o _ _)
  | unsubscribe o => exact ⟨rfl, rfl, rfl, rfl, rfl⟩

theorem calls_promise_side (N : Int) (cs : List bus_call) :
    ∀ s : alert_handler, same_promise_side s (cs.foldl (alert_handler.call N) s) := by
  induction cs with
  | nil => intro s; exact same_promise_side_refl s
  | cons c cs ih =>
    intro s
    exact same_promise_side_trans (call_promise_side N s c) (ih _)

/-- The fan-out hands the alert to exactly the observers of the copied list, in
order, whatever the handlers do to the bus meanwhile; the promise side is untouched. -/
theorem fan_out_spec (N : Int) (h : alert_handlers) (a : alert) (ks : List observer_id) :
    ∀ s : alert_handler,
      (alert_handler.fan_out N h a ks s).handled = s.handled ++ ks.map (fun k => (k, a)) ∧
      (alert_handler.fan_out N h a ks s).fulfilled = s.fulfilled ∧
      (alert_handler.fan_out N h a ks s).m_promises = s.m_promises ∧
      (alert_handler.fan_out N h a ks s).m_abort = s.m_abort ∧
      (alert_handler.fan_out N h a ks s).next_promise = s.next_promise := by
  induction ks with
  | nil => intro s; simp [alert_handler.fan_out]
  | cons k ks ih =>
    intro s
    unfold alert_handler.fan_out
    obtain ⟨i1, i2, i3, i4, i5⟩ := ih
      ((h k a { s with handled := s.handled ++ [(k, a)] }).foldl (alert_handler.call N)
        { s with handled := s.handled ++ [(k, a)] })
    obtain ⟨c1, c2, c3, c4, c5⟩ := calls_promise_side N
      (h k a { s with handled := s.handled ++ [(k, a)] })
      { s with handled := s.handled ++ [(k, a)] }
    refine ⟨?_, ?_, ?_, ?_, ?_⟩
    · rw [i1, c1]; simp
    · rw [i2, c2]
    · rw [i3, c3]
    · rw [i4, c4]
    · rw [i5, c5]

/-- One dispatched alert: who is handed it, and what happens to the promises. -/
theorem dispatch_alert_spec (N : Int) (h : alert_handlers) (s : alert_handler) (a : alert) :
    (alert_handler.dispatch_alert N h s a).handled
        = s.handled ++ (s.m_observers a.type).map (fun k => (k, a)) ∧
    (alert_handler.dispatch_alert N h s a).fulfilled
        = s.fulfilled ++ (s.m_promises a.type).map (fun p => (p, some a)) ∧
    (alert_handler.dispatch_alert N h s a).m_promises = store s.m_promises a.type [] ∧
    (alert_handler.dispatch_alert N h s a).m_abort = s.m_abort ∧
    (alert_handler.dispatch_alert N h s a).next_promise = s.next_promise := by
  obtain ⟨f1, f2, f3, f4, f5⟩ := fan_out_spec N h a (s.m_observers a.type) s
  unfold alert_handler.dispatch_alert alert_handler.fulfil
  simp only
  refine ⟨f1, ?_, ?_, f4, f5⟩
  · rw [f2, f3]
  · rw [f3]

theorem store_same {κ : Type} [DecidableEq κ] {α : Type} (f : κ → α) (k : κ) (v : α) :
    store f k v k = v := by
  simp [store]

theorem store_other {κ : Type} [DecidableEq κ] {α : Type} (f : κ → α) (k x : κ) (v : α)
    (hx : x ≠ k) : store f k v x = f x := by
  simp [store, hx]



theorem promise_inv_init : promise_inv alert_handler.init where
  waiting_lt := by intro t p hp; simp [alert_handler.init] at hp
  fulfilled_lt := by intro p hp; simp [alert_handler.init] at hp
  nodup := by intro t; simp [alert_handler.init]
  one_list := by intro t t' p hp; simp [alert_handler.init] at hp
  unfulfilled := by intro t p hp; simp [alert_handler.init] at hp
  fulfilled_once := by simp [alert_handler.init]

theorem promise_inv_of_same_side {s s' : alert_handler} (hs : same_promise_side s s')
    (hi : promise_inv s) : promise_inv s' := by
  obtain ⟨_, h2, h3, _, h5⟩ := hs
  constructor
  · intro t p hp; rw [h3] at hp; rw [h5]; exact hi.waiting_lt t p hp
  · intro p hp; rw [h2] at hp; rw [h5]; exact hi.fulfilled_lt p hp
  · intro t; rw [h3]; exact hi.nodup t
  · intro t t' p hp hp'; rw [h3] at hp hp'; exact hi.one_list t t' p hp hp'
  · intro t p hp; rw [h3] at hp; rw [h2]; exact hi.unfulfilled t p hp
  · rw [h2]; exact hi.fulfilled_once

/-- Taking the waiters of one type out of their list and fulfilling each of
them once keeps the bookkeeping intact. -/
theorem promise_inv_move {s s' : alert_handler} (k : Int) (v : Option alert)
    (hm : s'.m_promises = store s.m_promises k [])
    (hf : s'.fulfilled = s.fulfilled ++ (s.m_promises k).map (fun p => (p, v)))
    (hn : s'.next_promise = s.next_promise) (hi : promise_inv s) : promise_inv s' := by
  have hmem : ∀ t p, p ∈ s'.m_promises t → p ∈ s.m_promises t ∧ t ≠ k := by
    intro t p hp
    rw [hm] at hp
    by_cases htk : t = k
    · subst htk; rw [store_same] at hp; simp at hp
    · rw [store_other _ _ _ _ htk] at hp; exact ⟨hp, htk⟩
  have hfst : s'.fulfilled.map Prod.fst = s.fulfilled.map Prod.fst ++ s.m_promises k := by
    rw [hf, List.map_append, List.map_map]
    congr 1
    exact List.map_id _
  constructor
  · intro t p hp; rw [hn]; exact hi.waiting_lt t p (hmem t p hp).1
  · intro p hp
    rw [hfst, List.mem_append] at hp
    rw [hn]
    rcases hp with hp | hp
    · exact hi.fulfilled_lt p hp
    · exact hi.waiting_lt k p hp
  · intro t
    rw [hm]
    by_cases htk : t = k
    · subst htk; rw [store_same]; exact List.nodup_nil
    · rw [store_other _ _ _ _ htk]; exact hi.nodup t
  · intro t t' p hp hp'
    exact hi.one_list t t' p (hmem t p hp).1 (hmem t' p hp').1
  · intro t p hp
    obtain ⟨hp1, htk⟩ := hmem t p hp
    rw [hfst, List.mem_append]
    rintro (h | h)
    · exact hi.unfulfilled t p hp1 h
    · exact htk (hi.one_list t k p hp1 h)
  · rw [hfst]
    refine List.Nodup.append hi.fulfilled_once (hi.nodup k) ?_
    intro p hp1 hp2
    exact hi.unfulfilled k p hp2 hp1

theorem promise_inv_wait (cat : Int) (s : alert_handler) (hi : promise_inv s) :
    promise_inv (alert_handler.subscribe_impl_cat cat s).1 := by
  unfold alert_handler.subscribe_impl_cat
  by_cases ha : s.m_abort = true
  · simp only [ha, if_true]; exact hi
  · simp only [ha]
    have hmem : ∀ t p, p ∈ store s.m_promises cat (s.m_promises cat ++ [s.next_promise]) t →
        p ∈ s.m_promises t ∨ (t = cat ∧ p = s.next_promise) := by
      intro t p hp
      by_cases htk : t = cat
      · subst htk; rw [store_same] at hp; simp at hp
        rcases hp with hp | hp
        · exact Or.inl hp
        · exact Or.inr ⟨rfl, hp⟩
      · rw [store_other _ _ _ _ htk] at hp; exact Or.inl hp
    constructor
    · intro t p hp
      rcases hmem t p hp with h | ⟨_, h⟩
      · exact Nat.lt_succ_of_lt (hi.waiting_lt t p h)
      · rw [h]; exact Nat.lt_succ_self _
    · intro p hp; exact Nat.lt_succ_of_lt (hi.fulfilled_lt p hp)
    · intro t
      by_cases htk : t = cat
      · subst htk
        show (store s.m_promises t (s.m_promises t ++ [s.next_promise]) t).Nodup
        rw [store_same]
        refine List.Nodup.append (hi.nodup t) (List.nodup_singleton _) ?_
        intro p hp1 hp2
        simp at hp2
        subst hp2
        exact absurd (hi.waiting_lt t _ hp1) (Nat.lt_irrefl _)
      · show (store s.m_promises cat (s.m_promises cat ++ [s.next_promise]) t).Nodup
        rw [store_other _ _ _ _ htk]; exact hi.nodup t
    · intro t t' p hp hp'
      rcases hmem t p hp with h | ⟨h1, h2⟩ <;> rcases hmem t' p hp' with h' | ⟨h1', h2'⟩
      · exact hi.one_list t t' p h h'
      · subst h2'; exact absurd (hi.waiting_lt t _ h) (Nat.lt_irrefl _)
      · subst h2; exact absurd (hi.waiting_lt t' _ h') (Nat.lt_irrefl _)
      · rw [h1, h1']
    · intro t p hp hf
      rcases hmem t p hp with h | ⟨_, h2⟩
      · exact hi.unfulfilled t p h hf
      · subst h2; exact absurd (hi.fulfilled_lt _ hf) (Nat.lt_irrefl _)
    · exact hi.fulfilled_once

theorem promise_inv_dispatch_alert (N : Int) (h : alert_handlers) (s : alert_handler) (a : alert)
    (hi : promise_inv s) : promise_inv (alert_handler.dispatch_alert N h s a) := by
  obtain ⟨_, d2, d3, _, d5⟩ := dispatch_alert_spec N h s a
  exact promise_inv_move a.type (some a) d3 d2 d5 hi

theorem promise_inv_dispatch_alerts (N : Int) (h : alert_handlers) (alerts : List alert) :
    ∀ s : alert_handler, promise_inv s → promise_inv (alert_handler.dispatch_alerts N h alerts s) := by
  induction alerts with
  | nil => intro s hi; exact hi
  | cons a rest ih =>
    intro s hi
    exact ih _ (promise_inv_dispatch_alert N h s a hi)

/-- The state after the first `n` iterations of the loop of `abort`. -/
theorem abort_loop_spec (n : Nat) (s : alert_handler) :
    ((List.range n).foldl alert_handler.abort_slot s).fulfilled
        = s.fulfilled ++ (alert_handler.outstanding n s).map (fun p => (p, none)) ∧
    ((List.range n).foldl alert_handler.abort_slot s).m_promises
        = (fun t => if 0 ≤ t ∧ t < (n : Int) then [] else s.m_promises t) ∧
    ((List.range n).foldl alert_handler.abort_slot s).m_abort = s.m_abort ∧
    ((List.range n).foldl alert_handler.abort_slot s).next_promise = s.next_promise ∧
    ((List.range n).foldl alert_handler.abort_slot s).handled = s.handled ∧
    ((List.range n).foldl alert_handler.abort_slot s).m_observers = s.m_observers ∧
    ((List.range n).foldl alert_handler.abort_slot s).observer = s.observer := by
  induction n with
  | zero =>
    refine ⟨by simp [alert_handler.outstanding], ?_, rfl, rfl, rfl, rfl, rfl⟩
    funext t
    have : ¬ (0 ≤ t ∧ t < 0) := by omega
    simp [this]
  | succ n ih =>
    obtain ⟨i1, i2, i3, i4, i5, i6, i7⟩ := ih
    rw [List.range_succ, List.foldl_append]
    simp only [List.foldl_cons, List.foldl_nil]
    generalize (List.range n).foldl alert_handler.abort_slot s = S at *
    unfold alert_handler.abort_slot
    simp only
    refine ⟨?_, ?_, i3, i4, i5, i6, i7⟩
    · rw [i1, i2]
      have hn : ¬ (0 ≤ (n : Int) ∧ (n : Int) < (n : Int)) := by omega
      simp only [hn, if_false]
      simp [alert_handler.outstanding, List.range_succ, List.flatMap_append]
    · rw [i2]
      funext t
      push_cast
      by_cases htn : t = (n : Int)
      · subst htn
        rw [store_same]
        have h1 : 0 ≤ (n : Int) ∧ (n : Int) < (n : Int) + 1 := by omega
        rw [if_pos h1]
      · rw [store_other _ _ _ _ htn]
        by_cases hlt : 0 ≤ t ∧ t < (n : Int)
        · have h1 : 0 ≤ t ∧ t < (n : Int) + 1 := by omega
          simp only [if_pos hlt, if_pos h1]
        · have h1 : ¬ (0 ≤ t ∧ t < (n : Int) + 1) := by omega
          simp only [if_neg hlt, if_neg h1]

theorem abort_spec (N : Nat) (s : alert_handler) :
    (alert_handler.abort N s).fulfilled
        = s.fulfilled ++ (alert_handler.outstanding N s).map (fun p => (p, none)) ∧
    (alert_handler.abort N s).m_promises
        = (fun t => if 0 ≤ t ∧ t < (N : Int) then [] else s.m_promises t) ∧
    (alert_handler.abort N s).m_abort = true ∧
    (alert_handler.abort N s).next_promise = s.next_promise ∧
    (alert_handler.abort N s).handled = s.handled := by
  obtain ⟨i1, i2, i3, i4, i5, _, _⟩ := abort_loop_spec N { s with m_abort := true }
  exact ⟨i1, i2, i3, i4, i5⟩

theorem outstanding_eq_nil (N : Nat) (s : alert_handler)
    (h : ∀ t : Int, 0 ≤ t → t < (N : Int) → s.m_promises t = []) :
    alert_handler.outstanding N s = [] := by
  unfold alert_handler.outstanding
  rw [List.flatMap_eq_nil_iff]
  intro t ht
  exact h t (by omega) (by have := List.mem_range.mp ht; omega)

theorem mem_outstanding (N : Nat) (s : alert_handler) (p : promise_id) :
    p ∈ alert_handler.outstanding N s ↔ ∃ t : Nat, t < N ∧ p ∈ s.m_promises (t : Int) := by
  simp [alert_handler.outstanding, List.mem_flatMap]

theorem promise_inv_abort_loop (n : Nat) :
    ∀ s : alert_handler, promise_inv s → promise_inv ((List.range n).foldl alert_handler.abort_slot s) := by
  induction n with
  | zero => intro s hi; exact hi
  | succ n ih =>
    intro s hi
    rw [List.range_succ, List.foldl_append]
    simp only [List.foldl_cons, List.foldl_nil]
    exact promise_inv_move (n : Int) none rfl rfl rfl (ih s hi)

theorem promise_inv_abort (N : Nat) (s : alert_handler) (hi : promise_inv s) :
    promise_inv (alert_handler.abort N s) :=
  promise_inv_abort_loop N _ (promise_inv_of_same_side ⟨rfl, rfl, rfl, rfl, rfl⟩ hi |> fun h =>
    { waiting_lt := hi.waiting_lt, fulfilled_lt := hi.fulfilled_lt, nodup := hi.nodup,
      one_list := hi.one_list, unfulfilled := hi.unfulfilled, fulfilled_once := hi.fulfilled_once })

theorem promise_inv_api (N : Nat) (h : alert_handlers) (s : alert_handler) (c : api_call)
    (hi : promise_inv s) : promise_inv (alert_handler.api N h s c) := by
  cases c with
  | subscribe o flags args =>
    exact promise_inv_of_same_side (call_promise_side N s (bus_call.subscribe o flags args)) hi
  | unsubscribe o =>
    exact promise_inv_of_same_side (call_promise_side N s (bus_call.unsubscribe o)) hi
  | dispatch_alerts alerts => exact promise_inv_dispatch_alerts N h alerts s hi
  | wait cat => exact promise_inv_wait cat s hi
  | abort => exact promise_inv_abort N s hi

theorem promise_inv_run (N : Nat) (h : alert_handlers) (calls : List api_call) :
    ∀ s : alert_handler, promise_inv s → promise_inv (alert_handler.run N h calls s) := by
  induction calls with
  | nil => intro s hi; exact hi
  | cons c cs ih =>
    intro s hi
    exact ih _ (promise_inv_api N h s c hi)

theorem outstanding_nodup (N : Nat) (s : alert_handler) (hi : promise_inv s) :
    (alert_handler.outstanding N s).Nodup := by
  unfold alert_handler.outstanding
  rw [List.nodup_flatMap]
  refine ⟨fun t _ => hi.nodup _, ?_⟩
  refine List.Pairwise.imp_of_mem ?_ (List.nodup_range N)
  intro a b _ _ hab
  show List.Disjoint (s.m_promises (a : Int)) (s.m_promises (b : Int))
  intro p hp1 hp2
  have := hi.one_list _ _ p hp1 hp2
  exact hab (by exact_mod_cast this)

theorem added_append {α : Type} (l m : List α) : added l (l ++ m) = m := by
  simp [added]

theorem promise_inv_reached (N : Nat) (h : alert_handlers) (calls : List api_call) :
    promise_inv (alert_handler.reached N h calls) :=
  promise_inv_run N h calls _ promise_inv_init

/-- C5 (the code departs from the claim): an observer that subscribes twice to
the same type is handed one dispatched alert of that type twice; and an observer
that subscribed to type 4, then to type 5, and then unsubscribed is still handed
an alert of type 4. -/
theorem resubscribed_observer_handled_wrongly :
    (alert_handler.reached 100 passive_handlers
        [.subscribe 7 0 [4, 0], .subscribe 7 0 [4, 0], .dispatch_alerts [⟨4, 0⟩]]).handled
      = [(7, ⟨4, 0⟩), (7, ⟨4, 0⟩)] ∧
    (alert_handler.reached 100 passive_handlers
        [.subscribe 7 0 [4, 0], .subscribe 7 0 [5, 0], .unsubscribe 7,
          .dispatch_alerts [⟨4, 0⟩]]).handled
      = [(7, ⟨4, 0⟩)] := by
  constructor <;> decide

/-- C6: when an observer `o` calls `unsubscribe` on itself inside its own
`handle_alert`, the dispatch of that alert still hands it to exactly the
observers that stood in `m_observers[type]` when the fan-out started, in their
order; every other observer registered once under the type is invoked exactly
once for the alert. -/
theorem dispatch_alert_self_unsubscribe (N : Int) (h : alert_handlers) (s : alert_handler)
    (a : alert) (o : observer_id) (hself : ∀ st, bus_call.unsubscribe o ∈ h o a st) :
    added s.handled (alert_handler.dispatch_alert N h s a).handled
        = (s.m_observers a.type).map (fun k => (k, a)) ∧
    ∀ x, x ≠ o → (s.m_observers a.type).count x = 1 →
      ((added s.handled (alert_handler.dispatch_alert N h s a).handled).map Prod.fst).count x
        = 1 := by
  obtain ⟨d1, _⟩ := dispatch_alert_spec N h s a
  have hadd : added s.handled (alert_handler.dispatch_alert N h s a).handled
      = (s.m_observers a.type).map (fun k => (k, a)) := by
    rw [d1, added_append]
  refine ⟨hadd, ?_⟩
  intro x _ hx
  rw [hadd, List.map_map]
  have hid : (Prod.fst ∘ fun k : observer_id => (k, a)) = id := rfl
  rw [hid, List.map_id]
  exact hx

/-- C7: in every bus state reached by interface calls, `abort` fulfils exactly
the waiters outstanding in `m_promises`, each with `NULL`; for each of them this
is the only `set_value` it ever receives; afterwards no waiter is outstanding
and the bus is marked aborted. -/
theorem abort_fulfils_every_waiter (N : Nat) (h : alert_handlers) (calls : List api_call) :
    added (alert_handler.reached N h calls).fulfilled
        (alert_handler.abort N (alert_handler.reached N h calls)).fulfilled
      = (alert_handler.outstanding N (alert_handler.reached N h calls)).map (fun p => (p, none)) ∧
    (∀ p, p ∈ alert_handler.outstanding N (alert_handler.reached N h calls) →
      ((alert_handler.abort N (alert_handler.reached N h calls)).fulfilled.map Prod.fst).count p = 1) ∧
    alert_handler.outstanding N (alert_handler.abort N (alert_handler.reached N h calls)) = [] ∧
    (alert_handler.abort N (alert_handler.reached N h calls)).m_abort = true := by
  have hi := promise_inv_reached N h calls
  generalize alert_handler.reached N h calls = s at hi ⊢
  obtain ⟨a1, a2, a3, _, _⟩ := abort_spec N s
  refine ⟨by rw [a1, added_append], ?_, ?_, a3⟩
  · intro p hp
    have hfst : (alert_handler.abort N s).fulfilled.map Prod.fst
        = s.fulfilled.map Prod.fst ++ alert_handler.outstanding N s := by
      rw [a1, List.map_append, List.map_map]
      congr 1
      exact List.map_id _
    rw [hfst, List.count_append]
    obtain ⟨t, _, hpt⟩ := (mem_outstanding N s p).mp hp
    rw [List.count_eq_zero_of_not_mem (hi.unfulfilled _ p hpt),
      List.count_eq_one_of_mem (outstanding_nodup N s hi) hp]
  · apply outstanding_eq_nil
    intro t h0 hN
    rw [a2]
    simp [h0, hN]

/-- The state of a bus after `abort`: marked aborted, with empty waiter lists. -/
theorem aborted_api (N : Nat) (h : alert_handlers) (s : alert_handler) (c : api_call)
    (hc : c.in_range N) (ha : s.m_abort = true)
    (he : ∀ t : Int, 0 ≤ t → t < (N : Int) → s.m_promises t = []) :
    (alert_handler.api N h s c).m_abort = true ∧
    (∀ t : Int, 0 ≤ t → t < (N : Int) → (alert_handler.api N h s c).m_promises t = []) ∧
    (alert_handler.api N h s c).fulfilled = s.fulfilled := by
  cases c with
  | subscribe o flags args =>
    obtain ⟨_, c2, c3, c4, _⟩ := call_promise_side N s (bus_call.subscribe o flags args)
    refine ⟨c4.trans ha, ?_, c2⟩
    intro t h0 hN
    have hm : (alert_handler.api N h s (api_call.subscribe o flags args)).m_promises
        = s.m_promises := c3
    rw [hm]
    exact he t h0 hN
  | unsubscribe o =>
    exact ⟨ha, he, rfl⟩
  | dispatch_alerts alerts =>
    show (alert_handler.dispatch_alerts N h alerts s).m_abort = true ∧
      (∀ t : Int, 0 ≤ t → t < (N : Int) → (alert_handler.dispatch_alerts N h alerts s).m_promises t = []) ∧
      (alert_handler.dispatch_alerts N h alerts s).fulfilled = s.fulfilled
    have hc' : ∀ a ∈ alerts, 0 ≤ a.type ∧ a.type < N := hc
    clear hc
    induction alerts generalizing s with
    | nil => exact ⟨ha, he, rfl⟩
    | cons a rest ih =>
      obtain ⟨_, d2, d3, d4, _⟩ := dispatch_alert_spec N h s a
      obtain ⟨ht0, htN⟩ := hc' a (List.mem_cons_self _ _)
      have hempty : s.m_promises a.type = [] := he a.type ht0 htN
      have he' : ∀ t : Int, 0 ≤ t → t < (N : Int) →
          (alert_handler.dispatch_alert N h s a).m_promises t = [] := by
        intro t h0 hN
        rw [d3]
        by_cases hta : t = a.type
        · rw [hta, store_same]
        · rw [store_other _ _ _ _ hta]; exact he t h0 hN
      obtain ⟨r1, r2, r3⟩ := ih (alert_handler.dispatch_alert N h s a) (d4.trans ha) he'
        (fun b hb => hc' b (List.mem_cons_of_mem _ hb))
      refine ⟨r1, r2, ?_⟩
      show (alert_handler.dispatch_alerts N h rest (alert_handler.dispatch_alert N h s a)).fulfilled = _
      rw [r3, d2, hempty]
      simp
  | wait cat =>
    show (alert_handler.subscribe_impl_cat cat s).1.m_abort = true ∧
      (∀ t : Int, 0 ≤ t → t < (N : Int) → (alert_handler.subscribe_impl_cat cat s).1.m_promises t = []) ∧
      (alert_handler.subscribe_impl_cat cat s).1.fulfilled = s.fulfilled
    unfold alert_handler.subscribe_impl_cat
    rw [if_pos ha]
    exact ⟨ha, he, rfl⟩
  | abort =>
    obtain ⟨a1, a2, a3, _, _⟩ := abort_spec N s
    refine ⟨a3, ?_, ?_⟩
    · intro t h0 hN
      show (alert_handler.abort N s).m_promises t = []
      rw [a2]
      simp [h0, hN]
    · show (alert_handler.abort N s).fulfilled = s.fulfilled
      rw [a1, outstanding_eq_nil N s he]
      simp

theorem aborted_run (N : Nat) (h : alert_handlers) (calls : List api_call) :
    ∀ s : alert_handler, (∀ c ∈ calls, c.in_range N) → s.m_abort = true →
      (∀ t : Int, 0 ≤ t → t < (N : Int) → s.m_promises t = []) →
      (alert_handler.run N h calls s).m_abort = true ∧
      (∀ t : Int, 0 ≤ t → t < (N : Int) → (alert_handler.run N h calls s).m_promises t = []) ∧
      (alert_handler.run N h calls s).fulfilled = s.fulfilled := by
  induction calls with
  | nil => intro s _ ha he; exact ⟨ha, he, rfl⟩
  | cons c cs ih =>
    intro s hv ha he
    obtain ⟨b1, b2, b3⟩ := aborted_api N h s c (hv c (List.mem_cons_self _ _)) ha he
    obtain ⟨r1, r2, r3⟩ := ih (alert_handler.api N h s c)
      (fun c' hc' => hv c' (List.mem_cons_of_mem _ hc')) b1 b2
    exact ⟨r1, r2, r3.trans b3⟩

/-- C8: once `abort` has been called (in any bus state `s`), after any further
interface calls with in-range types the bus is still marked aborted, no waiter
is outstanding, no promise has been fulfilled since the `abort` (so none with a
real event), and `subscribe_impl(int)` returns an already fulfilled `NULL`
future and leaves the bus as it is. -/
theorem aborted_bus_stays_closed (N : Nat) (h : alert_handlers) (s : alert_handler)
    (calls : List api_call) (hv : ∀ c ∈ calls, c.in_range N) :
    (alert_handler.run N h calls (alert_handler.abort N s)).m_abort = true ∧
    alert_handler.outstanding N (alert_handler.run N h calls (alert_handler.abort N s)) = [] ∧
    (alert_handler.run N h calls (alert_handler.abort N s)).fulfilled
      = (alert_handler.abort N s).fulfilled ∧
    ∀ cat, alert_handler.subscribe_impl_cat cat (alert_handler.run N h calls (alert_handler.abort N s))
      = (alert_handler.run N h calls (alert_handler.abort N s), alert_future.ready none) := by
  obtain ⟨_, a2, a3, _, _⟩ := abort_spec N s
  have he : ∀ t : Int, 0 ≤ t → t < (N : Int) → (alert_handler.abort N s).m_promises t = [] := by
    intro t h0 hN
    rw [a2]
    simp [h0, hN]
  obtain ⟨r1, r2, r3⟩ := aborted_run N h calls (alert_handler.abort N s) hv a3 he
  refine ⟨r1, outstanding_eq_nil N _ r2, r3, ?_⟩
  intro cat
  unfold alert_handler.subscribe_impl_cat
  rw [if_pos r1]

/-- C9: in every bus state reached by interface calls, dispatching an alert of
type `T` fulfils exactly the waiters outstanding for `T`, one `set_value` each,
every one with its own clone of the alert, and empties the list of `T`; the
waiter list of every other type is unchanged and none of its waiters is fulfilled. -/
theorem dispatch_alert_fulfils_waiters (N : Nat) (h : alert_handlers) (calls : List api_call)
    (a : alert) :
    added (alert_handler.reached N h calls).fulfilled
        (alert_handler.dispatch_alert N h (alert_handler.reached N h calls) a).fulfilled
      = ((alert_handler.reached N h calls).m_promises a.type).map (fun p => (p, some a)) ∧
    (alert_handler.dispatch_alert N h (alert_handler.reached N h calls) a).m_promises a.type = [] ∧
    ∀ t, t ≠ a.type →
      (alert_handler.dispatch_alert N h (alert_handler.reached N h calls) a).m_promises t
        = (alert_handler.reached N h calls).m_promises t ∧
      ∀ p, p ∈ (alert_handler.reached N h calls).m_promises t →
        p ∉ (alert_handler.dispatch_alert N h (alert_handler.reached N h calls) a).fulfilled.map
          Prod.fst := by
  have hi := promise_inv_reached N h calls
  generalize alert_handler.reached N h calls = s at hi ⊢
  obtain ⟨_, d2, d3, _, _⟩ := dispatch_alert_spec N h s a
  refine ⟨by rw [d2, added_append], by rw [d3, store_same], ?_⟩
  intro t ht
  refine ⟨by rw [d3, store_other _ _ _ _ ht], ?_⟩
  intro p hp
  rw [d2, List.map_append, List.map_map, List.mem_append]
  rintro (hf | hf)
  · exact hi.unfulfilled t p hp hf
  · have hpa : p ∈ s.m_promises a.type := by
      simpa using hf
    exact ht (hi.one_list t a.type p hp hpa)

/-- C10 (the code departs from the claim): after `subscribe(o, 4)` followed by
`subscribe(o, 5)` the observer is still registered under type 4 as well as
under type 5, its own record lists only type 5 (in its second slot), and a
later alert of type 4 is handed to it. -/
theorem resubscribe_keeps_old_registration :
    (alert_handler.reached 100 passive_handlers
        [.subscribe 7 0 [4, 0], .subscribe 7 0 [5, 0]]).m_observers 4 = [7] ∧
    (alert_handler.reached 100 passive_handlers
        [.subscribe 7 0 [4, 0], .subscribe 7 0 [5, 0]]).m_observers 5 = [7] ∧
    ((alert_handler.reached 100 passive_handlers
        [.subscribe 7 0 [4, 0], .subscribe 7 0 [5, 0]]).observer 7).num_types = 2 ∧
    ((alert_handler.reached 100 passive_handlers
        [.subscribe 7 0 [4, 0], .subscribe 7 0 [5, 0]]).observer 7).types.take 2 = [0, 5] ∧
    (alert_handler.reached 100 passive_handlers
        [.subscribe 7 0 [4, 0], .subscribe 7 0 [5, 0], .dispatch_alerts [⟨4, 1⟩]]).handled
      = [(7, ⟨4, 1⟩)] := by
  refine ⟨by decide, by decide, by decide, by decide, by decide⟩

/-! ### Range streaming -/

/-- The function `handle_http` on a request with a parsed `Range` header. -/
theorem handle_http_range (q : Int) (ti : torrent_file) (first : Int) (last : Option Int) :
    file_downloader.handle_http q ti (some (first, last))
      = if first > last.getD (ti.file_size - 1) ∨ last.getD (ti.file_size - 1) ≥ ti.file_size
            ∨ first < 0 then
          http_reply.range_not_satisfiable ti.file_size
        else
          http_reply.streaming
            { status := 206
              reason := "Partial Content"
              content_length := last.getD (ti.file_size - 1) - first + 1
              content_range := some (first, last.getD (ti.file_size - 1), ti.file_size) }
            (file_downloader.start_stream q ti first (last.getD (ti.file_size - 1))) := by
  cases last <;>
    simp only [file_downloader.handle_http, file_downloader.parse_range, Option.getD_none,
      Option.getD_some, true_and, if_true]

theorem handle_http_session (q : Int) (ti : torrent_file) (first last : Int)
    (hrange : 0 ≤ first ∧ first ≤ last ∧ last < ti.file_size) :
    (file_downloader.handle_http q ti (some (first, some last))).session
      = some (file_downloader.start_stream q ti first last) := by
  rw [handle_http_range, Option.getD_some, if_neg (by omega)]
  rfl

/-- C3: a request with a parsed `Range` header is answered 416 exactly when
`first > last`, `last >= file_size` or `first < 0` (with the end of the file as
`last` when the header gives none); the 416 reply carries no stream state, so
nothing is streamed; `bytes=99999-100005` on a file of 100000 bytes gets 416. -/
theorem range_not_satisfiable_iff (q : Int) (ti : torrent_file) (first : Int) (last : Option Int) :
    (file_downloader.handle_http q ti (some (first, last))
        = http_reply.range_not_satisfiable ti.file_size ↔
      (first > last.getD (ti.file_size - 1) ∨ last.getD (ti.file_size - 1) ≥ ti.file_size
        ∨ first < 0)) ∧
    ((file_downloader.handle_http q ti (some (first, last))).session = none ↔
      (first > last.getD (ti.file_size - 1) ∨ last.getD (ti.file_size - 1) ≥ ti.file_size
        ∨ first < 0)) ∧
    file_downloader.handle_http file_downloader.m_queue_size
        { piece_length := 16384, file_offset := 0, file_size := 100000 }
        (some (99999, some 100005))
      = http_reply.range_not_satisfiable 100000 := by
  rw [handle_http_range]
  refine ⟨?_, ?_, by decide⟩
  · by_cases hc : first > last.getD (ti.file_size - 1)
        ∨ last.getD (ti.file_size - 1) ≥ ti.file_size ∨ first < 0
    · rw [if_pos hc]; exact iff_of_true rfl hc
    · rw [if_neg hc]; exact iff_of_false (fun h => by cases h) hc
  · by_cases hc : first > last.getD (ti.file_size - 1)
        ∨ last.getD (ti.file_size - 1) ≥ ti.file_size ∨ first < 0
    · rw [if_pos hc]; exact iff_of_true rfl hc
    · rw [if_neg hc]; exact iff_of_false (fun h => by cases h) hc

theorem set_deadlines_fields (base : Int) (s : stream_state) :
    (s.set_deadlines base).pq_begin = s.pq_begin ∧ (s.set_deadlines base).pq_end = s.pq_end ∧
    (s.set_deadlines base).pq_finish = s.pq_finish ∧ (s.set_deadlines base).queue = s.queue ∧
    (s.set_deadlines base).i = s.i ∧ (s.set_deadlines base).offset = s.offset ∧
    (s.set_deadlines base).left_to_send = s.left_to_send ∧
    (s.set_deadlines base).bytes_sent = s.bytes_sent ∧
    (s.set_deadlines base).request_size = s.request_size ∧
    (s.set_deadlines base).pc = s.pc ∧ (s.set_deadlines base).socket = s.socket :=
  ⟨rfl, rfl, rfl, rfl, rfl, rfl, rfl, rfl, rfl, rfl, rfl⟩

theorem for_head_fields (s : stream_state) :
    s.for_head.pq_begin = s.pq_begin ∧ s.for_head.pq_end = s.pq_end ∧
    s.for_head.pq_finish = s.pq_finish ∧ s.for_head.queue = s.queue ∧
    s.for_head.i = s.i ∧ s.for_head.offset = s.offset ∧
    s.for_head.left_to_send = s.left_to_send ∧ s.for_head.bytes_sent = s.bytes_sent ∧
    s.for_head.request_size = s.request_size ∧ s.for_head.socket = s.socket ∧
    s.for_head.pc = (if s.i < s.pq_finish then stream_pc.waiting else stream_pc.left_loop) := by
  unfold stream_state.for_head
  split <;> exact ⟨rfl, rfl, rfl, rfl, rfl, rfl, rfl, rfl, rfl, rfl, rfl⟩

theorem write_head_window (pe : piece_entry) (amount ret : Int) (s : stream_state) :
    (s.write_head pe amount ret).pq_begin = s.pq_begin ∧
    (s.write_head pe amount ret).pq_end = s.pq_end ∧
    (s.write_head pe amount ret).pq_finish = s.pq_finish ∧
    (s.write_head pe amount ret).queue = s.queue ∧
    (s.write_head pe amount ret).left_to_send = s.left_to_send ∧
    (s.write_head pe amount ret).bytes_sent = s.bytes_sent ∧
    (s.write_head pe amount ret).socket = s.socket := by
  unfold stream_state.write_head
  split
  · exact ⟨rfl, rfl, rfl, rfl, rfl, rfl, rfl⟩
  · split
    · exact ⟨rfl, rfl, rfl, rfl, rfl, rfl, rfl⟩
    · obtain ⟨f1, f2, f3, f4, _, _, f7, f8, _, f10, _⟩ :=
        for_head_fields { s with offset := 0, i := s.i + 1 }
      exact ⟨f1, f2, f3, f4, f7, f8, f10⟩

theorem slide_fields (s : stream_state) :
    s.slide.pq_end = min (s.pq_end + 1) s.pq_finish ∧
    s.slide.pq_begin = min (s.pq_begin + 1) (min (s.pq_end + 1) s.pq_finish) ∧
    s.slide.pq_finish = s.pq_finish ∧ s.slide.queue = s.queue ∧
    s.slide.i = s.i ∧ s.slide.offset = s.offset ∧
    s.slide.left_to_send = s.left_to_send ∧ s.slide.bytes_sent = s.bytes_sent ∧
    s.slide.socket = s.socket ∧ s.slide.pc = s.pc :=
  ⟨rfl, rfl, rfl, rfl, rfl, rfl, rfl, rfl, rfl, rfl⟩

/-- The cases of `wake` for a thread that is waiting. -/
theorem wake_waiting (s : stream_state) (hw : s.pc = stream_pc.waiting) :
    s.wake =
      match queue_top s.queue with
      | none => s
      | some pe =>
        if pe.piece > s.i then s
        else if pe.piece < s.i then { s with queue := queue_pop s.queue }
        else if pe.size = 0 then
          { ({ s with queue := queue_pop s.queue } : stream_state).slide with
            pc := stream_pc.left_loop }
        else
          ({ s with queue := queue_pop s.queue } : stream_state).slide.write_head pe
            (min (pe.size - s.offset) s.left_to_send) (-1) := by
  unfold stream_state.wake
  rw [hw]
  simp only []
  cases queue_top s.queue with
  | none => rfl
  | some pe =>
    simp only []
    split_ifs <;> rfl

theorem wake_not_waiting (s : stream_state) (hw : s.pc ≠ stream_pc.waiting) : s.wake = s := by
  unfold stream_state.wake
  split
  · contradiction
  · rfl

theorem window_ok_slide (M : Int) (s : stream_state) (h : s.window_ok M) : s.slide.window_ok M := by
  obtain ⟨h1, h2, h3⟩ := h
  obtain ⟨f1, f2, f3, _⟩ := slide_fields s
  unfold stream_state.window_ok
  rw [f1, f2, f3]
  omega

theorem window_ok_write_head (M : Int) (pe : piece_entry) (amount ret : Int) (s : stream_state)
    (h : s.window_ok M) : (s.write_head pe amount ret).window_ok M := by
  obtain ⟨w1, w2, w3, _⟩ := write_head_window pe amount ret s
  unfold stream_state.window_ok
  rw [w1, w2, w3]
  exact h

theorem window_ok_wake (M : Int) (s : stream_state) (h : s.window_ok M) : s.wake.window_ok M := by
  by_cases hw : s.pc = stream_pc.waiting
  · rw [wake_waiting s hw]
    cases queue_top s.queue with
    | none => exact h
    | some pe =>
      simp only
      have hs : ({ s with queue := queue_pop s.queue } : stream_state).slide.window_ok M :=
        window_ok_slide M _ h
      split_ifs
      · exact h
      · exact h
      · exact hs
      · exact window_ok_write_head M _ _ _ _ hs
  · rw [wake_not_waiting s hw]; exact h

theorem window_ok_step (M : Int) (s : stream_state) (e : stream_event) (h : s.window_ok M) :
    (s.step e).window_ok M := by
  cases e with
  | deliver pe =>
    show (piece_alert_dispatch.on_alert pe s).window_ok M
    unfold piece_alert_dispatch.on_alert
    split
    · exact h
    · exact h
  | wake => exact window_ok_wake M s h
  | write_returns ret eagain =>
    show (s.write_returns ret eagain).window_ok M
    unfold stream_state.write_returns
    split
    · split_ifs
      · exact h
      · exact h
      · exact window_ok_write_head M _ _ _ _ h
    · exact h

theorem window_ok_run (M : Int) (es : List stream_event) :
    ∀ s : stream_state, s.window_ok M → (s.run es).window_ok M := by
  induction es with
  | nil => intro s h; exact h
  | cons e es ih => intro s h; exact ih _ (window_ok_step M s e h)

theorem start_stream_fields (q : Int) (ti : torrent_file) (first last : Int) :
    (file_downloader.start_stream q ti first last).pq_begin
      = (ti.file_offset + first) / ti.piece_length ∧
    (file_downloader.start_stream q ti first last).pq_finish
      = (ti.file_offset + last) / ti.piece_length + 1 ∧
    (file_downloader.start_stream q ti first last).pq_end
      = min ((ti.file_offset + first) / ti.piece_length + max (q.tdiv ti.piece_length) 1)
          ((ti.file_offset + last) / ti.piece_length + 1) ∧
    (file_downloader.start_stream q ti first last).i
      = (ti.file_offset + first) / ti.piece_length ∧
    (file_downloader.start_stream q ti first last).offset
      = (ti.file_offset + first) % ti.piece_length ∧
    (file_downloader.start_stream q ti first last).left_to_send = last - first + 1 ∧
    (file_downloader.start_stream q ti first last).bytes_sent = 0 ∧
    (file_downloader.start_stream q ti first last).request_size = last - first + 1 ∧
    (file_downloader.start_stream q ti first last).queue = [] ∧
    (file_downloader.start_stream q ti first last).socket = [] := by
  unfold file_downloader.start_stream
  simp only
  generalize hs : stream_state.set_deadlines _ _ = s0
  obtain ⟨f1, f2, f3, f4, f5, f6, f7, f8, f9, f10, _⟩ := for_head_fields s0
  rw [f1, f2, f3, f4, f5, f6, f7, f8, f9, f10, ← hs]
  exact ⟨rfl, rfl, rfl, rfl, rfl, rfl, rfl, rfl, rfl, rfl⟩

/-- Monotony of the piece index in the byte offset. -/
theorem piece_index_mono (pl a b : Int) (hpl : 0 < pl) (hab : a ≤ b) : a / pl ≤ b / pl :=
  Int.ediv_le_ediv hpl hab

/-- C2: for a valid range `handle_http` starts a session whose window starts as `begin = firstPiece`,
`finish = endPiece`, `end = min(begin + max(queue_size / piece_length, 1), finish)`, and
in every state of the session, whatever the engine delivers and the socket
returns, `begin ≤ end ≤ finish` and `end - begin ≤ max(queue_size / piece_length, 1)`. -/
theorem window_invariant (q : Int) (ti : torrent_file) (first last : Int)
    (hpl : 0 < ti.piece_length) (hrange : 0 ≤ first ∧ first ≤ last ∧ last < ti.file_size)
    (es : List stream_event) :
    (file_downloader.handle_http q ti (some (first, some last))).session
      = some (file_downloader.start_stream q ti first last) ∧
    (file_downloader.start_stream q ti first last).pq_begin = (ti.map_file first).1 ∧
    (file_downloader.start_stream q ti first last).pq_finish = (ti.map_file last).1 + 1 ∧
    (file_downloader.start_stream q ti first last).pq_end
      = min ((file_downloader.start_stream q ti first last).pq_begin
              + max (q.tdiv ti.piece_length) 1)
          (file_downloader.start_stream q ti first last).pq_finish ∧
    ((file_downloader.start_stream q ti first last).run es).pq_begin
      ≤ ((file_downloader.start_stream q ti first last).run es).pq_end ∧
    ((file_downloader.start_stream q ti first last).run es).pq_end
      ≤ ((file_downloader.start_stream q ti first last).run es).pq_finish ∧
    ((file_downloader.start_stream q ti first last).run es).pq_end
        - ((file_downloader.start_stream q ti first last).run es).pq_begin
      ≤ max (q.tdiv ti.piece_length) 1 := by
  obtain ⟨f1, f2, f3, _⟩ := start_stream_fields q ti first last
  have hmono := piece_index_mono ti.piece_length (ti.file_offset + first) (ti.file_offset + last)
    hpl (by omega)
  have h0 : (file_downloader.start_stream q ti first last).window_ok
      (max (q.tdiv ti.piece_length) 1) := by
    unfold stream_state.window_ok
    rw [f1, f2, f3]
    omega
  obtain ⟨r1, r2, r3⟩ := window_ok_run _ es _ h0
  refine ⟨handle_http_session q ti first last hrange, f1, f2, ?_, r1, r2, r3⟩
  rw [f1, f2, f3]

/-! #### Lists of bytes and the priority queue -/

theorem bytes_at_zero {α : Type} (l : List α) (a : Int) : bytes_at l a 0 = [] := by
  simp [bytes_at]

theorem bytes_at_append {α : Type} (l : List α) (a n m : Int) (ha : 0 ≤ a) (hn : 0 ≤ n)
    (hm : 0 ≤ m) : bytes_at l a n ++ bytes_at l (a + n) m = bytes_at l a (n + m) := by
  unfold bytes_at
  rw [Int.toNat_add ha hn, Int.toNat_add hn hm, List.take_add, List.drop_drop]

theorem bytes_at_bytes_at {α : Type} (l : List α) (a n o r : Int) (ha : 0 ≤ a) (ho : 0 ≤ o)
    (hr : 0 ≤ r) (hn : o + r ≤ n) : bytes_at (bytes_at l a n) o r = bytes_at l (a + o) r := by
  unfold bytes_at
  rw [List.drop_take, List.take_take, List.drop_drop, Int.toNat_add ha ho]
  congr 1
  omega

theorem length_bytes_at {α : Type} (l : List α) (a n : Int) (ha : 0 ≤ a) (hn : 0 ≤ n)
    (hl : a + n ≤ (l.length : Int)) : ((bytes_at l a n).length : Int) = n := by
  unfold bytes_at
  rw [List.length_take, List.length_drop]
  omega

theorem queue_top_eq_none (q : List piece_entry) : queue_top q = none ↔ q = [] := by
  cases q with
  | nil => simp [queue_top]
  | cons e q =>
    simp only [queue_top]
    cases queue_top q with
    | none => simp
    | some m => simp only []; split_ifs <;> simp

theorem queue_top_mem (q : List piece_entry) (m : piece_entry) (h : queue_top q = some m) :
    m ∈ q := by
  induction q generalizing m with
  | nil => simp [queue_top] at h
  | cons e q ih =>
    simp only [queue_top] at h
    cases ht : queue_top q with
    | none =>
      rw [ht] at h
      simp only [Option.some.injEq] at h
      rw [← h]; exact List.mem_cons_self _ _
    | some m' =>
      rw [ht] at h
      simp only [] at h
      split_ifs at h with hlt
      · simp only [Option.some.injEq] at h
        rw [← h]; exact List.mem_cons_of_mem _ (ih m' ht)
      · simp only [Option.some.injEq] at h
        rw [← h]; exact List.mem_cons_self _ _

theorem queue_top_le (q : List piece_entry) (m : piece_entry) (h : queue_top q = some m) :
    ∀ x, x ∈ q → m.piece ≤ x.piece := by
  induction q generalizing m with
  | nil => intro x hx; cases hx
  | cons e q ih =>
    intro x hx
    simp only [queue_top] at h
    cases ht : queue_top q with
    | none =>
      rw [ht] at h
      simp only [Option.some.injEq] at h
      have hq : q = [] := (queue_top_eq_none q).mp ht
      subst hq
      simp only [List.mem_singleton] at hx
      rw [hx, h]
    | some m' =>
      rw [ht] at h
      simp only [] at h
      have ih' := ih m' ht
      rcases List.mem_cons.mp hx with hx | hx
      · split_ifs at h with hlt
        · simp only [Option.some.injEq] at h
          rw [← h, hx]; omega
        · simp only [Option.some.injEq] at h
          rw [← h, hx]
      · have := ih' x hx
        split_ifs at h with hlt
        · simp only [Option.some.injEq] at h
          rw [← h]; exact this
        · simp only [Option.some.injEq] at h
          rw [← h]; omega

theorem queue_pop_subset (q : List piece_entry) : ∀ x, x ∈ queue_pop q → x ∈ q := by
  induction q with
  | nil => intro x hx; simp [queue_pop] at hx
  | cons e q ih =>
    intro x hx
    simp only [queue_pop] at hx
    cases ht : queue_top q with
    | none => rw [ht] at hx; simp at hx
    | some m' =>
      rw [ht] at hx
      simp only [] at hx
      split_ifs at hx with hlt
      · rcases List.mem_cons.mp hx with hx | hx
        · rw [hx]; exact List.mem_cons_self _ _
        · exact List.mem_cons_of_mem _ (ih x hx)
      · exact List.mem_cons_of_mem _ hx

theorem queue_pop_keeps (q : List piece_entry) (m : piece_entry) (h : queue_top q = some m) :
    ∀ x, x ∈ q → x ∈ queue_pop q ∨ x = m := by
  induction q generalizing m with
  | nil => intro x hx; cases hx
  | cons e q ih =>
    intro x hx
    simp only [queue_top] at h
    simp only [queue_pop]
    cases ht : queue_top q with
    | none =>
      rw [ht] at h
      simp only [Option.some.injEq] at h
      have hq : q = [] := (queue_top_eq_none q).mp ht
      subst hq
      simp only [List.mem_singleton] at hx
      right; rw [hx, h]
    | some m' =>
      rw [ht] at h
      simp only [] at h ⊢
      split_ifs at h ⊢ with hlt
      · simp only [Option.some.injEq] at h
        rcases List.mem_cons.mp hx with hx | hx
        · left; rw [hx]; exact List.mem_cons_self _ _
        · rcases ih m' ht x hx with h1 | h1
          · left; exact List.mem_cons_of_mem _ h1
          · right; rw [h1, h]
      · simp only [Option.some.injEq] at h
        rcases List.mem_cons.mp hx with hx | hx
        · right; rw [hx, h]
        · left; exact hx

/-! #### The invariant of a faithful run -/

theorem write_head_pos (pe : piece_entry) (amount ret : Int) (s : stream_state)
    (h : 0 < amount) :
    s.write_head pe amount ret = { s with pc := stream_pc.writing pe amount } := by
  unfold stream_state.write_head
  rw [if_pos h]

theorem write_head_next (pe : piece_entry) (amount ret : Int) (s : stream_state)
    (h : ¬ 0 < amount) (hr : 0 < ret) :
    s.write_head pe amount ret = stream_state.for_head { s with offset := 0, i := s.i + 1 } := by
  unfold stream_state.write_head
  rw [if_neg h, if_neg (by omega)]

theorem body_sent (pe : piece_entry) (ret : Int) (s : stream_state) :
    (s.sent pe ret).body = s.body ++ bytes_at pe.buffer s.offset ret := by
  simp [stream_state.body, stream_state.sent, List.flatMap_append]

theorem div_eq_of_bounds (pl i x : Int) (hpl : 0 < pl) (h1 : i * pl ≤ x) (h2 : x < i * pl + pl) :
    x / pl = i := by
  have ha : i ≤ x / pl := Int.le_ediv_of_mul_le hpl h1
  have hb : x / pl < i + 1 := Int.ediv_lt_of_lt_mul hpl (by rw [add_mul, one_mul]; exact h2)
  omega

theorem true_piece_size (content : List Nat) (total pl p : Int) (pe : piece_entry)
    (h : pe = true_piece content total pl p) :
    pe.size = max 0 (min pl (total - p * pl)) ∧ pe.piece = p ∧
      pe.buffer = bytes_at content (p * pl) pl := by
  subst h
  exact ⟨rfl, rfl, rfl⟩

theorem index_mul_nonneg (pl fo first i : Int) (hpl : 0 < pl) (h0 : 0 ≤ fo + first)
    (hi : (fo + first) / pl ≤ i) : 0 ≤ i * pl := by
  have : 0 ≤ (fo + first) / pl := Int.ediv_nonneg h0 (le_of_lt hpl)
  exact mul_nonneg (by omega) (le_of_lt hpl)

theorem stream_inv_deliver (content : List Nat) (total pl fo first last : Int)
    (s : stream_state) (pe : piece_entry) (hi : stream_inv content total pl fo first last s)
    (hpe : pe = true_piece content total pl pe.piece) :
    stream_inv content total pl fo first last (piece_alert_dispatch.on_alert pe s) := by
  unfold piece_alert_dispatch.on_alert
  split
  · exact hi
  · refine ⟨hi.finish_eq, hi.window, hi.sent_eq, hi.sent_nonneg, hi.left_nonneg, hi.body_eq, ?_,
      hi.first_le, hi.at_wait, hi.at_write, hi.at_exit⟩
    intro x hx
    rcases List.mem_append.mp hx with hx | hx
    · exact hi.queue_true x hx
    · rw [List.mem_singleton] at hx
      rw [hx]; exact hpe

theorem stream_inv_wake (content : List Nat) (total pl fo first last : Int)
    (hreq : request_ok content total pl fo first last)
    (s : stream_state) (hi : stream_inv content total pl fo first last s) :
    stream_inv content total pl fo first last s.wake := by
  by_cases hw : s.pc = stream_pc.waiting
  · rw [wake_waiting s hw]
    cases ht : queue_top s.queue with
    | none => exact hi
    | some pe =>
      simp only []
      obtain ⟨w1, w2, w3, w4, w5, w6, w7⟩ := hi.at_wait hw
      have hmem := queue_top_mem _ _ ht
      have htrue := hi.queue_true pe hmem
      obtain ⟨hsz, _, _⟩ := true_piece_size content total pl pe.piece pe htrue
      have hpop : ∀ x, x ∈ queue_pop s.queue → x = true_piece content total pl x.piece :=
        fun x hx => hi.queue_true x (queue_pop_subset _ x hx)
      have hlast := hreq.last_lt
      have hsent := hi.sent_eq
      have hbs := hi.sent_nonneg
      obtain ⟨hwin1, hwin2⟩ := hi.window
      split_ifs with h1 h2 h3
      · exact hi
      · exact ⟨hi.finish_eq, hi.window, hi.sent_eq, hi.sent_nonneg, hi.left_nonneg, hi.body_eq,
          hpop, hi.first_le, hi.at_wait, hi.at_write, hi.at_exit⟩
      · exfalso
        have hp : pe.piece = s.i := by omega
        rw [hp] at hsz
        generalize s.i * pl = X at *
        omega
      · have hp : pe.piece = s.i := by omega
        rw [hp] at hsz
        have hamount : 0 < min (pe.size - s.offset) s.left_to_send := by
          generalize s.i * pl = X at *
          omega
        rw [write_head_pos _ _ _ _ hamount]
        refine ⟨hi.finish_eq, ?_, hi.sent_eq, hi.sent_nonneg, hi.left_nonneg, hi.body_eq,
          hpop, hi.first_le, ?_, ?_, ?_⟩
        · show min (s.pq_begin + 1) (min (s.pq_end + 1) s.pq_finish)
              ≤ min (s.pq_end + 1) s.pq_finish ∧ min (s.pq_end + 1) s.pq_finish ≤ s.pq_finish
          omega
        · intro hc; cases hc
        · intro pe' amount' hc
          injection hc with e1 e2
          subst e1 e2
          refine ⟨?_, ?_, w2, w3, w4, hamount, rfl, ?_⟩
          · show pe = true_piece content total pl s.i
            rw [← hp]
            exact htrue
          · show min (s.pq_begin + 1) (min (s.pq_end + 1) s.pq_finish) = s.i + 1
            omega
          · show min (s.i + 2) s.pq_finish ≤ min (s.pq_end + 1) s.pq_finish
            omega
        · intro hc; cases hc
  · rw [wake_not_waiting s hw]; exact hi

theorem for_head_pos (t : stream_state) (h : t.i < t.pq_finish) :
    t.for_head = { t with pc := stream_pc.waiting } := by
  unfold stream_state.for_head
  rw [if_pos h]

theorem for_head_neg (t : stream_state) (h : ¬ t.i < t.pq_finish) :
    t.for_head = { t with pc := stream_pc.left_loop } := by
  unfold stream_state.for_head
  rw [if_neg h]

theorem write_returns_writing (s : stream_state) (pe : piece_entry) (amount ret : Int)
    (eagain : Bool) (hpc : s.pc = stream_pc.writing pe amount) (hret : 0 < ret) :
    s.write_returns ret eagain = (s.sent pe ret).write_head pe (amount - ret) ret := by
  unfold stream_state.write_returns
  rw [hpc]
  simp only []
  rw [if_neg (by omega)]

theorem write_returns_not_writing (s : stream_state) (ret : Int) (eagain : Bool)
    (hpc : ∀ pe amount, s.pc ≠ stream_pc.writing pe amount) : s.write_returns ret eagain = s := by
  unfold stream_state.write_returns
  split
  · exact absurd ‹_› (hpc _ _)
  · rfl

theorem stream_inv_write_returns (content : List Nat) (total pl fo first last : Int)
    (hreq : request_ok content total pl fo first last)
    (s : stream_state) (ret : Int) (eagain : Bool)
    (hi : stream_inv content total pl fo first last s)
    (hf : (stream_event.write_returns ret eagain).faithful content total pl s) :
    stream_inv content total pl fo first last (s.write_returns ret eagain) := by
  cases hpc : s.pc with
  | waiting =>
    rw [write_returns_not_writing s ret eagain (by intro pe a h; rw [hpc] at h; cases h)]
    exact hi
  | left_loop =>
    rw [write_returns_not_writing s ret eagain (by intro pe a h; rw [hpc] at h; cases h)]
    exact hi
  | writing pe amount =>
    have hf' : 0 < ret ∧ ret ≤ amount := by
      simpa [stream_event.faithful, hpc] using hf
    obtain ⟨hret, hle⟩ := hf'
    obtain ⟨t1, t2, t3, t4, t5, t6, t7, t8⟩ := hi.at_write pe amount hpc
    obtain ⟨hsz, _, hbuf⟩ := true_piece_size content total pl s.i pe t1
    have hpl := hreq.pl_pos
    have hlast := hreq.last_lt
    have hsent := hi.sent_eq
    have hbs := hi.sent_nonneg
    have hleft := hi.left_nonneg
    have hfin := hi.finish_eq
    have hX : 0 ≤ s.i * pl :=
      index_mul_nonneg pl fo first s.i hpl (by have := hreq.fo_nonneg; have := hreq.first_nonneg; omega)
        hi.first_le
    have hmul : (s.i + 1) * pl = s.i * pl + pl := by ring
    have hdiv := div_eq_of_bounds pl s.i (fo + last) hpl
    have hdiv2 : (s.i + 1) * pl ≤ fo + last → s.i + 1 ≤ (fo + last) / pl :=
      fun h => Int.le_ediv_of_mul_le hpl h
    have hbody : (s.sent pe ret).body = bytes_at content (fo + first) (s.bytes_sent + ret) := by
      rw [body_sent, hbuf, hi.body_eq,
        bytes_at_bytes_at content (s.i * pl) pl s.offset ret hX t5 (le_of_lt hret)
          (by generalize s.i * pl = X at *; omega),
        ← t4, bytes_at_append content (fo + first) s.bytes_sent ret
          (by have := hreq.fo_nonneg; have := hreq.first_nonneg; omega) hbs (le_of_lt hret)]
    rw [write_returns_writing s pe amount ret eagain hpc hret]
    by_cases hrem : 0 < amount - ret
    · rw [write_head_pos _ _ _ _ hrem]
      refine ⟨hi.finish_eq, hi.window, ?_, ?_, ?_, hbody, hi.queue_true, hi.first_le, ?_, ?_, ?_⟩
      · show s.bytes_sent + ret + (s.left_to_send - ret) = last - first + 1
        omega
      · show 0 ≤ s.bytes_sent + ret
        omega
      · show 0 ≤ s.left_to_send - ret
        omega
      · intro hc; cases hc
      · intro pe' amount' hc
        injection hc with e1 e2
        subst e1 e2
        refine ⟨t1, t2, t3, ?_, ?_, hrem, ?_, t8⟩
        · show fo + first + (s.bytes_sent + ret) = s.i * pl + (s.offset + ret)
          omega
        · show 0 ≤ s.offset + ret
          omega
        · show amount - ret = min (pe.size - (s.offset + ret)) (s.left_to_send - ret)
          omega
      · intro hc; cases hc
    · rw [write_head_next _ _ _ _ hrem hret]
      by_cases hnext : s.i + 1 < s.pq_finish
      · rw [for_head_pos _ hnext]
        refine ⟨hi.finish_eq, hi.window, ?_, ?_, ?_, hbody, hi.queue_true, ?_, ?_, ?_, ?_⟩
        · show s.bytes_sent + ret + (s.left_to_send - ret) = last - first + 1
          omega
        · show 0 ≤ s.bytes_sent + ret
          omega
        · show 0 ≤ s.left_to_send - ret
          omega
        · show (fo + first) / pl ≤ s.i + 1
          have := hi.first_le
          omega
        · intro _
          show s.pq_begin = s.i + 1 ∧ s.i + 1 < s.pq_finish ∧
            fo + first + (s.bytes_sent + ret) = (s.i + 1) * pl + 0 ∧ (0 : Int) ≤ 0 ∧ 0 < pl ∧
            0 < s.left_to_send - ret ∧ s.pq_begin < s.pq_end
          generalize s.i * pl = X at *
          generalize (s.i + 1) * pl = Y at *
          generalize (fo + last) / pl = D at *
          omega
        · intro pe' amount' hc; cases hc
        · intro hc; cases hc
      · rw [for_head_neg _ hnext]
        refine ⟨hi.finish_eq, hi.window, ?_, ?_, ?_, hbody, hi.queue_true, ?_, ?_, ?_, ?_⟩
        · show s.bytes_sent + ret + (s.left_to_send - ret) = last - first + 1
          omega
        · show 0 ≤ s.bytes_sent + ret
          omega
        · show 0 ≤ s.left_to_send - ret
          omega
        · show (fo + first) / pl ≤ s.i + 1
          have := hi.first_le
          omega
        · intro hc; cases hc
        · intro pe' amount' hc; cases hc
        · intro _
          show s.left_to_send - ret = 0
          generalize s.i * pl = X at *
          generalize (s.i + 1) * pl = Y at *
          generalize (fo + last) / pl = D at *
          omega

theorem stream_inv_start (content : List Nat) (total q : Int) (ti : torrent_file)
    (first last : Int)
    (hreq : request_ok content total ti.piece_length ti.file_offset first last) :
    stream_inv content total ti.piece_length ti.file_offset first last
      (file_downloader.start_stream q ti first last) ∧
    (file_downloader.start_stream q ti first last).pc = stream_pc.waiting := by
  have hpl := hreq.pl_pos
  have h1 := hreq.first_le_last
  have hmono := piece_index_mono ti.piece_length (ti.file_offset + first) (ti.file_offset + last)
    hpl (by omega)
  have hmod := Int.ediv_add_emod (ti.file_offset + first) ti.piece_length
  have hm0 := Int.emod_nonneg (ti.file_offset + first) (ne_of_gt hpl)
  have hm1 := Int.emod_lt_of_pos (ti.file_offset + first) hpl
  have hlt : (ti.file_offset + first) / ti.piece_length
      < (ti.file_offset + last) / ti.piece_length + 1 := by omega
  unfold file_downloader.start_stream
  simp only []
  rw [for_head_pos _ hlt]
  refine ⟨⟨rfl, ?_, ?_, ?_, ?_, ?_, ?_, ?_, ?_, ?_, ?_⟩, rfl⟩
  · show (ti.file_offset + first) / ti.piece_length
        ≤ min ((ti.file_offset + first) / ti.piece_length
            + max (q.tdiv ti.piece_length) 1) ((ti.file_offset + last) / ti.piece_length + 1) ∧
      min ((ti.file_offset + first) / ti.piece_length
            + max (q.tdiv ti.piece_length) 1) ((ti.file_offset + last) / ti.piece_length + 1)
        ≤ (ti.file_offset + last) / ti.piece_length + 1
    omega
  · show (0 : Int) + (last - first + 1) = last - first + 1
    omega
  · show (0 : Int) ≤ 0
    omega
  · show 0 ≤ last - first + 1
    omega
  · show ([] : List socket_write).flatMap _ = bytes_at content (ti.file_offset + first) 0
    rw [bytes_at_zero]
    rfl
  · intro pe hpe
    cases hpe
  · show (ti.file_offset + first) / ti.piece_length ≤ (ti.file_offset + first) / ti.piece_length
    omega
  · intro _
    show (ti.file_offset + first) / ti.piece_length = (ti.file_offset + first) / ti.piece_length ∧
      (ti.file_offset + first) / ti.piece_length < (ti.file_offset + last) / ti.piece_length + 1 ∧
      ti.file_offset + first + 0
        = (ti.file_offset + first) / ti.piece_length * ti.piece_length
          + (ti.file_offset + first) % ti.piece_length ∧
      0 ≤ (ti.file_offset + first) % ti.piece_length ∧
      (ti.file_offset + first) % ti.piece_length < ti.piece_length ∧ 0 < last - first + 1 ∧
      (ti.file_offset + first) / ti.piece_length
        < min ((ti.file_offset + first) / ti.piece_length
            + max (q.tdiv ti.piece_length) 1) ((ti.file_offset + last) / ti.piece_length + 1)
    rw [mul_comm] at hmod
    refine ⟨rfl, hlt, by omega, hm0, hm1, by omega, by omega⟩
  · intro pe amount hc
    cases hc
  · intro hc
    cases hc

theorem stream_inv_step (content : List Nat) (total pl fo first last : Int)
    (hreq : request_ok content total pl fo first last) (s : stream_state) (e : stream_event)
    (hi : stream_inv content total pl fo first last s)
    (hf : e.faithful content total pl s) :
    stream_inv content total pl fo first last (s.step e) := by
  cases e with
  | deliver pe => exact stream_inv_deliver content total pl fo first last s pe hi hf
  | wake => exact stream_inv_wake content total pl fo first last hreq s hi
  | write_returns ret eagain =>
    exact stream_inv_write_returns content total pl fo first last hreq s ret eagain hi hf

theorem stream_inv_run (content : List Nat) (total pl fo first last : Int)
    (hreq : request_ok content total pl fo first last) (es : List stream_event) :
    ∀ s : stream_state, stream_inv content total pl fo first last s →
      stream_state.faithful_run content total pl s es →
      stream_inv content total pl fo first last (s.run es) := by
  induction es with
  | nil => intro s hi _; exact hi
  | cons e es ih =>
    intro s hi hf
    exact ih (s.step e) (stream_inv_step content total pl fo first last hreq s e hi hf.1) hf.2

/-! #### Pieces that were accepted are not lost -/

theorem has_piece_pop (s : stream_state) (m : piece_entry) (p : Int)
    (ht : queue_top s.queue = some m) (hp : p ∈ s.queue.map piece_entry.piece) :
    p ∈ (queue_pop s.queue).map piece_entry.piece ∨ p = m.piece := by
  obtain ⟨x, hx, hxp⟩ := List.mem_map.mp hp
  rcases queue_pop_keeps s.queue m ht x hx with h | h
  · exact Or.inl (List.mem_map.mpr ⟨x, h, hxp⟩)
  · right; rw [← hxp, h]

theorem has_piece_write_head (s t : stream_state) (pe : piece_entry) (amount ret : Int) (p : Int)
    (hq : p ∈ s.queue.map piece_entry.piece → p ∈ t.queue.map piece_entry.piece ∨ p ≤ t.i)
    (hi : t.i = s.i) (hpc : s.pc = stream_pc.waiting → p < s.i → p ≤ t.i)
    (hpc' : s.pc ≠ stream_pc.waiting → p ≤ s.i → p ≤ t.i)
    (h : s.has_piece p) (hs : s.pc ≠ stream_pc.left_loop) :
    (t.write_head pe amount ret).has_piece p := by
  have hle : p ∈ t.queue.map piece_entry.piece ∨ p ≤ t.i := by
    rcases h with h | h | ⟨h1, h2⟩ | ⟨h1, h2⟩
    · exact hq h
    · exact absurd h hs
    · exact Or.inr (hpc h1 h2)
    · exact Or.inr (hpc' h1 h2)
  unfold stream_state.write_head
  split_ifs with c1 c2
  · rcases hle with h | h
    · exact Or.inl h
    · refine Or.inr (Or.inr (Or.inr ⟨?_, h⟩))
      intro hc
      cases hc
  · exact Or.inr (Or.inl rfl)
  · obtain ⟨_, _, _, f4, f5, _, _, _, _, _, f11⟩ :=
      for_head_fields { t with offset := 0, i := t.i + 1 }
    rcases hle with h | h
    · left; rw [f4]; exact h
    · right
      by_cases hn : t.i + 1 < t.pq_finish
      · right; left
        refine ⟨?_, ?_⟩
        · rw [f11]; exact if_pos hn
        · rw [f5]; show p < t.i + 1; omega
      · left
        rw [f11]; exact if_neg hn

theorem has_piece_step (s : stream_state) (e : stream_event) (p : Int) (h : s.has_piece p) :
    (s.step e).has_piece p := by
  cases e with
  | deliver pe =>
    show (piece_alert_dispatch.on_alert pe s).has_piece p
    unfold piece_alert_dispatch.on_alert
    split
    · exact h
    · rcases h with h | h | h | h
      · left
        show p ∈ (s.queue ++ [pe]).map piece_entry.piece
        rw [List.map_append]
        exact List.mem_append_left _ h
      · exact Or.inr (Or.inl h)
      · exact Or.inr (Or.inr (Or.inl h))
      · exact Or.inr (Or.inr (Or.inr h))
  | wake =>
    show s.wake.has_piece p
    by_cases hw : s.pc = stream_pc.waiting
    · rw [wake_waiting s hw]
      cases ht : queue_top s.queue with
      | none => exact h
      | some m =>
        simp only []
        split_ifs with h1 h2 h3
        · exact h
        · rcases h with h | h | h | h
          · rcases has_piece_pop s m p ht h with h' | h'
            · exact Or.inl h'
            · refine Or.inr (Or.inr (Or.inl ⟨hw, ?_⟩))
              show p < s.i
              omega
          · exact Or.inr (Or.inl h)
          · exact Or.inr (Or.inr (Or.inl h))
          · exact Or.inr (Or.inr (Or.inr h))
        · exact Or.inr (Or.inl rfl)
        · refine has_piece_write_head s _ m _ _ p ?_ ?_ ?_ ?_ h ?_
          · intro hq
            rcases has_piece_pop s m p ht hq with h' | h'
            · exact Or.inl h'
            · right; show p ≤ s.i; omega
          · rfl
          · intro _ hlt; show p ≤ s.i; omega
          · intro hne; exact absurd hw hne
          · rw [hw]; intro hc; cases hc
    · rw [wake_not_waiting s hw]; exact h
  | write_returns ret eagain =>
    show (s.write_returns ret eagain).has_piece p
    cases hpc : s.pc with
    | waiting =>
      rw [write_returns_not_writing s ret eagain (by intro pe a hc; rw [hpc] at hc; cases hc)]
      exact h
    | left_loop =>
      rw [write_returns_not_writing s ret eagain (by intro pe a hc; rw [hpc] at hc; cases hc)]
      exact h
    | writing pe amount =>
      unfold stream_state.write_returns
      rw [hpc]
      simp only []
      split_ifs with c1 c2
      · exact h
      · exact Or.inr (Or.inl rfl)
      · refine has_piece_write_head s _ pe _ _ p ?_ ?_ ?_ ?_ h ?_
        · intro hq; exact Or.inl hq
        · rfl
        · intro hc; rw [hpc] at hc; cases hc
        · intro _ hle; exact hle
        · rw [hpc]; intro hc; cases hc

theorem has_piece_run (es : List stream_event) (p : Int) :
    ∀ s : stream_state, s.has_piece p → (s.run es).has_piece p := by
  induction es with
  | nil => intro s h; exact h
  | cons e es ih => intro s h; exact ih _ (has_piece_step s e p h)

theorem accepted_has_piece (es : List stream_event) (p : Int) :
    ∀ s : stream_state, p ∈ s.accepted es → (s.run es).has_piece p := by
  induction es with
  | nil => intro s h; cases h
  | cons e es ih =>
    intro s h
    simp only [stream_state.accepted] at h
    rcases List.mem_append.mp h with h | h
    · apply has_piece_run es p
      cases e with
      | deliver pe =>
        simp only [] at h
        split_ifs at h with hc
        · cases h
        · rw [List.mem_singleton] at h
          left
          show p ∈ (piece_alert_dispatch.on_alert pe s).queue.map piece_entry.piece
          unfold piece_alert_dispatch.on_alert
          rw [if_neg hc, h]
          simp
      | wake => cases h
      | write_returns ret eagain => cases h
    · exact ih _ h

/-- In a state where the consuming thread has nothing to do although piece `i`
was accepted at some point, the loop is over. -/
theorem idle_with_piece (s : stream_state) (hidle : s.idle = true)
    (hp : s.pc = stream_pc.waiting → s.has_piece s.i) : s.pc = stream_pc.left_loop := by
  cases hpc : s.pc with
  | left_loop => rfl
  | writing pe amount =>
    unfold stream_state.idle at hidle
    rw [hpc] at hidle
    cases hidle
  | waiting =>
    exfalso
    unfold stream_state.idle at hidle
    rw [hpc] at hidle
    simp only [] at hidle
    rcases hp hpc with h | h | ⟨_, h⟩ | ⟨h, _⟩
    · obtain ⟨x, hx, hxp⟩ := List.mem_map.mp h
      cases ht : queue_top s.queue with
      | none =>
        rw [(queue_top_eq_none _).mp ht] at hx
        cases hx
      | some m =>
        rw [ht] at hidle
        simp only [decide_eq_true_eq] at hidle
        have := queue_top_le s.queue m ht x hx
        omega
    · rw [hpc] at h; cases h
    · omega
    · exact h hpc

/-! #### Every faithful run can be completed -/

theorem run_append (s : stream_state) (es es' : List stream_event) :
    s.run (es ++ es') = (s.run es).run es' := by
  simp [stream_state.run, List.foldl_append]

theorem faithful_run_append (content : List Nat) (total pl : Int) (es es' : List stream_event) :
    ∀ s : stream_state, s.faithful_run content total pl es →
      (s.run es).faithful_run content total pl es' →
      s.faithful_run content total pl (es ++ es') := by
  induction es with
  | nil => intro s _ h; exact h
  | cons e es ih =>
    intro s h1 h2
    exact ⟨h1.1, ih (s.step e) h1.2 h2⟩

theorem queue_pop_length (q : List piece_entry) (m : piece_entry) (h : queue_top q = some m) :
    (queue_pop q).length + 1 = q.length := by
  induction q generalizing m with
  | nil => simp [queue_top] at h
  | cons e q ih =>
    simp only [queue_pop]
    cases ht : queue_top q with
    | none =>
      have hq : q = [] := (queue_top_eq_none q).mp ht
      subst hq
      rfl
    | some m' =>
      simp only []
      split_ifs
      · simp only [List.length_cons]
        have := ih m' ht
        omega
      · rfl

theorem wake_stale (s : stream_state) (m : piece_entry) (hw : s.pc = stream_pc.waiting)
    (ht : queue_top s.queue = some m) (hm : m.piece < s.i) :
    s.wake = { s with queue := queue_pop s.queue } := by
  rw [wake_waiting s hw, ht]
  simp only []
  rw [if_neg (by omega), if_pos hm]

theorem wake_hit (content : List Nat) (total pl fo first last : Int)
    (hreq : request_ok content total pl fo first last)
    (s : stream_state) (hi : stream_inv content total pl fo first last s)
    (hw : s.pc = stream_pc.waiting) (m : piece_entry) (ht : queue_top s.queue = some m)
    (hm : m.piece = s.i) :
    ∃ amount, 0 < amount ∧ s.wake.pc = stream_pc.writing m amount ∧ s.wake.i = s.i := by
  obtain ⟨w1, w2, w3, w4, w5, w6, w7⟩ := hi.at_wait hw
  have hmem := queue_top_mem _ _ ht
  obtain ⟨hsz, _, _⟩ := true_piece_size content total pl m.piece m (hi.queue_true m hmem)
  have hlast := hreq.last_lt
  have hsent := hi.sent_eq
  have hbs := hi.sent_nonneg
  rw [hm] at hsz
  have hsize : ¬ m.size = 0 := by
    generalize s.i * pl = X at *
    omega
  have hamount : 0 < min (m.size - s.offset) s.left_to_send := by
    generalize s.i * pl = X at *
    omega
  rw [wake_waiting s hw, ht]
  simp only []
  rw [if_neg (by omega), if_neg (by omega), if_neg hsize, write_head_pos _ _ _ _ hamount]
  exact ⟨_, hamount, rfl, rfl⟩

theorem write_whole (s : stream_state) (pe : piece_entry) (amount : Int)
    (hpc : s.pc = stream_pc.writing pe amount) (ha : 0 < amount) :
    (s.write_returns amount false).pc = stream_pc.left_loop ∨
      ((s.write_returns amount false).pc = stream_pc.waiting ∧
        (s.write_returns amount false).i = s.i + 1) := by
  rw [write_returns_writing s pe amount amount false hpc ha,
    write_head_next _ _ _ _ (by omega) ha]
  by_cases hn : s.i + 1 < s.pq_finish
  · rw [for_head_pos _ hn]
    exact Or.inr ⟨rfl, rfl⟩
  · rw [for_head_neg _ hn]
    exact Or.inl rfl

/-- With piece `i` in the queue, the waiting thread gets through iteration `i`:
stale entries are popped, then the piece, which one write sends. -/
theorem consume_piece (content : List Nat) (total pl fo first last : Int)
    (hreq : request_ok content total pl fo first last) (n : Nat) :
    ∀ s : stream_state, stream_inv content total pl fo first last s →
      s.pc = stream_pc.waiting → s.queue.length = n → (∃ x, x ∈ s.queue ∧ x.piece = s.i) →
      ∃ es, s.faithful_run content total pl es ∧
        ((s.run es).pc = stream_pc.left_loop ∨
          ((s.run es).pc = stream_pc.waiting ∧ (s.run es).i = s.i + 1)) := by
  induction n with
  | zero =>
    intro s _ _ hlen hx
    obtain ⟨x, hx, _⟩ := hx
    rw [List.length_eq_zero] at hlen
    rw [hlen] at hx
    cases hx
  | succ n ih =>
    intro s hi hw hlen hx
    obtain ⟨x, hx, hxp⟩ := hx
    cases ht : queue_top s.queue with
    | none =>
      rw [(queue_top_eq_none _).mp ht] at hx
      cases hx
    | some m =>
      have hle := queue_top_le s.queue m ht x hx
      by_cases hm : m.piece = s.i
      · obtain ⟨amount, ha, hpcw, hiw⟩ :=
          wake_hit content total pl fo first last hreq s hi hw m ht hm
        refine ⟨[stream_event.wake, stream_event.write_returns amount false], ⟨trivial, ?_, trivial⟩, ?_⟩
        · show stream_event.faithful content total pl s.wake
            (stream_event.write_returns amount false)
          unfold stream_event.faithful
          rw [hpcw]
          exact ⟨ha, le_refl _⟩
        · show (s.wake.write_returns amount false).pc = stream_pc.left_loop ∨
            ((s.wake.write_returns amount false).pc = stream_pc.waiting ∧
              (s.wake.write_returns amount false).i = s.i + 1)
          rw [← hiw]
          exact write_whole s.wake m amount hpcw ha
      · have hlt : m.piece < s.i := by omega
        have hwake := wake_stale s m hw ht hlt
        have hi' := stream_inv_wake content total pl fo first last hreq s hi
        rw [hwake] at hi'
        have hlen' : (queue_pop s.queue).length = n := by
          have := queue_pop_length s.queue m ht
          omega
        have hx' : x ∈ queue_pop s.queue := by
          rcases queue_pop_keeps s.queue m ht x hx with h | h
          · exact h
          · exfalso; rw [h] at hxp; exact hm hxp
        obtain ⟨es, hf, hres⟩ := ih { s with queue := queue_pop s.queue } hi' hw hlen' ⟨x, hx', hxp⟩
        refine ⟨stream_event.wake :: es, ⟨trivial, ?_⟩, ?_⟩
        · show stream_state.faithful_run content total pl s.wake es
          rw [hwake]
          exact hf
        · show ((s.wake).run es).pc = stream_pc.left_loop ∨
            (((s.wake).run es).pc = stream_pc.waiting ∧ ((s.wake).run es).i = s.i + 1)
          rw [hwake]
          exact hres

theorem complete_waiting (content : List Nat) (total pl fo first last : Int)
    (hreq : request_ok content total pl fo first last) (k : Nat) :
    ∀ s : stream_state, stream_inv content total pl fo first last s →
      s.pc = stream_pc.waiting → (s.pq_finish - s.i).toNat = k →
      ∃ es, s.faithful_run content total pl es ∧ (s.run es).pc = stream_pc.left_loop := by
  induction k with
  | zero =>
    intro s hi hw hk
    obtain ⟨_, w2, _⟩ := hi.at_wait hw
    omega
  | succ k ih =>
    intro s hi hw hk
    obtain ⟨w1, w2, _, _, _, _, w7⟩ := hi.at_wait hw
    have hdel : piece_alert_dispatch.on_alert (true_piece content total pl s.i) s
        = { s with queue := s.queue ++ [true_piece content total pl s.i] } := by
      unfold piece_alert_dispatch.on_alert
      rw [if_neg]
      show ¬ (s.i < s.pq_begin ∨ s.i ≥ s.pq_end)
      omega
    have hf1 : (stream_event.deliver (true_piece content total pl s.i)).faithful content total pl s :=
      rfl
    have hi1 := stream_inv_step content total pl fo first last hreq s _ hi hf1
    have hstep : s.step (stream_event.deliver (true_piece content total pl s.i))
        = { s with queue := s.queue ++ [true_piece content total pl s.i] } := hdel
    rw [hstep] at hi1
    obtain ⟨es1, hfr1, hres1⟩ := consume_piece content total pl fo first last hreq _
      { s with queue := s.queue ++ [true_piece content total pl s.i] } hi1 hw rfl
      ⟨true_piece content total pl s.i, List.mem_append_right _ (List.mem_singleton.mpr rfl), rfl⟩
    have hi2 := stream_inv_run content total pl fo first last hreq es1 _ hi1 hfr1
    rcases hres1 with hdone | ⟨hw2, hi2i⟩
    · refine ⟨stream_event.deliver (true_piece content total pl s.i) :: es1, ⟨hf1, ?_⟩, ?_⟩
      · rw [hstep]; exact hfr1
      · show ((s.step (stream_event.deliver (true_piece content total pl s.i))).run es1).pc = _
        rw [hstep]; exact hdone
    · have hfin : (stream_state.run { s with queue := s.queue ++ [true_piece content total pl s.i] }
          es1).pq_finish = s.pq_finish := by
        rw [hi2.finish_eq, hi.finish_eq]
      obtain ⟨es2, hfr2, hres2⟩ := ih _ hi2 hw2 (by rw [hfin, hi2i]; show (s.pq_finish - (s.i + 1)).toNat = k; omega)
      refine ⟨stream_event.deliver (true_piece content total pl s.i) :: (es1 ++ es2), ⟨hf1, ?_⟩, ?_⟩
      · rw [hstep]
        exact faithful_run_append content total pl es1 es2 _ hfr1 hfr2
      · show ((s.step (stream_event.deliver (true_piece content total pl s.i))).run (es1 ++ es2)).pc = _
        rw [hstep, run_append]
        exact hres2

/-- From every state of a faithful run the session can be brought to its end by
the engine posting the pieces still missing and the socket taking the bytes. -/
theorem can_complete (content : List Nat) (total pl fo first last : Int)
    (hreq : request_ok content total pl fo first last) (s : stream_state)
    (hi : stream_inv content total pl fo first last s) :
    ∃ es, s.faithful_run content total pl es ∧ (s.run es).pc = stream_pc.left_loop := by
  cases hpc : s.pc with
  | left_loop => exact ⟨[], trivial, hpc⟩
  | waiting => exact complete_waiting content total pl fo first last hreq _ s hi hpc rfl
  | writing pe amount =>
    obtain ⟨_, _, _, _, _, t6, _⟩ := hi.at_write pe amount hpc
    have hf1 : (stream_event.write_returns amount false).faithful content total pl s := by
      unfold stream_event.faithful
      rw [hpc]
      exact ⟨t6, le_refl _⟩
    have hi1 := stream_inv_step content total pl fo first last hreq s _ hi hf1
    rcases write_whole s pe amount hpc t6 with hdone | ⟨hw, _⟩
    · exact ⟨[stream_event.write_returns amount false], ⟨hf1, trivial⟩, hdone⟩
    · obtain ⟨es, hfr, hres⟩ := complete_waiting content total pl fo first last hreq _
        (s.step (stream_event.write_returns amount false)) hi1 hw rfl
      exact ⟨stream_event.write_returns amount false :: es, ⟨hf1, hfr⟩, hres⟩

/-! #### The streamed bytes -/

theorem body_length_le (s : stream_state) :
    s.body.length ≤ (s.socket.map (fun w => w.length.toNat)).sum := by
  unfold stream_state.body
  induction s.socket with
  | nil => simp
  | cons w ws ih =>
    simp only [List.flatMap_cons, List.length_append, List.map_cons, List.sum_cons]
    have : (bytes_at w.buffer w.offset w.length).length ≤ w.length.toNat := by
      unfold bytes_at
      rw [List.length_take]
      exact Nat.min_le_left _ _
    omega

/-- What a faithful run has written: the bytes of the range sent so far, in
ascending order; all of them once the loop is left. -/
theorem faithful_run_body (content : List Nat) (total q : Int) (ti : torrent_file)
    (first last : Int)
    (hreq : request_ok content total ti.piece_length ti.file_offset first last)
    (es : List stream_event)
    (hf : (file_downloader.start_stream q ti first last).faithful_run content total
      ti.piece_length es) :
    ((file_downloader.start_stream q ti first last).run es).body
      = bytes_at content (ti.file_offset + first)
          ((file_downloader.start_stream q ti first last).run es).bytes_sent ∧
    0 ≤ ((file_downloader.start_stream q ti first last).run es).bytes_sent ∧
    ((file_downloader.start_stream q ti first last).run es).bytes_sent ≤ last - first + 1 ∧
    (((file_downloader.start_stream q ti first last).run es).pc = stream_pc.left_loop →
      ((file_downloader.start_stream q ti first last).run es).bytes_sent = last - first + 1) := by
  have hi := stream_inv_run content total ti.piece_length ti.file_offset first last hreq es _
    (stream_inv_start content total q ti first last hreq).1 hf
  have h1 := hi.sent_eq
  have h2 := hi.left_nonneg
  refine ⟨hi.body_eq, hi.sent_nonneg, by omega, ?_⟩
  intro hpc
  have := hi.at_exit hpc
  omega

theorem request_ok_of_range (content : List Nat) (total : Int) (ti : torrent_file)
    (first last : Int) (hlen : (content.length : Int) = total) (hpl : 0 < ti.piece_length)
    (hfo : 0 ≤ ti.file_offset) (hfit : ti.file_offset + ti.file_size ≤ total)
    (hrange : 0 ≤ first ∧ first ≤ last ∧ last < ti.file_size) :
    request_ok content total ti.piece_length ti.file_offset first last :=
  ⟨hpl, hfo, hrange.1, hrange.2.1, by omega, hlen⟩

/-- C1 (as amended): for a file inside a torrent and a valid range
`0 ≤ first ≤ last < file_size`, `handle_http` starts a streaming session, and in
every run of it in which the engine posts true
pieces and every socket write succeeds, the body written so far is the bytes of
the file from `first` on, in ascending order, never more than `last - first + 1`;
if every piece of `[first_piece, end_piece)` was posted at a moment when it lay
in the window `[begin, end)`, then once the consuming thread has nothing left to
do the loop is over and the body is exactly the bytes `first .. last`; and every
such run can be continued to one that ends with exactly these bytes written. -/
theorem range_round_trip (content : List Nat) (total q : Int) (ti : torrent_file)
    (first last : Int) (hlen : (content.length : Int) = total) (hpl : 0 < ti.piece_length)
    (hfo : 0 ≤ ti.file_offset) (hfit : ti.file_offset + ti.file_size ≤ total)
    (hrange : 0 ≤ first ∧ first ≤ last ∧ last < ti.file_size)
    (es : List stream_event)
    (hf : (file_downloader.start_stream q ti first last).faithful_run content total
      ti.piece_length es) :
    (file_downloader.handle_http q ti (some (first, some last))).session
      = some (file_downloader.start_stream q ti first last) ∧
    (((file_downloader.start_stream q ti first last).run es).body
        = bytes_at content (ti.file_offset + first)
            ((file_downloader.start_stream q ti first last).run es).bytes_sent ∧
      ((file_downloader.start_stream q ti first last).run es).bytes_sent ≤ last - first + 1) ∧
    ((∀ p, (file_downloader.start_stream q ti first last).pq_begin ≤ p →
          p < (file_downloader.start_stream q ti first last).pq_finish →
          p ∈ (file_downloader.start_stream q ti first last).accepted es) →
      ((file_downloader.start_stream q ti first last).run es).idle = true →
      ((file_downloader.start_stream q ti first last).run es).pc = stream_pc.left_loop ∧
      ((file_downloader.start_stream q ti first last).run es).body
        = bytes_at content (ti.file_offset + first) (last - first + 1) ∧
      (((file_downloader.start_stream q ti first last).run es).body.length : Int)
        = last - first + 1) ∧
    (∃ es', (file_downloader.start_stream q ti first last).faithful_run content total
        ti.piece_length (es ++ es') ∧
      ((file_downloader.start_stream q ti first last).run (es ++ es')).pc
        = stream_pc.left_loop ∧
      ((file_downloader.start_stream q ti first last).run (es ++ es')).body
        = bytes_at content (ti.file_offset + first) (last - first + 1)) := by
  have hreq := request_ok_of_range content total ti first last hlen hpl hfo hfit hrange
  obtain ⟨b1, b2, b3, b4⟩ := faithful_run_body content total q ti first last hreq es hf
  have hi := stream_inv_run content total ti.piece_length ti.file_offset first last hreq es _
    (stream_inv_start content total q ti first last hreq).1 hf
  refine ⟨handle_http_session q ti first last hrange, ⟨b1, b3⟩, ?_, ?_⟩
  swap
  · obtain ⟨es', hf', hdone'⟩ := can_complete content total ti.piece_length ti.file_offset
      first last hreq _ hi
    have hfa := faithful_run_append content total ti.piece_length es es' _ hf hf'
    obtain ⟨c1, _, _, c4⟩ := faithful_run_body content total q ti first last hreq (es ++ es') hfa
    rw [← run_append] at hdone'
    refine ⟨es', hfa, hdone', ?_⟩
    rw [c1, c4 hdone']
  intro hacc hidle
  obtain ⟨f1, f2, _⟩ := start_stream_fields q ti first last
  have hdone : ((file_downloader.start_stream q ti first last).run es).pc = stream_pc.left_loop := by
    apply idle_with_piece _ hidle
    intro hw
    obtain ⟨_, w2, _⟩ := hi.at_wait hw
    apply accepted_has_piece
    apply hacc
    · rw [f1]; exact hi.first_le
    · rw [f2, ← hi.finish_eq]; exact w2
  have hsent := b4 hdone
  rw [hsent] at b1
  refine ⟨hdone, b1, ?_⟩
  rw [b1]
  exact length_bytes_at content _ _ (by omega) (by omega) (by omega)

/-- C1 (the claim as stated fails): for the whole of a file of two 16 MiB pieces
the window holds one piece (`m_queue_size / piece_length = 1`). The engine posts
piece 1 and then piece 0, each with its true content, and the one socket write
succeeds; piece 1 arrives outside the window and is dropped. The consuming
thread then waits on an empty queue for piece 1, with 16777216 of the 33554432
bytes written. -/
theorem range_round_trip_fails_outside_window :
    (large_content.length : Int) = 33554432 ∧
    (file_downloader.start_stream file_downloader.m_queue_size large_file 0 33554431).faithful_run
      large_content 33554432 16777216 large_events ∧
    delivered_pieces large_events = [1, 0] ∧
    (file_downloader.start_stream file_downloader.m_queue_size large_file 0 33554431).pq_begin = 0 ∧
    (file_downloader.start_stream file_downloader.m_queue_size large_file 0 33554431).pq_end = 1 ∧
    (file_downloader.start_stream file_downloader.m_queue_size large_file 0 33554431).pq_finish = 2 ∧
    ((file_downloader.start_stream file_downloader.m_queue_size large_file 0 33554431).run
      large_events).idle = true ∧
    ((file_downloader.start_stream file_downloader.m_queue_size large_file 0 33554431).run
      large_events).pc = stream_pc.waiting ∧
    ((file_downloader.start_stream file_downloader.m_queue_size large_file 0 33554431).run
      large_events).queue.length = 0 ∧
    ((file_downloader.start_stream file_downloader.m_queue_size large_file 0 33554431).run
      large_events).i = 1 ∧
    ((file_downloader.start_stream file_downloader.m_queue_size large_file 0 33554431).run
      large_events).bytes_sent = 16777216 ∧
    ((file_downloader.start_stream file_downloader.m_queue_size large_file 0 33554431).run
      large_events).body.length < 33554432 := by
  refine ⟨?_, ?_, by decide, by decide, by decide, by decide, by decide, by decide, by decide,
    by decide, by decide, ?_⟩
  · rw [large_content, List.length_replicate]
    rfl
  · refine ⟨rfl, rfl, trivial, ?_, trivial⟩
    show (0 : Int) < 16777216 ∧ (16777216 : Int) ≤ 16777216
    decide
  · refine lt_of_le_of_lt (body_length_le _) ?_
    decide

theorem scenario_request_ok :
    request_ok scenario_content 100000 scenario_file.piece_length scenario_file.file_offset
      20000 39999 := by
  refine ⟨by decide, by decide, by decide, by decide, by decide, ?_⟩
  rw [scenario_content, List.length_map, List.length_range]
  rfl

theorem scenario_faithful :
    (file_downloader.start_stream file_downloader.m_queue_size scenario_file 20000
      39999).faithful_run scenario_content 100000 scenario_file.piece_length scenario_events := by
  refine ⟨rfl, rfl, trivial, ?_, trivial, ?_, trivial⟩
  · show (0 : Int) < 12768 ∧ (12768 : Int) ≤ 12768
    decide
  · show (0 : Int) < 7232 ∧ (7232 : Int) ≤ 7232
    decide

/-- C4: a valid range request is answered `206 Partial Content` with
`Content-Length: last - first + 1` and `Content-Range: bytes first-last/file_size`,
and streaming starts at `first_piece = (file_offset + first) / piece_length`, in-piece
offset `(file_offset + first) mod piece_length`, up to
`end_piece = (file_offset + last) / piece_length + 1`. With piece length 16384, a
file of 100000 bytes at offset 0 and `bytes=20000-39999`: first piece 1, last
piece 2, `Content-Range: bytes 20000-39999/100000`, and once pieces 2 and 1 have
arrived a body of the 20000 bytes at offsets 20000 to 39999. -/
theorem partial_content_reply (q : Int) (ti : torrent_file) (first last : Int)
    (hrange : 0 ≤ first ∧ first ≤ last ∧ last < ti.file_size) :
    (file_downloader.handle_http q ti (some (first, some last))
      = http_reply.streaming
          { status := 206
            reason := "Partial Content"
            content_length := last - first + 1
            content_range := some (first, last, ti.file_size) }
          (file_downloader.start_stream q ti first last) ∧
    (file_downloader.start_stream q ti first last).pq_begin
      = (ti.file_offset + first) / ti.piece_length ∧
    (file_downloader.start_stream q ti first last).i
      = (ti.file_offset + first) / ti.piece_length ∧
    (file_downloader.start_stream q ti first last).pq_finish
      = (ti.file_offset + last) / ti.piece_length + 1 ∧
    (file_downloader.start_stream q ti first last).offset
      = (ti.file_offset + first) % ti.piece_length ∧
    (file_downloader.start_stream q ti first last).left_to_send = last - first + 1) ∧
    (file_downloader.handle_http file_downloader.m_queue_size scenario_file
        (some (20000, some 39999))
      = http_reply.streaming
          { status := 206
            reason := "Partial Content"
            content_length := 20000
            content_range := some (20000, 39999, 100000) }
          (file_downloader.start_stream file_downloader.m_queue_size scenario_file 20000 39999) ∧
    (file_downloader.start_stream file_downloader.m_queue_size scenario_file 20000 39999).pq_begin
      = 1 ∧
    (file_downloader.start_stream file_downloader.m_queue_size scenario_file 20000 39999).pq_finish
      - 1 = 2 ∧
    ((file_downloader.start_stream file_downloader.m_queue_size scenario_file 20000 39999).run
      scenario_events).pc = stream_pc.left_loop ∧
    ((file_downloader.start_stream file_downloader.m_queue_size scenario_file 20000 39999).run
      scenario_events).body = bytes_at scenario_content 20000 20000 ∧
    ((file_downloader.start_stream file_downloader.m_queue_size scenario_file 20000 39999).run
      scenario_events).body.length = 20000) := by
  have hgen : ∀ (q : Int) (ti : torrent_file) (first last : Int),
      0 ≤ first ∧ first ≤ last ∧ last < ti.file_size →
      file_downloader.handle_http q ti (some (first, some last))
        = http_reply.streaming
            { status := 206
              reason := "Partial Content"
              content_length := last - first + 1
              content_range := some (first, last, ti.file_size) }
            (file_downloader.start_stream q ti first last) := by
    intro q ti first last hr
    rw [handle_http_range, Option.getD_some, if_neg (by omega)]
  obtain ⟨f1, f2, _, f4, f5, f6, _⟩ := start_stream_fields q ti first last
  refine ⟨⟨hgen q ti first last hrange, f1, f4, f2, f5, f6⟩, ?_⟩
  obtain ⟨b1, _, _, b4⟩ := faithful_run_body scenario_content 100000 file_downloader.m_queue_size
    scenario_file 20000 39999 scenario_request_ok scenario_events scenario_faithful
  have hpc : ((file_downloader.start_stream file_downloader.m_queue_size scenario_file 20000
      39999).run scenario_events).pc = stream_pc.left_loop := by decide
  have hbody : ((file_downloader.start_stream file_downloader.m_queue_size scenario_file 20000
      39999).run scenario_events).body = bytes_at scenario_content 20000 20000 := by
    rw [b1, b4 hpc]
    rfl
  refine ⟨hgen _ scenario_file 20000 39999 (by decide), by decide, by decide, hpc, hbody, ?_⟩
  rw [hbody]
  have hlen := length_bytes_at scenario_content 20000 20000 (by decide) (by decide)
    (by rw [scenario_content, List.length_map, List.length_range]; decide)
  exact_mod_cast hlen

/-! ### Instances of the theorems on the example data -/

theorem demo_faithful :
    (file_downloader.start_stream 8 demo_file 1 7).faithful_run demo_content 12
      demo_file.piece_length demo_events := by
  refine ⟨rfl, rfl, trivial, ?_, trivial, ?_, ?_, rfl, trivial, ?_, trivial⟩
  · show (0 : Int) < 1 ∧ (1 : Int) ≤ 1
    decide
  · show (0 : Int) < 2 ∧ (2 : Int) ≤ 4
    decide
  · show (0 : Int) < 2 ∧ (2 : Int) ≤ 2
    decide
  · show (0 : Int) < 2 ∧ (2 : Int) ≤ 2
    decide

theorem demo_accepted (p : Int)
    (h1 : (file_downloader.start_stream 8 demo_file 1 7).pq_begin ≤ p)
    (h2 : p < (file_downloader.start_stream 8 demo_file 1 7).pq_finish) :
    p ∈ (file_downloader.start_stream 8 demo_file 1 7).accepted demo_events := by
  have e1 : (file_downloader.start_stream 8 demo_file 1 7).pq_begin = 0 := by decide
  have e2 : (file_downloader.start_stream 8 demo_file 1 7).pq_finish = 3 := by decide
  have e3 : (file_downloader.start_stream 8 demo_file 1 7).accepted demo_events = [1, 0, 2] := by
    decide
  rw [e1] at h1
  rw [e2] at h2
  rw [e3]
  have : p = 0 ∨ p = 1 ∨ p = 2 := by omega
  rcases this with h | h | h <;> subst h <;> decide

/-- Instance of `range_round_trip`: bytes 1 to 7 of the nine-byte file are
written in order although piece 1 arrives before piece 0 and is written in two parts. -/
theorem range_round_trip_witness :
    ((demo_content.length : Int) = 12 ∧ 0 < demo_file.piece_length ∧ 0 ≤ demo_file.file_offset ∧
      demo_file.file_offset + demo_file.file_size ≤ 12 ∧
      ((0 : Int) ≤ 1 ∧ (1 : Int) ≤ 7 ∧ 7 < demo_file.file_size) ∧
      (file_downloader.start_stream 8 demo_file 1 7).faithful_run demo_content 12
        demo_file.piece_length demo_events ∧
      ((file_downloader.start_stream 8 demo_file 1 7).run demo_events).idle = true) ∧
    ((file_downloader.start_stream 8 demo_file 1 7).run demo_events).pc = stream_pc.left_loop ∧
    ((file_downloader.start_stream 8 demo_file 1 7).run demo_events).body
      = [13, 14, 15, 16, 17, 18, 19] :=
  ⟨⟨by decide, by decide, by decide, by decide, by decide, demo_faithful, by decide⟩,
    ((range_round_trip demo_content 12 8 demo_file 1 7 (by decide) (by decide) (by decide)
      (by decide) (by decide) demo_events demo_faithful).2.2.1 demo_accepted (by decide)).1,
    ((range_round_trip demo_content 12 8 demo_file 1 7 (by decide) (by decide) (by decide)
      (by decide) (by decide) demo_events demo_faithful).2.2.1 demo_accepted (by decide)).2.1.trans
      (by decide)⟩

/-- Instance of `window_invariant` on the demo run. -/
theorem window_invariant_witness :
    (0 < demo_file.piece_length ∧ ((0 : Int) ≤ 1 ∧ (1 : Int) ≤ 7 ∧ 7 < demo_file.file_size)) ∧
    ((file_downloader.start_stream 8 demo_file 1 7).run demo_events).pq_begin
      ≤ ((file_downloader.start_stream 8 demo_file 1 7).run demo_events).pq_end ∧
    ((file_downloader.start_stream 8 demo_file 1 7).run demo_events).pq_end
      ≤ ((file_downloader.start_stream 8 demo_file 1 7).run demo_events).pq_finish ∧
    ((file_downloader.start_stream 8 demo_file 1 7).run demo_events).pq_end
        - ((file_downloader.start_stream 8 demo_file 1 7).run demo_events).pq_begin
      ≤ max ((8 : Int).tdiv demo_file.piece_length) 1 :=
  ⟨⟨by decide, by decide⟩,
    (window_invariant 8 demo_file 1 7 (by decide) (by decide) demo_events).2.2.2.2⟩

/-- Instance of `range_not_satisfiable_iff`: `bytes=5-20` on the nine-byte file. -/
theorem range_not_satisfiable_iff_witness :
    ((5 : Int) > (some (20 : Int)).getD (demo_file.file_size - 1)
      ∨ (some (20 : Int)).getD (demo_file.file_size - 1) ≥ demo_file.file_size ∨ (5 : Int) < 0) ∧
    file_downloader.handle_http 8 demo_file (some (5, some 20))
      = http_reply.range_not_satisfiable demo_file.file_size :=
  ⟨by decide, (range_not_satisfiable_iff 8 demo_file 5 (some 20)).1.mpr (by decide)⟩

/-- Instance of `partial_content_reply`: `bytes=1-7` on the nine-byte file. -/
theorem partial_content_reply_witness :
    ((0 : Int) ≤ 1 ∧ (1 : Int) ≤ 7 ∧ 7 < demo_file.file_size) ∧
    file_downloader.handle_http 8 demo_file (some (1, some 7))
      = http_reply.streaming
          { status := 206
            reason := "Partial Content"
            content_length := 7 - 1 + 1
            content_range := some (1, 7, demo_file.file_size) }
          (file_downloader.start_stream 8 demo_file 1 7) :=
  ⟨by decide, (partial_content_reply 8 demo_file 1 7 (by decide)).1.1⟩

/-- Instance of `dispatch_alert_self_unsubscribe`: three observers of type 4 that
all unsubscribe themselves when handed the alert; each is handed it once. -/
theorem dispatch_alert_self_unsubscribe_witness :
    (∀ st, bus_call.unsubscribe 2 ∈ unsubscribing_handlers 2 ⟨4, 0⟩ st) ∧
    ((2 : observer_id) ≠ 3 ∧ (demo_bus.m_observers (4 : Int)).count 3 = 1) ∧
    added demo_bus.handled
        (alert_handler.dispatch_alert 100 unsubscribing_handlers demo_bus ⟨4, 0⟩).handled
      = [(1, ⟨4, 0⟩), (2, ⟨4, 0⟩), (3, ⟨4, 0⟩)] ∧
    ((added demo_bus.handled
        (alert_handler.dispatch_alert 100 unsubscribing_handlers demo_bus ⟨4, 0⟩).handled).map
      Prod.fst).count 3 = 1 :=
  ⟨fun _ => List.mem_singleton.mpr rfl, ⟨by decide, by decide⟩,
    (dispatch_alert_self_unsubscribe 100 unsubscribing_handlers demo_bus ⟨4, 0⟩ 2
      (fun _ => List.mem_singleton.mpr rfl)).1.trans (by decide),
    (dispatch_alert_self_unsubscribe 100 unsubscribing_handlers demo_bus ⟨4, 0⟩ 2
      (fun _ => List.mem_singleton.mpr rfl)).2 3 (by decide) (by decide)⟩

/-- Instance of `abort_fulfils_every_waiter`: the waiters 0, 2 and 3 are outstanding. -/
theorem abort_fulfils_every_waiter_witness :
    (2 : promise_id) ∈ alert_handler.outstanding 100
      (alert_handler.reached 100 passive_handlers demo_calls) ∧
    ((alert_handler.abort 100
      (alert_handler.reached 100 passive_handlers demo_calls)).fulfilled.map Prod.fst).count 2
      = 1 ∧
    added (alert_handler.reached 100 passive_handlers demo_calls).fulfilled
        (alert_handler.abort 100 (alert_handler.reached 100 passive_handlers demo_calls)).fulfilled
      = [(0, none), (2, none), (3, none)] :=
  ⟨by decide,
    (abort_fulfils_every_waiter 100 passive_handlers demo_calls).2.1 2 (by decide),
    (abort_fulfils_every_waiter 100 passive_handlers demo_calls).1.trans (by decide)⟩

theorem demo_later_calls_in_range :
    ∀ c ∈ [api_call.wait 4, api_call.dispatch_alerts [⟨4, 1⟩, ⟨6, 2⟩], api_call.abort,
      api_call.wait 6], c.in_range 100 := by
  intro c hc
  simp only [List.mem_cons, List.mem_singleton, List.not_mem_nil, or_false] at hc
  rcases hc with h | h | h | h <;> subst h
  · show (0 : Int) ≤ 4 ∧ (4 : Int) < (100 : Nat)
    decide
  · show ∀ a ∈ [(⟨4, 1⟩ : alert), ⟨6, 2⟩], 0 ≤ a.type ∧ a.type < (100 : Nat)
    decide
  · trivial
  · show (0 : Int) ≤ 6 ∧ (6 : Int) < (100 : Nat)
    decide

/-- Instance of `aborted_bus_stays_closed`: after `abort`, a wait, a dispatch of
alerts of types 4 and 6, another `abort` and another wait fulfil nothing. -/
theorem aborted_bus_stays_closed_witness :
    (∀ c ∈ [api_call.wait 4, api_call.dispatch_alerts [⟨4, 1⟩, ⟨6, 2⟩], api_call.abort,
      api_call.wait 6], c.in_range 100) ∧
    (alert_handler.run 100 passive_handlers
        [api_call.wait 4, api_call.dispatch_alerts [⟨4, 1⟩, ⟨6, 2⟩], api_call.abort,
          api_call.wait 6]
        (alert_handler.abort 100 (alert_handler.reached 100 passive_handlers demo_calls))).fulfilled
      = (alert_handler.abort 100
          (alert_handler.reached 100 passive_handlers demo_calls)).fulfilled :=
  ⟨demo_later_calls_in_range,
    (aborted_bus_stays_closed 100 passive_handlers
      (alert_handler.reached 100 passive_handlers demo_calls) _ demo_later_calls_in_range).2.2.1⟩

/-- Instance of `dispatch_alert_fulfils_waiters`: an alert of type 4 fulfils the
waiters 0 and 2 and leaves waiter 3 of type 6 outstanding. -/
theorem dispatch_alert_fulfils_waiters_witness :
    ((6 : Int) ≠ (⟨4, 9⟩ : alert).type ∧
      (3 : promise_id) ∈ (alert_handler.reached 100 passive_handlers demo_calls).m_promises 6) ∧
    added (alert_handler.reached 100 passive_handlers demo_calls).fulfilled
        (alert_handler.dispatch_alert 100 passive_handlers
          (alert_handler.reached 100 passive_handlers demo_calls) ⟨4, 9⟩).fulfilled
      = [(0, some ⟨4, 9⟩), (2, some ⟨4, 9⟩)] ∧
    (alert_handler.dispatch_alert 100 passive_handlers
        (alert_handler.reached 100 passive_handlers demo_calls) ⟨4, 9⟩).m_promises 6 = [3] ∧
    (3 : promise_id) ∉ (alert_handler.dispatch_alert 100 passive_handlers
        (alert_handler.reached 100 passive_handlers demo_calls) ⟨4, 9⟩).fulfilled.map Prod.fst :=
  ⟨⟨by decide, by decide⟩,
    (dispatch_alert_fulfils_waiters 100 passive_handlers demo_calls ⟨4, 9⟩).1.trans (by decide),
    ((dispatch_alert_fulfils_waiters 100 passive_handlers demo_calls ⟨4, 9⟩).2.2 6
      (by decide)).1.trans (by decide),
    ((dispatch_alert_fulfils_waiters 100 passive_handlers demo_calls ⟨4, 9⟩).2.2 6
      (by decide)).2 3 (by decide)⟩

/-! ### The alert bus: registrations -/

theorem collect_types_eq (args : List Int) (room : Nat) :
    alert_handler.collect_types args room
      = (args.takeWhile (fun t => decide (t ≠ 0))).take room := by
  induction args generalizing room with
  | nil => cases room <;> simp [alert_handler.collect_types]
  | cons t rest ih =>
    cases room with
    | zero => simp [alert_handler.collect_types]
    | succ room =>
      by_cases h0 : t = 0
      · simp [alert_handler.collect_types, h0]
      · simp [alert_handler.collect_types, h0, List.takeWhile_cons, ih]

theorem collect_types_nonzero (args : List Int) (room : Nat) :
    ∀ t, t ∈ alert_handler.collect_types args room → t ≠ 0 := by
  intro t ht
  rw [collect_types_eq] at ht
  have := List.mem_takeWhile_imp (List.mem_of_mem_take ht)
  simpa using this

/-- The loop of `subscribe_impl` does the same on a list and on the list without
its out-of-range types. -/
theorem subscribe_loop_filter (N : Int) (o : observer_id) (l : List Int)
    (hl : ∀ t, t ∈ l → t ≠ 0) :
    ∀ s : alert_handler, alert_handler.subscribe_loop N o l s
      = alert_handler.subscribe_loop N o (l.filter (tag_in_range N)) s := by
  induction l with
  | nil => intro s; rfl
  | cons type rest ih =>
    intro s
    have h0 : type ≠ 0 := hl type (List.mem_cons_self _ _)
    have ih' := ih (fun t ht => hl t (List.mem_cons_of_mem _ ht))
    by_cases hr : tag_in_range N type = true
    · rw [List.filter_cons_of_pos hr]
      unfold alert_handler.subscribe_loop
      simp only [h0, if_false]
      split
      · exact ih' s
      · split
        · exact ih' s
        · exact ih' _
    · rw [List.filter_cons_of_neg hr]
      have hout : type < 0 ∨ type ≥ N := by
        simp only [tag_in_range, decide_eq_true_eq] at hr
        omega
      rw [← ih' s]
      conv => lhs; unfold alert_handler.subscribe_loop
      simp only [h0, if_false, hout, if_true]
      split <;> rfl

theorem mem_take_set_succ {α : Type} (l : List α) (n : Nat) (v x : α)
    (h : x ∈ (l.set n v).take (n + 1)) : x ∈ l.take n ∨ x = v := by
  induction l generalizing n with
  | nil => simp at h
  | cons a rest ih =>
    cases n with
    | zero =>
      simp at h
      exact Or.inr h
    | succ n =>
      simp only [List.set_cons_succ, List.take_succ_cons, List.mem_cons] at h ⊢
      rcases h with h | h
      · exact Or.inl (Or.inl h)
      · rcases ih n h with h | h
        · exact Or.inl (Or.inr h)
        · exact Or.inr h

theorem mem_filter_cons_of_mem {α : Type} (p : α → Bool) (a t : α) (l : List α)
    (h : t ∈ l.filter p) : t ∈ (a :: l).filter p :=
  List.mem_filter.mpr ⟨List.mem_cons_of_mem _ (List.mem_of_mem_filter h), (List.mem_filter.mp h).2⟩

/-- The loop of `subscribe_impl`, when the types fit the `uint8` slots: it
removes `o` from no list, leaves `o` in the list of every in-range type it
visits, and changes no list but those of the in-range types it visits. -/
theorem subscribe_loop_spec (N : Int) (hN : N ≤ 256) (o : observer_id) (l : List Int)
    (hl : ∀ t, t ∈ l → t ≠ 0) :
    ∀ s : alert_handler, slots_registered o s →
      (∀ t, o ∈ s.m_observers t → o ∈ (alert_handler.subscribe_loop N o l s).m_observers t) ∧
      (∀ t, t ∈ l → 0 ≤ t → t < N → o ∈ (alert_handler.subscribe_loop N o l s).m_observers t) ∧
      (∀ t, t ∉ l.filter (tag_in_range N) →
        (alert_handler.subscribe_loop N o l s).m_observers t = s.m_observers t) := by
  induction l with
  | nil =>
    intro s _
    exact ⟨fun t h => h, fun t h => by simp at h, fun t _ => rfl⟩
  | cons type rest ih =>
    intro s hs
    have h0 : type ≠ 0 := hl type (List.mem_cons_self _ _)
    have ih' := ih (fun t ht => hl t (List.mem_cons_of_mem _ ht))
    unfold alert_handler.subscribe_loop
    simp only [h0, if_false]
    split
    · rename_i hdup
      obtain ⟨i1, i2, i3⟩ := ih' s hs
      have hreg : o ∈ s.m_observers type := by
        rw [List.any_eq_true] at hdup
        obtain ⟨x, hx, hxt⟩ := hdup
        have hxt' : (x : Int) = type := by simpa using hxt
        have hx0 : x ≠ 0 := by
          intro hc; apply h0; rw [← hxt', hc]; rfl
        rw [← hxt']
        exact hs x hx hx0
      refine ⟨i1, ?_, ?_⟩
      · intro t ht ht0 htN
        rcases List.mem_cons.mp ht with h | h
        · rw [h]; exact i1 _ hreg
        · exact i2 t h ht0 htN
      · intro t ht
        exact i3 t (fun hc => ht (mem_filter_cons_of_mem _ _ _ _ hc))
    · split
      · rename_i hdup hout
        obtain ⟨i1, i2, i3⟩ := ih' s hs
        refine ⟨i1, ?_, ?_⟩
        · intro t ht ht0 htN
          rcases List.mem_cons.mp ht with h | h
          · exfalso; rw [h] at ht0 htN; omega
          · exact i2 t h ht0 htN
        · intro t ht
          exact i3 t (fun hc => ht (mem_filter_cons_of_mem _ _ _ _ hc))
      · rename_i hdup hout
        have hin : 0 ≤ type ∧ type < N := by omega
        have hv : (((type % 256).toNat : Nat) : Int) = type := by
          rw [Int.toNat_of_nonneg (by omega)]; omega
        have hs' : slots_registered o
            { s with
              observer := store s.observer o
                { s.observer o with
                  types := (s.observer o).types.set (s.observer o).num_types (type % 256).toNat
                  num_types := (s.observer o).num_types + 1 }
              m_observers := store s.m_observers type (s.m_observers type ++ [o])
              out_of_bounds := s.out_of_bounds || decide (64 ≤ (s.observer o).num_types) } := by
          intro x hx hx0
          simp only [store_same] at hx
          show o ∈ store s.m_observers type (s.m_observers type ++ [o]) (x : Int)
          rcases mem_take_set_succ _ _ _ _ hx with h | h
          · have := hs x h hx0
            by_cases hxt : (x : Int) = type
            · rw [hxt, store_same]; simp
            · rw [store_other _ _ _ _ hxt]; exact this
          · rw [h, hv, store_same]; simp
        obtain ⟨i1, i2, i3⟩ := ih' _ hs'
        have hmono : ∀ t, o ∈ s.m_observers t →
            o ∈ store s.m_observers type (s.m_observers type ++ [o]) t := by
          intro t ht
          by_cases htt : t = type
          · rw [htt, store_same]; simp
          · rw [store_other _ _ _ _ htt]; exact ht
        refine ⟨fun t ht => i1 t (hmono t ht), ?_, ?_⟩
        · intro t ht ht0 htN
          rcases List.mem_cons.mp ht with h | h
          · apply i1
            show o ∈ store s.m_observers type (s.m_observers type ++ [o]) t
            rw [h, store_same]; simp
          · exact i2 t h ht0 htN
        · intro t ht
          have htt : t ≠ type := by
            intro hc
            apply ht
            rw [hc]
            exact List.mem_filter.mpr ⟨List.mem_cons_self _ _, by simp [tag_in_range, hin]⟩
          rw [i3 t (fun hc => ht (mem_filter_cons_of_mem _ _ _ _ hc))]
          exact store_other _ _ _ _ htt

/-- After the `memset` of `subscribe_impl` every recorded slot of `o` is zero. -/
theorem slots_registered_memset (o : observer_id) (flags : Int) (s : alert_handler) :
    slots_registered o
      { s with
        observer := store s.observer o
          { s.observer o with types := List.replicate 64 0, flags := flags } } := by
  intro x hx hx0
  simp only [store_same] at hx
  have := List.eq_of_mem_replicate (List.mem_of_mem_take hx)
  exact absurd this hx0

/-- C11 (the code departs from the claim): after `subscribe(o, 4)` twice the
list of type 4 holds the observer twice. -/
theorem resubscribe_registers_twice :
    (alert_handler.reached 100 passive_handlers
        [.subscribe 7 0 [4, 0], .subscribe 7 0 [4, 0]]).m_observers 4 = [7, 7] ∧
    ¬ ((alert_handler.reached 100 passive_handlers
        [.subscribe 7 0 [4, 0], .subscribe 7 0 [4, 0]]).m_observers 4).Nodup := by
  constructor <;> decide

/-- C12 (the code departs from the claim): after `subscribe(o, 4)`,
`subscribe(o, 5)` and `unsubscribe(o)` the observer is still in the list of
type 4; and after `subscribe(o, 4)` twice one `unsubscribe(o)` leaves it there
too. -/
theorem unsubscribe_leaves_old_registration :
    (alert_handler.reached 100 passive_handlers
        [.subscribe 7 0 [4, 0], .subscribe 7 0 [5, 0], .unsubscribe 7]).m_observers 4 = [7] ∧
    (alert_handler.reached 100 passive_handlers
        [.subscribe 7 0 [4, 0], .subscribe 7 0 [5, 0], .unsubscribe 7]).m_observers 5 = [] ∧
    (alert_handler.reached 100 passive_handlers
        [.subscribe 7 0 [4, 0], .subscribe 7 0 [4, 0], .unsubscribe 7]).m_observers 4 = [7] := by
  refine ⟨by decide, by decide, by decide⟩

/-- C13 (the claim as written fails): of 65 in-range tags before the sentinel
the 65th is not registered, the 64th is. -/
theorem subscribe_ignores_tag_65 :
    (65 : Int) ∈ (tags_from 1 65 ++ [0]).takeWhile (fun t => decide (t ≠ 0)) ∧
    (alert_handler.subscribe 100 7 0 (tags_from 1 65 ++ [0]) alert_handler.init).m_observers 65
      = [] ∧
    (alert_handler.subscribe 100 7 0 (tags_from 1 65 ++ [0]) alert_handler.init).m_observers 64
      = [7] := by
  refine ⟨by decide, by decide, by decide⟩

/-- The loop of `subscribe_impl` stores inside the slot array when the recorded
count and the in-range types of the list together do not exceed 64: no store
past the array is recorded and the count stays within 64. -/
theorem subscribe_loop_in_bounds (N : Int) (o : observer_id) (l : List Int) :
    ∀ s : alert_handler,
      (s.observer o).num_types + (l.filter (tag_in_range N)).length ≤ 64 →
      (alert_handler.subscribe_loop N o l s).out_of_bounds = s.out_of_bounds ∧
      ((alert_handler.subscribe_loop N o l s).observer o).num_types ≤ 64 := by
  induction l with
  | nil =>
    intro s h
    exact ⟨rfl, by simpa using h⟩
  | cons type rest ih =>
    intro s h
    have hle : (rest.filter (tag_in_range N)).length
        ≤ ((type :: rest).filter (tag_in_range N)).length := by
      by_cases hr : tag_in_range N type = true
      · rw [List.filter_cons_of_pos hr, List.length_cons]; omega
      · rw [List.filter_cons_of_neg hr]
    by_cases h0 : type = 0
    · unfold alert_handler.subscribe_loop
      rw [if_pos h0]
      exact ⟨rfl, by omega⟩
    unfold alert_handler.subscribe_loop
    simp only [h0, if_false]
    split
    · exact ih s (by omega)
    · split
      · exact ih s (by omega)
      · rename_i hdup hout
        have hr : tag_in_range N type = true := by
          simp only [tag_in_range, decide_eq_true_eq]
          omega
        rw [List.filter_cons_of_pos hr, List.length_cons] at h
        have hlt : ¬ (64 ≤ (s.observer o).num_types) := by omega
        have hstep := ih
          { s with
            observer := store s.observer o
              { s.observer o with
                types := (s.observer o).types.set (s.observer o).num_types (type % 256).toNat
                num_types := (s.observer o).num_types + 1 }
            m_observers := store s.m_observers type (s.m_observers type ++ [o])
            out_of_bounds := s.out_of_bounds || decide (64 ≤ (s.observer o).num_types) }
          (by simp only [store_same]; omega)
        refine ⟨hstep.1.trans ?_, hstep.2⟩
        show (s.out_of_bounds || decide (64 ≤ (s.observer o).num_types)) = s.out_of_bounds
        rw [decide_eq_false hlt, Bool.or_false]

/-- A recorded count above 64 is always accompanied by the record of a store
past the array: the loop of `subscribe_impl`. -/
theorem subscribe_loop_overflow (N : Int) (o : observer_id) (l : List Int) :
    ∀ s : alert_handler,
      (s.out_of_bounds = true ∨ ∀ x, (s.observer x).num_types ≤ 64) →
      ((alert_handler.subscribe_loop N o l s).out_of_bounds = true ∨
        ∀ x, ((alert_handler.subscribe_loop N o l s).observer x).num_types ≤ 64) := by
  induction l with
  | nil => intro s h; exact h
  | cons type rest ih =>
    intro s h
    by_cases h0 : type = 0
    · unfold alert_handler.subscribe_loop
      rw [if_pos h0]
      exact h
    unfold alert_handler.subscribe_loop
    simp only [h0, if_false]
    split
    · exact ih s h
    · split
      · exact ih s h
      · apply ih
        rcases h with h | h
        · left
          show (s.out_of_bounds || decide (64 ≤ (s.observer o).num_types)) = true
          rw [h, Bool.true_or]
        · by_cases hlt : 64 ≤ (s.observer o).num_types
          · left
            show (s.out_of_bounds || decide (64 ≤ (s.observer o).num_types)) = true
            rw [decide_eq_true hlt, Bool.or_true]
          · right
            intro x
            show (store s.observer o _ x).num_types ≤ 64
            by_cases hx : x = o
            · rw [hx, store_same]
              show (s.observer o).num_types + 1 ≤ 64
              omega
            · rw [store_other _ _ _ _ hx]
              exact h x

theorem call_overflow (N : Int) (s : alert_handler) (c : bus_call)
    (h : s.out_of_bounds = true ∨ ∀ x, (s.observer x).num_types ≤ 64) :
    (alert_handler.call N s c).out_of_bounds = true ∨
      ∀ x, ((alert_handler.call N s c).observer x).num_types ≤ 64 := by
  cases c with
  | subscribe o flags args =>
    show (alert_handler.subscribe_loop N o _ _).out_of_bounds = true ∨
      ∀ x, ((alert_handler.subscribe_loop N o _ _).observer x).num_types ≤ 64
    apply subscribe_loop_overflow
    rcases h with h | h
    · exact Or.inl h
    · right
      intro x
      show (store s.observer o _ x).num_types ≤ 64
      by_cases hx : x = o
      · rw [hx, store_same]; exact h o
      · rw [store_other _ _ _ _ hx]; exact h x
  | unsubscribe o =>
    rcases h with h | h
    · exact Or.inl h
    · right
      intro x
      show (store s.observer o _ x).num_types ≤ 64
      by_cases hx : x = o
      · rw [hx, store_same]; exact Nat.zero_le _
      · rw [store_other _ _ _ _ hx]; exact h x

theorem calls_overflow (N : Int) (cs : List bus_call) :
    ∀ s : alert_handler, (s.out_of_bounds = true ∨ ∀ x, (s.observer x).num_types ≤ 64) →
      ((cs.foldl (alert_handler.call N) s).out_of_bounds = true ∨
        ∀ x, ((cs.foldl (alert_handler.call N) s).observer x).num_types ≤ 64) := by
  induction cs with
  | nil => intro s h; exact h
  | cons c cs ih => intro s h; exact ih _ (call_overflow N s c h)

theorem fan_out_overflow (N : Int) (h : alert_handlers) (a : alert) (ks : List observer_id) :
    ∀ s : alert_handler, (s.out_of_bounds = true ∨ ∀ x, (s.observer x).num_types ≤ 64) →
      ((alert_handler.fan_out N h a ks s).out_of_bounds = true ∨
        ∀ x, ((alert_handler.fan_out N h a ks s).observer x).num_types ≤ 64) := by
  induction ks with
  | nil => intro s hs; exact hs
  | cons k ks ih =>
    intro s hs
    unfold alert_handler.fan_out
    exact ih _ (calls_overflow N _ _ hs)

theorem abort_overflow (n : Nat) :
    ∀ s : alert_handler, (s.out_of_bounds = true ∨ ∀ x, (s.observer x).num_types ≤ 64) →
      (((List.range n).foldl alert_handler.abort_slot s).out_of_bounds = true ∨
        ∀ x, (((List.range n).foldl alert_handler.abort_slot s).observer x).num_types ≤ 64) := by
  induction n with
  | zero => intro s hs; exact hs
  | succ n ih =>
    intro s hs
    rw [List.range_succ, List.foldl_append]
    exact ih s hs

theorem api_overflow (N : Nat) (h : alert_handlers) (s : alert_handler) (c : api_call)
    (hs : s.out_of_bounds = true ∨ ∀ x, (s.observer x).num_types ≤ 64) :
    (alert_handler.api N h s c).out_of_bounds = true ∨
      ∀ x, ((alert_handler.api N h s c).observer x).num_types ≤ 64 := by
  cases c with
  | subscribe o flags args => exact call_overflow N s (.subscribe o flags args) hs
  | unsubscribe o => exact call_overflow N s (.unsubscribe o) hs
  | dispatch_alerts alerts =>
    show (alerts.foldl (alert_handler.dispatch_alert N h) s).out_of_bounds = true ∨
      ∀ x, ((alerts.foldl (alert_handler.dispatch_alert N h) s).observer x).num_types ≤ 64
    induction alerts generalizing s with
    | nil => exact hs
    | cons a alerts ih =>
      exact ih _ (fan_out_overflow N h a _ s hs)
  | wait cat =>
    show (alert_handler.subscribe_impl_cat cat s).1.out_of_bounds = true ∨
      ∀ x, ((alert_handler.subscribe_impl_cat cat s).1.observer x).num_types ≤ 64
    unfold alert_handler.subscribe_impl_cat
    split
    · exact hs
    · exact hs
  | abort => exact abort_overflow N _ hs

/-- In every state reached from a new bus, an observer whose recorded count is
above 64 has made `subscribe_impl` store past its slot array: the reads of
`std::count` and of `unsubscribe` go past the array only after such a store. -/
theorem overflow_is_recorded (N : Nat) (h : alert_handlers) (calls : List api_call)
    (o : observer_id)
    (hb : (alert_handler.reached N h calls).out_of_bounds = false) :
    ((alert_handler.reached N h calls).observer o).num_types ≤ 64 := by
  have key : ∀ (cs : List api_call) (s : alert_handler),
      (s.out_of_bounds = true ∨ ∀ x, (s.observer x).num_types ≤ 64) →
      ((alert_handler.run N h cs s).out_of_bounds = true ∨
        ∀ x, ((alert_handler.run N h cs s).observer x).num_types ≤ 64) := by
    intro cs
    induction cs with
    | nil => intro s hs; exact hs
    | cons c cs ih => intro s hs; exact ih _ (api_overflow N h s c hs)
  rcases key calls alert_handler.init (Or.inr (fun x => Nat.zero_le _)) with h1 | h1
  · have h2 : (alert_handler.reached N h calls).out_of_bounds = true := h1
    rw [hb] at h2
    exact absurd h2 (by decide)
  · exact h1 o

/-- C13 (amended): with at most 256 alert types (the slots are `uint8`), for an
observer whose slots suffice (its recorded count and the in-range tags among the
first 64 tags before the 0 sentinel together do not exceed 64), `subscribe`
does what it would do without the out-of-range tags; every in-range tag among
the first 64 tags before the sentinel has the observer in its list afterwards;
no list but those of these in-range tags is changed; and every store to the
slots is inside the array, the recorded count staying within 64. -/
theorem subscribe_skips_out_of_range (N : Int) (hN : N ≤ 256) (o : observer_id) (flags : Int)
    (args : List Int) (s : alert_handler)
    (hroom : (s.observer o).num_types
      + (((args.takeWhile (fun t => decide (t ≠ 0))).take 64).filter (tag_in_range N)).length
        ≤ 64) :
    alert_handler.subscribe N o flags args s
      = alert_handler.subscribe_impl N
          ((((args.takeWhile (fun t => decide (t ≠ 0))).take 64)).filter (tag_in_range N))
          o flags s ∧
    (∀ t, t ∈ (args.takeWhile (fun t => decide (t ≠ 0))).take 64 → 0 ≤ t → t < N →
      o ∈ (alert_handler.subscribe N o flags args s).m_observers t) ∧
    (∀ t, t ∉ ((args.takeWhile (fun t => decide (t ≠ 0))).take 64).filter (tag_in_range N) →
      (alert_handler.subscribe N o flags args s).m_observers t = s.m_observers t) ∧
    (alert_handler.subscribe N o flags args s).out_of_bounds = s.out_of_bounds ∧
    ((alert_handler.subscribe N o flags args s).observer o).num_types ≤ 64 := by
  have hsub : alert_handler.subscribe N o flags args s
      = alert_handler.subscribe_loop N o (alert_handler.collect_types args 64)
          { s with
            observer := store s.observer o
              { s.observer o with types := List.replicate 64 0, flags := flags } } := rfl
  have hz := collect_types_nonzero args 64
  have hspec := subscribe_loop_spec N hN o (alert_handler.collect_types args 64) hz _
    (slots_registered_memset o flags s)
  have hb := subscribe_loop_in_bounds N o (alert_handler.collect_types args 64)
    { s with
      observer := store s.observer o
        { s.observer o with types := List.replicate 64 0, flags := flags } }
    (by
      rw [collect_types_eq]
      simp only [store_same]
      exact hroom)
  rw [hsub]
  rw [collect_types_eq] at hz hspec hb ⊢
  refine ⟨?_, hspec.2.1, hspec.2.2, hb.1, hb.2⟩
  unfold alert_handler.subscribe_impl
  exact subscribe_loop_filter N o _ hz _

/-- Instance of `subscribe_skips_out_of_range`: an observer already subscribed
to the types 4 and 9 is subscribed with the tags 4, 200, -3, 5 and the
sentinel, followed by 6. -/
theorem subscribe_skips_out_of_range_witness :
    ((100 : Int) ≤ 256 ∧
      ((alert_handler.reached 100 passive_handlers [.subscribe 7 0 [4, 9, 0]]).observer 7).num_types
        + (((([4, 200, -3, 5, 0, 6] : List Int).takeWhile (fun t => decide (t ≠ 0))).take 64).filter
            (tag_in_range 100)).length ≤ 64) ∧
    (alert_handler.subscribe 100 7 0 [4, 200, -3, 5, 0, 6]
      (alert_handler.reached 100 passive_handlers [.subscribe 7 0 [4, 9, 0]])).m_observers 5 = [7] ∧
    (alert_handler.subscribe 100 7 0 [4, 200, -3, 5, 0, 6]
      (alert_handler.reached 100 passive_handlers [.subscribe 7 0 [4, 9, 0]])).m_observers 200
      = (alert_handler.reached 100 passive_handlers [.subscribe 7 0 [4, 9, 0]]).m_observers 200 ∧
    (alert_handler.subscribe 100 7 0 [4, 200, -3, 5, 0, 6]
      (alert_handler.reached 100 passive_handlers [.subscribe 7 0 [4, 9, 0]])).m_observers 6
      = (alert_handler.reached 100 passive_handlers [.subscribe 7 0 [4, 9, 0]]).m_observers 6 ∧
    (alert_handler.subscribe 100 7 0 [4, 200, -3, 5, 0, 6]
      (alert_handler.reached 100 passive_handlers [.subscribe 7 0 [4, 9, 0]])).out_of_bounds
      = false :=
  ⟨⟨by decide, by decide⟩, by decide,
    (subscribe_skips_out_of_range 100 (by decide) 7 0 [4, 200, -3, 5, 0, 6]
      (alert_handler.reached 100 passive_handlers [.subscribe 7 0 [4, 9, 0]])
      (by decide)).2.2.1 200 (by decide),
    (subscribe_skips_out_of_range 100 (by decide) 7 0 [4, 200, -3, 5, 0, 6]
      (alert_handler.reached 100 passive_handlers [.subscribe 7 0 [4, 9, 0]])
      (by decide)).2.2.1 6 (by decide),
    (subscribe_skips_out_of_range 100 (by decide) 7 0 [4, 200, -3, 5, 0, 6]
      (alert_handler.reached 100 passive_handlers [.subscribe 7 0 [4, 9, 0]])
      (by decide)).2.2.2.1.trans (by decide)⟩

/-- C14 (the code departs from the claim): after two `subscribe` calls with 40
tags each the observer records 80 registrations, although its array has 64
slots; the 65th tag written is in the subscriber list of its type and in no
slot of the observer; and a store past the array has been made. Up to that
store everything is defined: after the first call and the first 24 tags of the
second the count is 64 with every store inside the array, and the next tag is
stored at index 64. (The count 80 is what the embedding computes after the
store past the array.) -/
theorem resubscribe_overflows_slots :
    ((alert_handler.reached 100 passive_handlers
        [.subscribe 7 0 (tags_from 1 40 ++ [0]),
          .subscribe 7 0 (tags_from 41 40 ++ [0])]).observer 7).num_types = 80 ∧
    ((alert_handler.reached 100 passive_handlers
        [.subscribe 7 0 (tags_from 1 40 ++ [0]),
          .subscribe 7 0 (tags_from 41 40 ++ [0])]).observer 7).types.length = 64 ∧
    (alert_handler.reached 100 passive_handlers
        [.subscribe 7 0 (tags_from 1 40 ++ [0]),
          .subscribe 7 0 (tags_from 41 40 ++ [0])]).m_observers 65 = [7] ∧
    (65 : Nat) ∉ ((alert_handler.reached 100 passive_handlers
        [.subscribe 7 0 (tags_from 1 40 ++ [0]),
          .subscribe 7 0 (tags_from 41 40 ++ [0])]).observer 7).types ∧
    (alert_handler.reached 100 passive_handlers
        [.subscribe 7 0 (tags_from 1 40 ++ [0]),
          .subscribe 7 0 (tags_from 41 40 ++ [0])]).out_of_bounds = true ∧
    ((alert_handler.reached 100 passive_handlers
        [.subscribe 7 0 (tags_from 1 40 ++ [0]),
          .subscribe 7 0 (tags_from 41 24 ++ [0])]).observer 7).num_types = 64 ∧
    (alert_handler.reached 100 passive_handlers
        [.subscribe 7 0 (tags_from 1 40 ++ [0]),
          .subscribe 7 0 (tags_from 41 24 ++ [0])]).out_of_bounds = false ∧
    (alert_handler.reached 100 passive_handlers
        [.subscribe 7 0 (tags_from 1 40 ++ [0]),
          .subscribe 7 0 (tags_from 41 25 ++ [0])]).out_of_bounds = true := by
  refine ⟨by decide, by decide, by decide, by decide, by decide, by decide, by decide, by decide⟩

/-! ### The piece request broker -/

/-! #### Positions in an ordered list -/

theorem takeWhile_eq_filter_of_pairwise {α : Type} (p : α → Bool) (l : List α)
    (h : l.Pairwise (fun a b => p b = true → p a = true)) : l.takeWhile p = l.filter p := by
  induction l with
  | nil => rfl
  | cons a t ih =>
    rw [List.pairwise_cons] at h
    by_cases hpa : p a = true
    · rw [List.takeWhile_cons_of_pos hpa, List.filter_cons_of_pos hpa, ih h.2]
    · rw [List.takeWhile_cons_of_neg hpa, List.filter_cons_of_neg hpa]
      symm
      rw [List.filter_eq_nil_iff]
      intro b hb hpb
      exact hpa (h.1 b hb hpb)

theorem dropWhile_eq_filter_of_pairwise {α : Type} (p : α → Bool) (l : List α)
    (h : l.Pairwise (fun a b => p b = true → p a = true)) :
    l.dropWhile p = l.filter (fun x => !p x) := by
  induction l with
  | nil => rfl
  | cons a t ih =>
    rw [List.pairwise_cons] at h
    by_cases hpa : p a = true
    · rw [List.dropWhile_cons_of_pos hpa, List.filter_cons_of_neg (by simp [hpa]), ih h.2]
    · rw [List.dropWhile_cons_of_neg hpa]
      symm
      rw [List.filter_eq_self]
      intro b hb
      rcases List.mem_cons.mp hb with hba | hbt
      · rw [hba]; simpa using hpa
      · have : ¬ p b = true := fun hpb => hpa (h.1 b hbt hpb)
        simpa using this

theorem take_length_takeWhile {α : Type} (p : α → Bool) (l : List α) :
    l.take (l.takeWhile p).length = l.takeWhile p := by
  conv => lhs; arg 2; rw [← List.takeWhile_append_dropWhile p l]
  rw [List.take_left]

theorem drop_length_takeWhile {α : Type} (p : α → Bool) (l : List α) :
    l.drop (l.takeWhile p).length = l.dropWhile p := by
  conv => lhs; arg 2; rw [← List.takeWhile_append_dropWhile p l]
  rw [List.drop_left]

theorem length_takeWhile_mono {α : Type} (p q : α → Bool) (hpq : ∀ x, p x = true → q x = true)
    (l : List α) : (l.takeWhile p).length ≤ (l.takeWhile q).length := by
  induction l with
  | nil => simp
  | cons a t ih =>
    by_cases hpa : p a = true
    · rw [List.takeWhile_cons_of_pos hpa, List.takeWhile_cons_of_pos (hpq a hpa)]
      simpa using ih
    · rw [List.takeWhile_cons_of_neg hpa]
      simp

/-- A list is its part before `i`, its part from `i` to `j` and its part from `j`. -/
theorem list_split3 {α : Type} (l : List α) (i j : Nat) (h : i ≤ j) :
    l = l.take i ++ ((l.take j).drop i ++ l.drop j) := by
  have h1 : l.take j = l.take i ++ (l.take j).drop i := by
    conv => lhs; rw [← List.take_append_drop i (l.take j)]
    rw [List.take_take, Nat.min_eq_left h]
  conv => lhs; rw [← List.take_append_drop j l, h1]
  rw [List.append_assoc]

theorem append_sublist_split3 {α : Type} (A R B : List α) : (A ++ B).Sublist (A ++ (R ++ B)) :=
  List.Sublist.append (List.Sublist.refl A) (List.sublist_append_right R B)

/-- In a list that is ordered for `p1` and for `p2`, the part from the end of
the `p1` elements to the end of the `p2` elements holds the elements with `p2`
and without `p1`. -/
theorem range_eq_filter {α : Type} (p1 p2 : α → Bool) (l : List α)
    (h1 : l.Pairwise (fun a b => p1 b = true → p1 a = true))
    (h2 : l.Pairwise (fun a b => p2 b = true → p2 a = true))
    (h12 : ∀ x, p1 x = true → p2 x = true) :
    (l.take (l.takeWhile p2).length).drop (l.takeWhile p1).length
      = l.filter (fun x => p2 x && !p1 x) := by
  rw [take_length_takeWhile, takeWhile_eq_filter_of_pairwise p2 l h2]
  have hl : l.filter p2 = l.takeWhile p1 ++ (l.dropWhile p1).filter p2 := by
    conv => lhs; rw [← List.takeWhile_append_dropWhile p1 l]
    rw [List.filter_append]
    congr 1
    rw [List.filter_eq_self]
    intro a ha
    exact h12 a (List.mem_takeWhile_imp ha)
  rw [hl, List.drop_left, dropWhile_eq_filter_of_pairwise p1 l h1, List.filter_filter]

/-- Erasing that part leaves the elements with `p1` or without `p2`. -/
theorem erase_range_eq_filter {α : Type} (p1 p2 : α → Bool) (l : List α)
    (h1 : l.Pairwise (fun a b => p1 b = true → p1 a = true))
    (h2 : l.Pairwise (fun a b => p2 b = true → p2 a = true))
    (h12 : ∀ x, p1 x = true → p2 x = true) :
    l.take (l.takeWhile p1).length ++ l.drop (l.takeWhile p2).length
      = l.filter (fun x => p1 x || !p2 x) := by
  rw [take_length_takeWhile, drop_length_takeWhile, dropWhile_eq_filter_of_pairwise p2 l h2]
  conv => rhs; rw [← List.takeWhile_append_dropWhile p1 l]
  rw [List.filter_append]
  congr 1
  · symm
    rw [List.filter_eq_self]
    intro a ha
    simp [List.mem_takeWhile_imp ha]
  · rw [dropWhile_eq_filter_of_pairwise p1 l h1, List.filter_filter]
    apply List.filter_congr
    intro x _
    by_cases hx1 : p1 x = true
    · simp [hx1, h12 x hx1]
    · simp [hx1]

/-! #### The order of the requests -/

theorem piece_request.lt_iff (a b : piece_request) :
    a.lt b = true ↔
      a.info_hash < b.info_hash ∨ (a.info_hash = b.info_hash ∧ a.piece < b.piece) := by
  unfold piece_request.lt
  by_cases h : a.info_hash = b.info_hash
  · simp [h]
  · simp only [h, if_false, decide_eq_true_eq, false_and, or_false]

theorem piece_request.lt_eq_false_iff (a b : piece_request) :
    a.lt b = false ↔
      b.info_hash < a.info_hash ∨ (a.info_hash = b.info_hash ∧ b.piece ≤ a.piece) := by
  rw [← Bool.not_eq_true, piece_request.lt_iff]
  omega

theorem sorted_below (rq : piece_request) (l : List piece_request)
    (h : l.Pairwise (fun a b => b.lt a = false)) :
    l.Pairwise (fun a b => b.lt rq = true → a.lt rq = true) := by
  refine h.imp ?_
  intro a b hab
  rw [piece_request.lt_eq_false_iff] at hab
  rw [piece_request.lt_iff, piece_request.lt_iff]
  omega

theorem sorted_not_above (rq : piece_request) (l : List piece_request)
    (h : l.Pairwise (fun a b => b.lt a = false)) :
    l.Pairwise (fun a b => (!rq.lt b) = true → (!rq.lt a) = true) := by
  refine h.imp ?_
  intro a b hab
  rw [piece_request.lt_eq_false_iff] at hab
  rw [Bool.not_eq_true', Bool.not_eq_true', piece_request.lt_eq_false_iff,
    piece_request.lt_eq_false_iff]
  omega

theorem below_not_above (rq rq' : piece_request)
    (h : rq.info_hash = rq'.info_hash ∧ rq.piece ≤ rq'.piece) (x : piece_request) :
    x.lt rq = true → (!rq'.lt x) = true := by
  rw [Bool.not_eq_true', piece_request.lt_eq_false_iff, piece_request.lt_iff]
  omega

theorem lower_bound_le_upper_bound (rq rq' : piece_request)
    (h : rq.info_hash = rq'.info_hash ∧ rq.piece ≤ rq'.piece) (l : List piece_request) :
    requests_t.lower_bound rq l ≤ requests_t.upper_bound rq' l :=
  length_takeWhile_mono _ _ (below_not_above rq rq' h) l

/-- In an ordered set `equal_range(rq)` spans the requests with the key of `rq`. -/
theorem equal_range_eq_filter (rq : piece_request) (l : List piece_request)
    (h : l.Pairwise (fun a b => b.lt a = false)) :
    requests_t.range l (requests_t.lower_bound rq l) (requests_t.upper_bound rq l)
      = l.filter (fun r => decide (r.info_hash = rq.info_hash ∧ r.piece = rq.piece)) := by
  unfold requests_t.range requests_t.lower_bound requests_t.upper_bound
  rw [range_eq_filter _ _ l (sorted_below rq l h) (sorted_not_above rq l h)
    (below_not_above rq rq ⟨rfl, le_refl _⟩)]
  apply List.filter_congr
  intro x _
  rw [Bool.eq_iff_iff]
  simp only [Bool.and_eq_true, Bool.not_eq_true', decide_eq_true_eq,
    piece_request.lt_eq_false_iff]
  omega

/-- In an ordered set erasing `equal_range(rq)` leaves the requests with another key. -/
theorem erase_equal_range_eq_filter (rq : piece_request) (l : List piece_request)
    (h : l.Pairwise (fun a b => b.lt a = false)) :
    requests_t.erase_range l (requests_t.lower_bound rq l) (requests_t.upper_bound rq l)
      = l.filter (fun r => decide (¬ (r.info_hash = rq.info_hash ∧ r.piece = rq.piece))) := by
  unfold requests_t.erase_range requests_t.lower_bound requests_t.upper_bound
  rw [erase_range_eq_filter _ _ l (sorted_below rq l h) (sorted_not_above rq l h)
    (below_not_above rq rq ⟨rfl, le_refl _⟩)]
  apply List.filter_congr
  intro x _
  rw [Bool.eq_iff_iff]
  simp only [Bool.or_eq_true, Bool.not_not, decide_eq_true_eq, piece_request.lt_iff]
  omega

/-- In an ordered set erasing the span of a torrent leaves the requests of other
torrents and those of the torrent with a piece outside `[0, INT_MAX]`. -/
theorem erase_torrent_eq_filter (T : Nat) (l : List piece_request)
    (h : l.Pairwise (fun a b => b.lt a = false)) :
    requests_t.erase_range l (requests_t.lower_bound ⟨T, 0, 0, 0⟩ l)
        (requests_t.upper_bound ⟨T, INT_MAX, 0, 0⟩ l)
      = l.filter (fun r => decide (r.info_hash ≠ T ∨ r.piece < 0 ∨ INT_MAX < r.piece)) := by
  unfold requests_t.erase_range requests_t.lower_bound requests_t.upper_bound
  rw [erase_range_eq_filter (fun r => r.lt ⟨T, 0, 0, 0⟩)
    (fun r => !(piece_request.lt ⟨T, INT_MAX, 0, 0⟩ r)) l
    (sorted_below _ l h) (sorted_not_above _ l h)
    (below_not_above ⟨T, 0, 0, 0⟩ ⟨T, INT_MAX, 0, 0⟩
      ⟨rfl, show (0 : Int) ≤ INT_MAX by decide⟩)]
  apply List.filter_congr
  intro x _
  rw [Bool.eq_iff_iff]
  simp only [Bool.or_eq_true, Bool.not_not, decide_eq_true_eq, piece_request.lt_iff]
  omega

/-! #### Iterators into the set -/

theorem iter_at_append (A B : List piece_request) :
    requests_t.iter_at (A ++ B) A.length = B.head?.map (fun r => r.promise) := by
  unfold requests_t.iter_at
  rw [List.drop_left]

theorem dropWhile_split (P S : List piece_request) (r : piece_request) (id : promise_id)
    (hr : r.promise = id) (hP : ∀ x, x ∈ P → x.promise ≠ id) :
    (P ++ r :: S).dropWhile (fun x => decide (x.promise ≠ id)) = r :: S := by
  induction P with
  | nil => simp [hr]
  | cons a t ih =>
    rw [List.cons_append, List.dropWhile_cons_of_pos (by simpa using hP a (List.mem_cons_self _ _))]
    exact ih (fun x hx => hP x (List.mem_cons_of_mem _ hx))

theorem takeWhile_split (P S : List piece_request) (r : piece_request) (id : promise_id)
    (hr : r.promise = id) (hP : ∀ x, x ∈ P → x.promise ≠ id) :
    (P ++ r :: S).takeWhile (fun x => decide (x.promise ≠ id)) = P := by
  induction P with
  | nil => simp [hr]
  | cons a t ih =>
    rw [List.cons_append, List.takeWhile_cons_of_pos (by simpa using hP a (List.mem_cons_self _ _)),
      ih (fun x hx => hP x (List.mem_cons_of_mem _ hx))]

theorem find_split (P S : List piece_request) (r : piece_request) (id : promise_id)
    (hr : r.promise = id) (hP : ∀ x, x ∈ P → x.promise ≠ id) :
    (P ++ r :: S).find? (fun x => decide (x.promise = id)) = some r := by
  induction P with
  | nil => simp [hr]
  | cons a t ih =>
    rw [List.cons_append, List.find?_cons_of_neg _ (by simpa using hP a (List.mem_cons_self _ _))]
    exact ih (fun x hx => hP x (List.mem_cons_of_mem _ hx))

theorem eraseP_split (P S : List piece_request) (r : piece_request) (id : promise_id)
    (hr : r.promise = id) (hP : ∀ x, x ∈ P → x.promise ≠ id) :
    (P ++ r :: S).eraseP (fun x => decide (x.promise = id)) = P ++ S := by
  induction P with
  | nil => simp [hr]
  | cons a t ih =>
    rw [List.cons_append, List.eraseP_cons_of_neg (by simpa using hP a (List.mem_cons_self _ _)),
      ih (fun x hx => hP x (List.mem_cons_of_mem _ hx))]
    rfl

theorem next_split (P S : List piece_request) (r : piece_request) (id : promise_id)
    (hr : r.promise = id) (hP : ∀ x, x ∈ P → x.promise ≠ id) :
    requests_t.next (P ++ r :: S) id = S.head?.map (fun r => r.promise) := by
  unfold requests_t.next
  rw [dropWhile_split P S r id hr hP]
  exact iter_at_append [r] S

theorem mem_pending_split (l : List piece_request) (id : promise_id)
    (h : id ∈ l.map (fun r => r.promise)) :
    ∃ P r S, l = P ++ r :: S ∧ r.promise = id ∧ ∀ x, x ∈ P → x.promise ≠ id := by
  induction l with
  | nil => simp at h
  | cons a t ih =>
    by_cases ha : a.promise = id
    · exact ⟨[], a, t, rfl, ha, fun x hx => by simp at hx⟩
    · have ht : id ∈ t.map (fun r => r.promise) := by
        rcases List.mem_cons.mp h with h | h
        · exact absurd h.symm ha
        · exact h
      obtain ⟨P, r, S, hl, hr, hP⟩ := ih ht
      refine ⟨a :: P, r, S, by rw [hl]; rfl, hr, ?_⟩
      intro x hx
      rcases List.mem_cons.mp hx with hx | hx
      · rw [hx]; exact ha
      · exact hP x hx

theorem head_mem_ids (B : List piece_request) (id : promise_id)
    (h : B.head?.map (fun r => r.promise) = some id) : id ∈ B.map (fun r => r.promise) := by
  cases B with
  | nil => simp at h
  | cons b t =>
    simp at h
    simp [h]

theorem fulfil_range_fst (l : List piece_request) (pe : piece_entry) (R : List piece_request) :
    ∀ st, (file_requests.fulfil_range l pe R st).1 = st.1 ++ R.map (fun r => (r.promise, pe)) := by
  induction R with
  | nil => intro st; simp [file_requests.fulfil_range]
  | cons r t ih =>
    intro st
    unfold file_requests.fulfil_range
    rw [ih]
    simp

/-- After the loop of the `read_piece_alert` branch `m_next_timeout` points
behind the range, or it is where it was and that is outside the range. -/
theorem fulfil_range_snd (l : List piece_request) (pe : piece_entry) (B : List piece_request)
    (hnd : (l.map (fun r => r.promise)).Nodup) (R : List piece_request) :
    ∀ (P : List piece_request) (st : List (promise_id × piece_entry) × Option promise_id),
      l = P ++ (R ++ B) → ∀ id, (file_requests.fulfil_range l pe R st).2 = some id →
        id ∈ B.map (fun r => r.promise) ∨
          (st.2 = some id ∧ id ∉ R.map (fun r => r.promise)) := by
  induction R with
  | nil =>
    intro P st _ id hid
    exact Or.inr ⟨hid, by simp⟩
  | cons r t ih =>
    intro P st hl id hid
    unfold file_requests.fulfil_range at hid
    have hl' : l = (P ++ [r]) ++ (t ++ B) := by rw [hl]; simp
    have hP : ∀ x, x ∈ P → x.promise ≠ r.promise := by
      intro x hx hc
      rw [hl, List.map_append, List.cons_append, List.map_cons] at hnd
      exact (List.nodup_append.mp hnd).2.2 (List.mem_map_of_mem _ hx)
        (by rw [hc]; exact List.mem_cons_self _ _)
    rcases ih (P ++ [r]) _ hl' id hid with h | ⟨h1, h2⟩
    · exact Or.inl h
    · by_cases hc : st.2 = some r.promise
      · simp only [hc, if_true] at h1
        rw [hl, List.cons_append, next_split P (t ++ B) r r.promise rfl hP] at h1
        cases t with
        | nil => exact Or.inl (head_mem_ids B id h1)
        | cons x t' =>
          exfalso
          apply h2
          simp at h1
          simp [h1]
      · simp only [hc, if_false] at h1
        refine Or.inr ⟨h1, ?_⟩
        intro hm
        rcases List.mem_cons.mp hm with hm | hm
        · apply hc; rw [h1, hm]
        · exact h2 hm

/-- After the loop of the torrent-removed branch `m_next_timeout` is `last`, or
it is where it was and that is outside the range. -/
theorem skip_range_spec (last : Option promise_id) (R : List piece_request)
    (c : Option promise_id) (id : promise_id)
    (h : file_requests.skip_range last R c = some id) :
    last = some id ∨ (c = some id ∧ id ∉ R.map (fun r => r.promise)) := by
  induction R with
  | nil => exact Or.inr ⟨h, by simp⟩
  | cons r t ih =>
    unfold file_requests.skip_range at h
    by_cases hc : some r.promise ≠ c
    · rw [if_pos hc] at h
      rcases ih h with h | ⟨h1, h2⟩
      · exact Or.inl h
      · refine Or.inr ⟨h1, ?_⟩
        intro hm
        rcases List.mem_cons.mp hm with hm | hm
        · apply hc; rw [h1, hm]
        · exact h2 hm
    · rw [if_neg hc] at h
      exact Or.inl h

/-! #### The invariant of the broker -/

theorem broker_inv_init : broker_inv file_requests.init where
  sorted := List.Pairwise.nil
  ids_nodup := List.nodup_nil
  ids_lt := fun p h => by simp [file_requests.pending, file_requests.init] at h
  cursor_ok := fun id h => by simp [file_requests.init] at h
  fulfilled_lt := fun p h => by simp [file_requests.init] at h
  unfulfilled := fun p h => by simp [file_requests.pending, file_requests.init] at h

theorem insert_perm (rq : piece_request) (l : List piece_request) :
    (requests_t.insert rq l).Perm (rq :: l) := by
  unfold requests_t.insert
  have h := @List.perm_middle _ rq (l.take (requests_t.upper_bound rq l))
    (l.drop (requests_t.upper_bound rq l))
  rw [List.take_append_drop] at h
  exact h

theorem insert_sorted (rq : piece_request) (l : List piece_request)
    (h : l.Pairwise (fun a b => b.lt a = false)) :
    (requests_t.insert rq l).Pairwise (fun a b => b.lt a = false) := by
  unfold requests_t.insert requests_t.upper_bound
  rw [take_length_takeWhile, drop_length_takeWhile]
  have hl := List.takeWhile_append_dropWhile (fun r => !rq.lt r) l
  have h' := h
  rw [← hl, List.pairwise_append] at h'
  obtain ⟨h1, h2, h3⟩ := h'
  rw [List.pairwise_append]
  refine ⟨h1, ?_, ?_⟩
  · rw [List.pairwise_cons]
    refine ⟨?_, h2⟩
    intro b hb
    rw [dropWhile_eq_filter_of_pairwise _ l (sorted_not_above rq l h)] at hb
    have hb2 := (List.mem_filter.mp hb).2
    simp only [Bool.not_not] at hb2
    rw [piece_request.lt_iff] at hb2
    rw [piece_request.lt_eq_false_iff]
    omega
  · intro a ha b hb
    rcases List.mem_cons.mp hb with hb | hb
    · have := List.mem_takeWhile_imp ha
      rw [hb]
      simpa using this
    · exact h3 a ha b hb

theorem broker_inv_read_piece (info_hash : Nat) (piece : Int) (now timeout_ms : Int)
    (s : file_requests) (hi : broker_inv s) :
    broker_inv (file_requests.read_piece info_hash piece now timeout_ms s) := by
  have hperm : (file_requests.read_piece info_hash piece now timeout_ms s).pending.Perm
      (s.next_promise :: s.pending) := by
    have h := (insert_perm ⟨info_hash, piece, s.next_promise, now + timeout_ms⟩
      s.m_requests).map (fun r => r.promise)
    exact h
  have hfresh : s.next_promise ∉ s.pending := fun h => Nat.lt_irrefl _ (hi.ids_lt _ h)
  refine ⟨insert_sorted _ _ hi.sorted, ?_, ?_, ?_, ?_, ?_⟩
  · rw [hperm.nodup_iff]
    exact List.nodup_cons.mpr ⟨hfresh, hi.ids_nodup⟩
  · intro p hp
    show p < s.next_promise + 1
    rcases List.mem_cons.mp (hperm.mem_iff.mp hp) with h | h
    · rw [h]; exact Nat.lt_succ_self _
    · exact Nat.lt_succ_of_lt (hi.ids_lt p h)
  · intro id hid
    rw [hperm.mem_iff]
    exact List.mem_cons_of_mem _ (hi.cursor_ok id hid)
  · intro p hp
    show p < s.next_promise + 1
    exact Nat.lt_succ_of_lt (hi.fulfilled_lt p hp)
  · intro p hp hf
    rcases List.mem_cons.mp (hperm.mem_iff.mp hp) with h | h
    · have := hi.fulfilled_lt p hf
      rw [h] at this
      exact Nat.lt_irrefl _ this
    · exact hi.unfulfilled p h hf

/-- Erasing a part `R` of the set keeps the invariant, when `m_next_timeout`
is moved out of `R` and only promises of `R` are fulfilled. -/
theorem broker_inv_erase (s : file_requests) (hi : broker_inv s) (A R B : List piece_request)
    (hl : s.m_requests = A ++ (R ++ B)) (c : Option promise_id)
    (f : List (promise_id × piece_entry))
    (hc : ∀ id, c = some id → id ∈ B.map (fun r => r.promise) ∨
      (s.m_next_timeout = some id ∧ id ∉ R.map (fun r => r.promise)))
    (hf : ∀ p, p ∈ f.map Prod.fst → p ∈ s.fulfilled.map Prod.fst ∨
      p ∈ R.map (fun r => r.promise)) :
    broker_inv { s with m_requests := A ++ B, m_next_timeout := c, fulfilled := f } := by
  have hsub : (A ++ B).Sublist s.m_requests := by
    rw [hl]; exact append_sublist_split3 A R B
  have hsubp : ((A ++ B).map (fun r => r.promise)).Sublist s.pending := hsub.map _
  have hpend : s.pending = A.map (fun r => r.promise)
      ++ (R.map (fun r => r.promise) ++ B.map (fun r => r.promise)) := by
    unfold file_requests.pending
    rw [hl, List.map_append, List.map_append]
  have hnd := hi.ids_nodup
  rw [hpend] at hnd
  have hdisj : ∀ p, p ∈ (A ++ B).map (fun r => r.promise) → p ∉ R.map (fun r => r.promise) := by
    intro p hp hr
    rw [List.map_append, List.mem_append] at hp
    rw [List.nodup_append] at hnd
    rcases hp with hp | hp
    · exact hnd.2.2 hp (List.mem_append_left _ hr)
    · exact (List.nodup_append.mp hnd.2.1).2.2 hr hp
  refine ⟨hi.sorted.sublist hsub, hi.ids_nodup.sublist hsubp, ?_, ?_, ?_, ?_⟩
  · intro p hp
    exact hi.ids_lt p (hsubp.subset hp)
  · intro id hid
    show id ∈ (A ++ B).map (fun r => r.promise)
    rw [List.map_append, List.mem_append]
    rcases hc id hid with h | ⟨h1, h2⟩
    · exact Or.inr h
    · have := hi.cursor_ok id h1
      rw [hpend, List.mem_append, List.mem_append] at this
      rcases this with h | h | h
      · exact Or.inl h
      · exact absurd h h2
      · exact Or.inr h
  · intro p hp
    rcases hf p hp with h | h
    · exact hi.fulfilled_lt p h
    · apply hi.ids_lt p
      rw [hpend]
      exact List.mem_append_right _ (List.mem_append_left _ h)
  · intro p hp hpf
    rcases hf p hpf with h | h
    · exact hi.unfulfilled p (hsubp.subset hp) h
    · exact hdisj p hp h

theorem broker_inv_abort_requests (info_hash : Nat) (s : file_requests) (hi : broker_inv s) :
    broker_inv (file_requests.abort_requests info_hash s) := by
  unfold file_requests.abort_requests
  simp only []
  split
  · exact hi
  · have hle := lower_bound_le_upper_bound ⟨info_hash, 0, 0, 0⟩ ⟨info_hash, INT_MAX, 0, 0⟩
      ⟨rfl, show (0 : Int) ≤ INT_MAX by decide⟩ s.m_requests
    have hl := list_split3 s.m_requests _ _ hle
    refine broker_inv_erase s hi _ _ _ hl _ s.fulfilled ?_ (fun p hp => Or.inl hp)
    intro id hid
    rcases skip_range_spec _ _ _ id hid with h | h
    · left
      apply head_mem_ids
      rw [← h]
      rfl
    · exact Or.inr h

theorem broker_inv_on_alert (s : file_requests) (hi : broker_inv s) (a : broker_alert) :
    broker_inv (file_requests.on_alert s a) := by
  cases a with
  | read_piece info_hash buffer piece size =>
    unfold file_requests.on_alert
    simp only []
    split
    · exact hi
    · have hle := lower_bound_le_upper_bound ⟨info_hash, piece, 0, 0⟩ ⟨info_hash, piece, 0, 0⟩
        ⟨rfl, le_refl _⟩ s.m_requests
      have hl := list_split3 s.m_requests _ _ hle
      refine broker_inv_erase s hi _ _ _ hl _ _ ?_ ?_
      · intro id hid
        exact fulfil_range_snd s.m_requests _ _ hi.ids_nodup _ _ _ hl id hid
      · intro p hp
        rw [fulfil_range_fst, List.map_append, List.mem_append] at hp
        rcases hp with hp | hp
        · exact Or.inl hp
        · right
          rw [List.map_map] at hp
          exact hp
  | piece_finished info_hash piece_index =>
    unfold file_requests.on_alert
    simp only []
    split
    · exact ⟨hi.sorted, hi.ids_nodup, hi.ids_lt, hi.cursor_ok, hi.fulfilled_lt, hi.unfulfilled⟩
    · exact ⟨hi.sorted, hi.ids_nodup, hi.ids_lt, hi.cursor_ok, hi.fulfilled_lt, hi.unfulfilled⟩
  | torrent_removed info_hash => exact broker_inv_abort_requests info_hash s hi
  | torrent_paused info_hash => exact broker_inv_abort_requests info_hash s hi
  | other => exact hi

/-! #### The tick sweep -/

theorem on_tick_empty (now : Int) (s : file_requests) (hl : s.m_requests = [])
    (hc : s.m_next_timeout = none) : file_requests.on_tick now s = s := by
  cases s with
  | mk l c hv f e n =>
    simp only at hl hc
    subst hl
    subst hc
    rfl

/-- One tick when `m_next_timeout`, after the wrap from `end()` to `begin()`,
points to the request `r`. -/
theorem on_tick_at (now : Int) (s : file_requests) (P S : List piece_request)
    (r : piece_request) (hl : s.m_requests = P ++ r :: S)
    (hP : ∀ x, x ∈ P → x.promise ≠ r.promise)
    (hc : s.m_next_timeout = some r.promise ∨ (s.m_next_timeout = none ∧ P = [])) :
    file_requests.on_tick now s =
      if r.timeout < now then
        { s with m_next_timeout := S.head?.map (fun r => r.promise), m_requests := P ++ S }
      else { s with m_next_timeout := S.head?.map (fun r => r.promise) } := by
  have hcc : (if s.m_next_timeout = none then requests_t.iter_at s.m_requests 0
      else s.m_next_timeout) = some r.promise := by
    rcases hc with hc | ⟨hc, hPn⟩
    · rw [hc]; rfl
    · rw [hc, hl, hPn]; rfl
  unfold file_requests.on_tick
  simp only [hcc]
  rw [hl, find_split P S r r.promise rfl hP, next_split P S r r.promise rfl hP,
    eraseP_split P S r r.promise rfl hP]

/-- The request that the next tick visits, if the set is not empty. -/
theorem sweep_split (s : file_requests) (hi : broker_inv s) (hne : s.m_requests ≠ []) :
    ∃ P r S, s.m_requests = P ++ r :: S ∧ (∀ x, x ∈ P → x.promise ≠ r.promise) ∧
      (s.m_next_timeout = some r.promise ∨ (s.m_next_timeout = none ∧ P = [])) ∧
      s.sweep_order = r :: S ++ P := by
  cases hc : s.m_next_timeout with
  | none =>
    cases hl : s.m_requests with
    | nil => exact absurd hl hne
    | cons r S =>
      refine ⟨[], r, S, rfl, fun x hx => by simp at hx, Or.inr ⟨rfl, rfl⟩, ?_⟩
      unfold file_requests.sweep_order
      rw [hc, hl]
      simp
  | some id =>
    obtain ⟨P, r, S, hl, hr, hP⟩ := mem_pending_split s.m_requests id (hi.cursor_ok id hc)
    subst hr
    refine ⟨P, r, S, hl, hP, Or.inl rfl, ?_⟩
    unfold file_requests.sweep_order
    rw [hc]
    simp only []
    rw [hl, dropWhile_split P S r r.promise rfl hP, takeWhile_split P S r r.promise rfl hP]

theorem broker_inv_on_tick (now : Int) (s : file_requests) (hi : broker_inv s) :
    broker_inv (file_requests.on_tick now s) := by
  by_cases hne : s.m_requests = []
  · have hc : s.m_next_timeout = none := by
      cases hc : s.m_next_timeout with
      | none => rfl
      | some id =>
        have := hi.cursor_ok id hc
        rw [file_requests.pending, hne] at this
        simp at this
    rw [on_tick_empty now s hne hc]
    exact hi
  · obtain ⟨P, r, S, hl, hP, hc, _⟩ := sweep_split s hi hne
    rw [on_tick_at now s P S r hl hP hc]
    split
    · refine broker_inv_erase s hi P [r] S hl _ s.fulfilled ?_ (fun p hp => Or.inl hp)
      intro id hid
      exact Or.inl (head_mem_ids S id hid)
    · refine ⟨hi.sorted, hi.ids_nodup, hi.ids_lt, ?_, hi.fulfilled_lt, hi.unfulfilled⟩
      intro id hid
      show id ∈ s.m_requests.map (fun r => r.promise)
      rw [hl, List.map_append, List.map_cons]
      exact List.mem_append_right _ (List.mem_cons_of_mem _ (head_mem_ids S id hid))

theorem sweep_step_cons (now : Int) (r : piece_request) (rest : List piece_request) :
    sweep_step now (r :: rest) = if r.timeout < now then rest else rest ++ [r] := rfl

/-- One tick is one step of the sweep on the visiting order; it fulfils no
promise and makes no call on the engine. -/
theorem on_tick_sweep (now : Int) (s : file_requests) (hi : broker_inv s) :
    (file_requests.on_tick now s).sweep_order = sweep_step now s.sweep_order ∧
    (file_requests.on_tick now s).fulfilled = s.fulfilled ∧
    (file_requests.on_tick now s).engine = s.engine ∧
    (file_requests.on_tick now s).next_promise = s.next_promise := by
  by_cases hne : s.m_requests = []
  · have hc : s.m_next_timeout = none := by
      cases hc : s.m_next_timeout with
      | none => rfl
      | some id =>
        have := hi.cursor_ok id hc
        rw [file_requests.pending, hne] at this
        simp at this
    rw [on_tick_empty now s hne hc]
    refine ⟨?_, rfl, rfl, rfl⟩
    unfold file_requests.sweep_order
    rw [hc, hne]
    rfl
  · obtain ⟨P, r, S, hl, hP, hc, ho⟩ := sweep_split s hi hne
    have hnd : (P.map (fun r => r.promise) ++ r.promise :: S.map (fun r => r.promise)).Nodup := by
      have := hi.ids_nodup
      rw [file_requests.pending, hl, List.map_append, List.map_cons] at this
      exact this
    rw [on_tick_at now s P S r hl hP hc, ho, List.cons_append, sweep_step_cons]
    split
    · refine ⟨?_, rfl, rfl, rfl⟩
      unfold file_requests.sweep_order
      cases S with
      | nil => simp
      | cons r2 S2 =>
        have hP2 : ∀ x, x ∈ P → x.promise ≠ r2.promise := by
          intro x hx hxe
          refine (List.nodup_append.mp hnd).2.2 (List.mem_map_of_mem _ hx) ?_
          rw [hxe]
          simp
        simp only [List.head?_cons, Option.map_some']
        rw [dropWhile_split P S2 r2 r2.promise rfl hP2, takeWhile_split P S2 r2 r2.promise rfl hP2]
    · refine ⟨?_, rfl, rfl, rfl⟩
      unfold file_requests.sweep_order
      cases S with
      | nil =>
        simp only [List.head?_nil, Option.map_none']
        rw [hl]
        simp
      | cons r2 S2 =>
        have hP2 : ∀ x, x ∈ P ++ [r] → x.promise ≠ r2.promise := by
          intro x hx hxe
          rcases List.mem_append.mp hx with hx | hx
          · refine (List.nodup_append.mp hnd).2.2 (List.mem_map_of_mem _ hx) ?_
            rw [hxe]
            simp
          · have hx' : x = r := by simpa using hx
            have := (List.nodup_cons.mp (List.nodup_append.mp hnd).2.1).1
            apply this
            rw [← hx', hxe]
            simp
        simp only [List.head?_cons, Option.map_some']
        have hl2 : s.m_requests = (P ++ [r]) ++ r2 :: S2 := by rw [hl]; simp
        rw [hl2, dropWhile_split (P ++ [r]) S2 r2 r2.promise rfl hP2,
          takeWhile_split (P ++ [r]) S2 r2 r2.promise rfl hP2]
        simp

theorem sweep_order_perm (s : file_requests) : s.sweep_order.Perm s.m_requests := by
  unfold file_requests.sweep_order
  cases s.m_next_timeout with
  | none => exact List.Perm.refl _
  | some id =>
    simp only []
    refine List.perm_append_comm.trans ?_
    rw [List.takeWhile_append_dropWhile]

theorem sweep_step_subset (now : Int) (c : List piece_request) :
    ∀ x, x ∈ sweep_step now c → x ∈ c := by
  intro x hx
  cases c with
  | nil => exact hx
  | cons r t =>
    rw [sweep_step_cons] at hx
    split at hx
    · exact List.mem_cons_of_mem _ hx
    · rcases List.mem_append.mp hx with h | h
      · exact List.mem_cons_of_mem _ h
      · have : x = r := by simpa using h
        rw [this]; exact List.mem_cons_self _ _

theorem sweep_steps_subset (nows : List Int) :
    ∀ (c : List piece_request) x, x ∈ nows.foldl (fun c now => sweep_step now c) c → x ∈ c := by
  induction nows with
  | nil => intro c x hx; exact hx
  | cons n ns ih =>
    intro c x hx
    exact sweep_step_subset n c x (ih _ x hx)

/-- A request whose timeout has passed is gone from the visiting order after as
many steps of the sweep as its position needs. -/
theorem sweep_steps_purge (r : piece_request) (X : List piece_request) :
    ∀ (Y : List piece_request) (nows : List Int), X.length + 1 ≤ nows.length →
      (∀ now, now ∈ nows → r.timeout < now) → r ∉ X → r ∉ Y →
      r ∉ nows.foldl (fun c now => sweep_step now c) (X ++ r :: Y) := by
  induction X with
  | nil =>
    intro Y nows hlen hnow _ hY
    cases nows with
    | nil => simp at hlen
    | cons n ns =>
      intro hc
      have h1 := sweep_steps_subset ns _ r hc
      have hn : r.timeout < n := hnow n (List.mem_cons_self _ _)
      simp only [List.nil_append, sweep_step, hn, if_true] at h1
      exact hY h1
  | cons x X2 ih =>
    intro Y nows hlen hnow hX hY
    cases nows with
    | nil => simp at hlen
    | cons n ns =>
      have hX2 : r ∉ X2 := fun h => hX (List.mem_cons_of_mem _ h)
      have hrx : r ≠ x := fun h => hX (by rw [h]; exact List.mem_cons_self _ _)
      have hlen2 : X2.length + 1 ≤ ns.length := by
        simp only [List.length_cons] at hlen
        omega
      have hnow2 : ∀ now, now ∈ ns → r.timeout < now :=
        fun now h => hnow now (List.mem_cons_of_mem _ h)
      rw [List.foldl_cons, List.cons_append, sweep_step_cons]
      split
      · exact ih Y ns hlen2 hnow2 hX2 hY
      · rw [List.append_assoc, List.cons_append]
        refine ih (Y ++ [x]) ns hlen2 hnow2 hX2 ?_
        intro hc
        rcases List.mem_append.mp hc with h | h
        · exact hY h
        · apply hrx; simpa using h

/-! #### Reachable states of the broker -/

theorem broker_inv_api (s : file_requests) (hi : broker_inv s) (c : broker_call) :
    broker_inv (file_requests.api s c) := by
  cases c with
  | read_piece info_hash piece now timeout_ms => exact broker_inv_read_piece _ _ _ _ s hi
  | on_alert a => exact broker_inv_on_alert s hi a
  | on_tick now => exact broker_inv_on_tick now s hi

theorem broker_inv_run (calls : List broker_call) :
    ∀ s, broker_inv s → broker_inv (file_requests.run calls s) := by
  induction calls with
  | nil => intro s hi; exact hi
  | cons c cs ih => intro s hi; exact ih _ (broker_inv_api s hi c)

theorem broker_inv_reached (calls : List broker_call) :
    broker_inv (file_requests.reached calls) :=
  broker_inv_run calls _ broker_inv_init

theorem mem_erase_range (l : List piece_request) (first last : Nat) (r : piece_request)
    (h : r ∈ requests_t.erase_range l first last) : r ∈ l := by
  rcases List.mem_append.mp h with h | h
  · exact List.mem_of_mem_take h
  · exact List.mem_of_mem_drop h

theorem mem_range (l : List piece_request) (first last : Nat) (r : piece_request)
    (h : r ∈ requests_t.range l first last) : r ∈ l :=
  List.mem_of_mem_take (List.mem_of_mem_drop h)

/-- The `read_piece_alert` branch, also when it returns early: the promises of
`equal_range(rq)` are fulfilled with the piece and the range is erased. -/
theorem on_alert_read_piece_spec (s : file_requests) (info_hash : Nat) (buffer : List Nat)
    (piece size : Int) :
    (file_requests.on_alert s (.read_piece info_hash buffer piece size)).fulfilled
      = s.fulfilled ++
        (requests_t.range s.m_requests
          (requests_t.lower_bound ⟨info_hash, piece, 0, 0⟩ s.m_requests)
          (requests_t.upper_bound ⟨info_hash, piece, 0, 0⟩ s.m_requests)).map
          (fun r => (r.promise, ({ buffer := buffer, size := size, piece := piece } : piece_entry))) ∧
    (file_requests.on_alert s (.read_piece info_hash buffer piece size)).m_requests
      = requests_t.erase_range s.m_requests
          (requests_t.lower_bound ⟨info_hash, piece, 0, 0⟩ s.m_requests)
          (requests_t.upper_bound ⟨info_hash, piece, 0, 0⟩ s.m_requests) ∧
    (file_requests.on_alert s (.read_piece info_hash buffer piece size)).engine = s.engine ∧
    (file_requests.on_alert s (.read_piece info_hash buffer piece size)).next_promise
      = s.next_promise := by
  have hle := lower_bound_le_upper_bound ⟨info_hash, piece, 0, 0⟩ ⟨info_hash, piece, 0, 0⟩
    ⟨rfl, le_refl _⟩ s.m_requests
  unfold file_requests.on_alert
  simp only []
  split
  · rename_i hend
    rw [hend] at hle
    refine ⟨?_, ?_, rfl, rfl⟩
    · unfold requests_t.range
      rw [hend, List.drop_eq_nil_of_le (by rw [List.length_take]; omega)]
      simp
    · unfold requests_t.erase_range
      rw [hend, List.take_length, List.drop_eq_nil_of_le hle]
      simp
  · exact ⟨fulfil_range_fst _ _ _ _, rfl, rfl, rfl⟩

/-- The torrent-removed branch, also when it returns early. -/
theorem abort_requests_spec (info_hash : Nat) (s : file_requests) :
    (file_requests.abort_requests info_hash s).m_requests
      = requests_t.erase_range s.m_requests
          (requests_t.lower_bound ⟨info_hash, 0, 0, 0⟩ s.m_requests)
          (requests_t.upper_bound ⟨info_hash, INT_MAX, 0, 0⟩ s.m_requests) ∧
    (file_requests.abort_requests info_hash s).fulfilled = s.fulfilled ∧
    (file_requests.abort_requests info_hash s).engine = s.engine ∧
    (file_requests.abort_requests info_hash s).next_promise = s.next_promise := by
  unfold file_requests.abort_requests
  simp only []
  split
  · rename_i heq
    refine ⟨?_, rfl, rfl, rfl⟩
    unfold requests_t.erase_range
    rw [heq, List.take_append_drop]
  · exact ⟨rfl, rfl, rfl, rfl⟩

/-- No tick adds a request, fulfils a promise or makes a promise. -/
theorem on_tick_frame (now : Int) (s : file_requests) :
    (∀ r, r ∈ (file_requests.on_tick now s).m_requests → r ∈ s.m_requests) ∧
    (file_requests.on_tick now s).fulfilled = s.fulfilled ∧
    (file_requests.on_tick now s).next_promise = s.next_promise := by
  unfold file_requests.on_tick
  simp only []
  split
  · exact ⟨fun r h => h, rfl, rfl⟩
  · split
    · exact ⟨fun r h => h, rfl, rfl⟩
    · split
      · exact ⟨fun r h => List.mem_of_mem_eraseP h, rfl, rfl⟩
      · exact ⟨fun r h => h, rfl, rfl⟩

/-- What one call can add: a request only with the promise made by the call, a
fulfilment only for a promise that was pending. -/
theorem api_grows (s : file_requests) (c : broker_call) :
    (∀ r, r ∈ (file_requests.api s c).m_requests →
      r ∈ s.m_requests ∨ (r.promise = s.next_promise ∧ ∃ ih p now t, c = .read_piece ih p now t ∧
        r.piece = p)) ∧
    (∀ p, p ∈ (file_requests.api s c).fulfilled.map Prod.fst →
      p ∈ s.fulfilled.map Prod.fst ∨ p ∈ s.pending) ∧
    s.next_promise ≤ (file_requests.api s c).next_promise := by
  cases c with
  | read_piece info_hash piece now timeout_ms =>
    refine ⟨?_, fun p hp => Or.inl hp, Nat.le_succ _⟩
    intro r hr
    rcases List.mem_cons.mp ((insert_perm _ _).mem_iff.mp hr) with h | h
    · right
      rw [h]
      exact ⟨rfl, info_hash, piece, now, timeout_ms, rfl, rfl⟩
    · exact Or.inl h
  | on_alert a =>
    cases a with
    | read_piece info_hash buffer piece size =>
      obtain ⟨h1, h2, _, h4⟩ := on_alert_read_piece_spec s info_hash buffer piece size
      refine ⟨?_, ?_, ?_⟩
      · intro r hr
        left
        have hr' : r ∈ (file_requests.on_alert s (.read_piece info_hash buffer piece size)).m_requests := hr
        rw [h2] at hr'
        exact mem_erase_range _ _ _ r hr'
      · intro p hp
        have hp' : p ∈ (file_requests.on_alert s
            (.read_piece info_hash buffer piece size)).fulfilled.map Prod.fst := hp
        rw [h1, List.map_append, List.mem_append, List.map_map] at hp'
        rcases hp' with h | h
        · exact Or.inl h
        · right
          obtain ⟨r, hr, hrp⟩ := List.mem_map.mp h
          rw [← hrp]
          exact List.mem_map_of_mem _ (mem_range _ _ _ r hr)
      · exact le_of_eq h4.symm
    | piece_finished info_hash piece_index =>
      show (∀ r, r ∈ (file_requests.on_alert s (.piece_finished info_hash piece_index)).m_requests → _)
        ∧ (∀ p, p ∈ (file_requests.on_alert s
            (.piece_finished info_hash piece_index)).fulfilled.map Prod.fst → _)
        ∧ _ ≤ (file_requests.on_alert s (.piece_finished info_hash piece_index)).next_promise
      unfold file_requests.on_alert
      simp only []
      split
      · exact ⟨fun r h => Or.inl h, fun p h => Or.inl h, le_refl _⟩
      · exact ⟨fun r h => Or.inl h, fun p h => Or.inl h, le_refl _⟩
    | torrent_removed info_hash =>
      obtain ⟨h1, h2, _, h4⟩ := abort_requests_spec info_hash s
      refine ⟨?_, ?_, le_of_eq h4.symm⟩
      · intro r hr
        left
        have hr' : r ∈ (file_requests.abort_requests info_hash s).m_requests := hr
        rw [h1] at hr'
        exact mem_erase_range _ _ _ r hr'
      · intro p hp
        have hp' : p ∈ (file_requests.abort_requests info_hash s).fulfilled.map Prod.fst := hp
        rw [h2] at hp'
        exact Or.inl hp'
    | torrent_paused info_hash =>
      obtain ⟨h1, h2, _, h4⟩ := abort_requests_spec info_hash s
      refine ⟨?_, ?_, le_of_eq h4.symm⟩
      · intro r hr
        left
        have hr' : r ∈ (file_requests.abort_requests info_hash s).m_requests := hr
        rw [h1] at hr'
        exact mem_erase_range _ _ _ r hr'
      · intro p hp
        have hp' : p ∈ (file_requests.abort_requests info_hash s).fulfilled.map Prod.fst := hp
        rw [h2] at hp'
        exact Or.inl hp'
    | other => exact ⟨fun r h => Or.inl h, fun p h => Or.inl h, le_refl _⟩
  | on_tick now =>
    obtain ⟨h1, h2, h3⟩ := on_tick_frame now s
    refine ⟨fun r hr => Or.inl (h1 r hr), ?_, le_of_eq h3.symm⟩
    intro p hp
    have hp' : p ∈ (file_requests.on_tick now s).fulfilled.map Prod.fst := hp
    rw [h2] at hp'
    exact Or.inl hp'

theorem pieces_ok_api (s : file_requests) (c : broker_call) (hc : c.admissible)
    (h : s.pieces_ok) : (file_requests.api s c).pieces_ok := by
  intro r hr
  rcases (api_grows s c).1 r hr with h1 | ⟨_, ih, p, now, t, hcc, hp⟩
  · exact h r h1
  · rw [hcc] at hc
    rw [hp]
    exact hc

theorem pieces_ok_run (calls : List broker_call) (hc : ∀ c, c ∈ calls → c.admissible) :
    ∀ s : file_requests, s.pieces_ok → (file_requests.run calls s).pieces_ok := by
  induction calls with
  | nil => intro s h; exact h
  | cons c cs ih =>
    intro s h
    exact ih (fun x hx => hc x (List.mem_cons_of_mem _ hx)) _
      (pieces_ok_api s c (hc c (List.mem_cons_self _ _)) h)

theorem pieces_ok_reached (calls : List broker_call) (hc : ∀ c, c ∈ calls → c.admissible) :
    (file_requests.reached calls).pieces_ok :=
  pieces_ok_run calls hc _ (fun r hr => by simp [file_requests.init] at hr)

/-- A promise that is neither pending nor fulfilled stays so. -/
theorem retired_api (s : file_requests) (c : broker_call) (p : promise_id)
    (h : s.retired p) : (file_requests.api s c).retired p := by
  obtain ⟨h1, h2, h3⟩ := h
  obtain ⟨g1, g2, g3⟩ := api_grows s c
  refine ⟨Nat.lt_of_lt_of_le h1 g3, ?_, ?_⟩
  · intro hp
    obtain ⟨r, hr, hrp⟩ := List.mem_map.mp hp
    rcases g1 r hr with hm | ⟨hm, _⟩
    · exact h2 (by rw [← hrp]; exact List.mem_map_of_mem _ hm)
    · rw [← hrp, hm] at h1
      exact Nat.lt_irrefl _ h1
  · intro hp
    rcases g2 p hp with hm | hm
    · exact h3 hm
    · exact h2 hm

theorem retired_run (calls : List broker_call) (p : promise_id) :
    ∀ s : file_requests, s.retired p → (file_requests.run calls s).retired p := by
  induction calls with
  | nil => intro s h; exact h
  | cons c cs ih => intro s h; exact ih _ (retired_api s c p h)

/-- A run of ticks is a run of sweep steps on the visiting order. -/
theorem run_ticks (nows : List Int) :
    ∀ s : file_requests, broker_inv s →
      (file_requests.run (nows.map broker_call.on_tick) s).sweep_order
        = nows.foldl (fun c now => sweep_step now c) s.sweep_order ∧
      (file_requests.run (nows.map broker_call.on_tick) s).fulfilled = s.fulfilled ∧
      (file_requests.run (nows.map broker_call.on_tick) s).engine = s.engine ∧
      (file_requests.run (nows.map broker_call.on_tick) s).next_promise = s.next_promise := by
  induction nows with
  | nil => intro s _; exact ⟨rfl, rfl, rfl, rfl⟩
  | cons n ns ih =>
    intro s hi
    obtain ⟨t1, t2, t3, t4⟩ := on_tick_sweep n s hi
    obtain ⟨i1, i2, i3, i4⟩ := ih _ (broker_inv_on_tick n s hi)
    refine ⟨?_, ?_, ?_, ?_⟩
    · show (file_requests.run (ns.map broker_call.on_tick) (file_requests.on_tick n s)).sweep_order = _
      rw [i1, t1]; rfl
    · show (file_requests.run (ns.map broker_call.on_tick) (file_requests.on_tick n s)).fulfilled = _
      rw [i2, t2]
    · show (file_requests.run (ns.map broker_call.on_tick) (file_requests.on_tick n s)).engine = _
      rw [i3, t3]
    · show (file_requests.run (ns.map broker_call.on_tick)
        (file_requests.on_tick n s)).next_promise = _
      rw [i4, t4]

/-! #### The claims about the broker -/

theorem demo_broker_calls_admissible : ∀ c, c ∈ demo_broker_calls → c.admissible := by
  intro c hc
  simp only [demo_broker_calls, List.mem_cons, List.mem_singleton, List.not_mem_nil,
    or_false] at hc
  rcases hc with h | h | h | h | h | h <;> rw [h] <;>
    simp only [broker_call.admissible] <;> decide

/-- C15: in a reachable broker state, a piece-delivered alert for the key
`(info_hash, piece)` fulfils the promise of every pending request with that
key, in their order, with the alert's buffer, size and piece, and erases these
requests; every request with another key stays pending and its promise is not
fulfilled. -/
theorem piece_delivered_fulfils_key (calls : List broker_call) (info_hash : Nat)
    (buffer : List Nat) (piece size : Int) :
    added (file_requests.reached calls).fulfilled
        (file_requests.on_alert (file_requests.reached calls)
          (.read_piece info_hash buffer piece size)).fulfilled
      = ((file_requests.reached calls).m_requests.filter
          (fun r => decide (r.info_hash = info_hash ∧ r.piece = piece))).map
          (fun r => (r.promise,
            ({ buffer := buffer, size := size, piece := piece } : piece_entry))) ∧
    (file_requests.on_alert (file_requests.reached calls)
        (.read_piece info_hash buffer piece size)).m_requests
      = (file_requests.reached calls).m_requests.filter
          (fun r => decide (¬ (r.info_hash = info_hash ∧ r.piece = piece))) ∧
    (∀ r, r ∈ (file_requests.reached calls).m_requests →
      ¬ (r.info_hash = info_hash ∧ r.piece = piece) →
        r ∈ (file_requests.on_alert (file_requests.reached calls)
          (.read_piece info_hash buffer piece size)).m_requests ∧
        r.promise ∉ (file_requests.on_alert (file_requests.reached calls)
          (.read_piece info_hash buffer piece size)).fulfilled.map Prod.fst) := by
  have hi := broker_inv_reached calls
  have hi' := broker_inv_on_alert _ hi (.read_piece info_hash buffer piece size)
  obtain ⟨h1, h2, _, _⟩ :=
    on_alert_read_piece_spec (file_requests.reached calls) info_hash buffer piece size
  have h2' := h2.trans (erase_equal_range_eq_filter ⟨info_hash, piece, 0, 0⟩ _ hi.sorted)
  refine ⟨?_, h2', ?_⟩
  · rw [h1, equal_range_eq_filter ⟨info_hash, piece, 0, 0⟩ _ hi.sorted]
    unfold added
    rw [List.drop_left]
  · intro r hr hk
    have hm : r ∈ (file_requests.on_alert (file_requests.reached calls)
        (.read_piece info_hash buffer piece size)).m_requests := by
      rw [h2']
      exact List.mem_filter.mpr ⟨hr, decide_eq_true hk⟩
    exact ⟨hm, hi'.unfulfilled _ (List.mem_map_of_mem _ hm)⟩

/-- Instance of `piece_delivered_fulfils_key`: piece 3 of torrent 1 is delivered
while three requests for it, one for piece 2 and one of torrent 2 are pending. -/
theorem piece_delivered_fulfils_key_witness :
    ((⟨2, 0, 2, 11⟩ : piece_request) ∈ (file_requests.reached demo_broker_calls).m_requests ∧
      ¬ ((2 : Nat) = 1 ∧ (0 : Int) = 3)) ∧
    added (file_requests.reached demo_broker_calls).fulfilled
        (file_requests.on_alert (file_requests.reached demo_broker_calls)
          (.read_piece 1 [7, 8] 3 2)).fulfilled
      = [(0, ⟨[7, 8], 2, 3⟩), (3, ⟨[7, 8], 2, 3⟩), (4, ⟨[7, 8], 2, 3⟩)] ∧
    (⟨2, 0, 2, 11⟩ : piece_request) ∈ (file_requests.on_alert
        (file_requests.reached demo_broker_calls) (.read_piece 1 [7, 8] 3 2)).m_requests ∧
    (2 : promise_id) ∉ (file_requests.on_alert (file_requests.reached demo_broker_calls)
        (.read_piece 1 [7, 8] 3 2)).fulfilled.map Prod.fst :=
  ⟨⟨by decide, by decide⟩,
    (piece_delivered_fulfils_key demo_broker_calls 1 [7, 8] 3 2).1.trans (by decide),
    (piece_delivered_fulfils_key demo_broker_calls 1 [7, 8] 3 2).2.2 ⟨2, 0, 2, 11⟩
      (by decide) (by decide)⟩

/-- C16: in a reachable broker state with a pending request `r` whose timeout is
earlier than every clock reading of the ticks that follow, a run of at least as
many `on_tick` calls as there are pending requests erases `r`, fulfils no
promise, and no call made afterwards fulfils the promise of `r`. -/
theorem expired_request_is_purged (calls : List broker_call) (r : piece_request)
    (nows : List Int)
    (hr : r ∈ (file_requests.reached calls).m_requests)
    (hlen : (file_requests.reached calls).m_requests.length ≤ nows.length)
    (hnow : ∀ now, now ∈ nows → r.timeout < now) :
    r ∉ (file_requests.run (nows.map broker_call.on_tick)
      (file_requests.reached calls)).m_requests ∧
    r.promise ∉ (file_requests.run (nows.map broker_call.on_tick)
      (file_requests.reached calls)).pending ∧
    (file_requests.run (nows.map broker_call.on_tick)
      (file_requests.reached calls)).fulfilled = (file_requests.reached calls).fulfilled ∧
    (∀ later : List broker_call,
      r.promise ∉ (file_requests.run later
        (file_requests.run (nows.map broker_call.on_tick)
          (file_requests.reached calls))).fulfilled.map Prod.fst) := by
  have hi := broker_inv_reached calls
  generalize file_requests.reached calls = s at hr hlen hi ⊢
  obtain ⟨t1, t2, _, t4⟩ := run_ticks nows s hi
  have hperm := sweep_order_perm s
  have hperm' := sweep_order_perm (file_requests.run (nows.map broker_call.on_tick) s)
  have hnd : s.sweep_order.Nodup :=
    hperm.nodup_iff.mpr (List.Nodup.of_map _ hi.ids_nodup)
  obtain ⟨X, Y, hXY⟩ := List.append_of_mem (hperm.mem_iff.mpr hr)
  have hX : r ∉ X := by
    intro h
    rw [hXY] at hnd
    exact (List.nodup_append.mp hnd).2.2 h (List.mem_cons_self _ _)
  have hY : r ∉ Y := by
    rw [hXY] at hnd
    exact (List.nodup_cons.mp (List.nodup_append.mp hnd).2.1).1
  have hlenX : X.length + 1 ≤ nows.length := by
    have h1 := hperm.length_eq
    rw [hXY, List.length_append, List.length_cons] at h1
    omega
  have hgone : r ∉ (file_requests.run (nows.map broker_call.on_tick) s).m_requests := by
    intro h
    have h2 := hperm'.mem_iff.mpr h
    rw [t1, hXY] at h2
    exact sweep_steps_purge r X Y nows hlenX hnow hX hY h2
  have hsub : ∀ x, x ∈ (file_requests.run (nows.map broker_call.on_tick) s).m_requests →
      x ∈ s.m_requests := by
    intro x hx
    have h2 := hperm'.mem_iff.mpr hx
    rw [t1] at h2
    exact hperm.mem_iff.mp (sweep_steps_subset nows _ x h2)
  have hgone' : r.promise ∉ (file_requests.run (nows.map broker_call.on_tick) s).pending := by
    intro h
    obtain ⟨x, hx, hxp⟩ := List.mem_map.mp h
    have hxr : x = r := List.inj_on_of_nodup_map hi.ids_nodup (hsub x hx) hr hxp
    rw [hxr] at hx
    exact hgone hx
  have hret : (file_requests.run (nows.map broker_call.on_tick) s).retired r.promise := by
    refine ⟨?_, hgone', ?_⟩
    · rw [t4]
      exact hi.ids_lt _ (List.mem_map_of_mem _ hr)
    · rw [t2]
      exact hi.unfulfilled _ (List.mem_map_of_mem _ hr)
  exact ⟨hgone, hgone', t2, fun later => (retired_run later r.promise _ hret).2.2⟩

/-- Instance of `expired_request_is_purged`: five requests are pending, the one
with promise 0 timed out at 10, and five ticks at 20 follow. -/
theorem expired_request_is_purged_witness :
    ((⟨1, 3, 0, 10⟩ : piece_request) ∈ (file_requests.reached demo_broker_calls).m_requests ∧
      (file_requests.reached demo_broker_calls).m_requests.length
        ≤ [(20 : Int), 20, 20, 20, 20].length ∧
      ∀ now, now ∈ [(20 : Int), 20, 20, 20, 20] → (⟨1, 3, 0, 10⟩ : piece_request).timeout < now) ∧
    (0 : promise_id) ∉ (file_requests.run [.on_alert (.read_piece 1 [7, 8] 3 2)]
      (file_requests.run ([(20 : Int), 20, 20, 20, 20].map broker_call.on_tick)
        (file_requests.reached demo_broker_calls))).fulfilled.map Prod.fst :=
  ⟨⟨by decide, by decide, by decide⟩,
    (expired_request_is_purged demo_broker_calls ⟨1, 3, 0, 10⟩ [20, 20, 20, 20, 20]
      (by decide) (by decide) (by decide)).2.2.2 [.on_alert (.read_piece 1 [7, 8] 3 2)]⟩

/-- C17: in a broker state reached by admissible calls, a torrent-removed or
torrent-paused alert for the torrent `T` erases every request of `T`, keeps the
requests of other torrents in their order, fulfils no promise and makes no call
on the engine. -/
theorem torrent_removed_purges_requests (calls : List broker_call)
    (hadm : ∀ c, c ∈ calls → c.admissible) (T : Nat) (a : broker_alert)
    (ha : a = .torrent_removed T ∨ a = .torrent_paused T) :
    (file_requests.on_alert (file_requests.reached calls) a).m_requests
      = (file_requests.reached calls).m_requests.filter (fun r => decide (r.info_hash ≠ T)) ∧
    (file_requests.on_alert (file_requests.reached calls) a).fulfilled
      = (file_requests.reached calls).fulfilled ∧
    (file_requests.on_alert (file_requests.reached calls) a).engine
      = (file_requests.reached calls).engine := by
  have hi := broker_inv_reached calls
  have hp := pieces_ok_reached calls hadm
  have hab : file_requests.on_alert (file_requests.reached calls) a
      = file_requests.abort_requests T (file_requests.reached calls) := by
    rcases ha with h | h <;> rw [h] <;> rfl
  rw [hab]
  obtain ⟨h1, h2, h3, _⟩ := abort_requests_spec T (file_requests.reached calls)
  refine ⟨?_, h2, h3⟩
  rw [h1, erase_torrent_eq_filter T _ hi.sorted]
  apply List.filter_congr
  intro x hx
  have := hp x hx
  rw [Bool.eq_iff_iff]
  simp only [decide_eq_true_eq]
  omega

/-- Instance of `torrent_removed_purges_requests`: torrent 1 is paused while
four of its requests and one of torrent 2 are pending. -/
theorem torrent_removed_purges_requests_witness :
    ((∀ c, c ∈ demo_broker_calls → c.admissible) ∧
      ((broker_alert.torrent_paused 1 = .torrent_removed 1) ∨
        (broker_alert.torrent_paused 1 = .torrent_paused 1))) ∧
    (file_requests.on_alert (file_requests.reached demo_broker_calls)
      (.torrent_paused 1)).m_requests = [⟨2, 0, 2, 11⟩] ∧
    (file_requests.on_alert (file_requests.reached demo_broker_calls)
      (.torrent_paused 1)).fulfilled = [] :=
  ⟨⟨demo_broker_calls_admissible, Or.inr rfl⟩,
    (torrent_removed_purges_requests demo_broker_calls demo_broker_calls_admissible 1
      (.torrent_paused 1) (Or.inr rfl)).1.trans (by decide),
    (torrent_removed_purges_requests demo_broker_calls demo_broker_calls_admissible 1
      (.torrent_paused 1) (Or.inr rfl)).2.1.trans (by decide)⟩

/-- C18 (the claim as written fails): for a piece of the have-set `read_piece`
raises the priority as well as issuing the engine read. -/
theorem read_piece_raises_priority_of_have_piece :
    (file_requests.reached [.on_alert (.piece_finished 1 3)]).m_have_pieces 1 3 = true ∧
    added (file_requests.reached [.on_alert (.piece_finished 1 3)]).engine
        (file_requests.read_piece 1 3 0 10
          (file_requests.reached [.on_alert (.piece_finished 1 3)])).engine
      = [.piece_priority 1 3 7, .read_piece 1 3] := by
  constructor <;> decide

/-- C18 (amended): `read_piece` raises the priority of the piece to the maximum
in every case and issues the engine read after that exactly when the piece is
in the have-set of the torrent; it adds one request with the key, a new promise
and the timeout `now + timeout_ms` to the pending requests, which all stay, and
fulfils no promise. -/
theorem read_piece_adds_one_request (s : file_requests) (info_hash : Nat) (piece : Int)
    (now timeout_ms : Int) :
    added s.engine (file_requests.read_piece info_hash piece now timeout_ms s).engine
      = engine_call.piece_priority info_hash piece lt_top_priority ::
          (if s.m_have_pieces info_hash piece then [engine_call.read_piece info_hash piece]
            else []) ∧
    (file_requests.read_piece info_hash piece now timeout_ms s).m_requests.Perm
      (⟨info_hash, piece, s.next_promise, now + timeout_ms⟩ :: s.m_requests) ∧
    s.m_requests.Sublist (file_requests.read_piece info_hash piece now timeout_ms s).m_requests ∧
    (file_requests.read_piece info_hash piece now timeout_ms s).fulfilled = s.fulfilled := by
  refine ⟨?_, insert_perm _ _, ?_, rfl⟩
  · unfold added file_requests.read_piece
    simp only [List.append_assoc, List.drop_left]
    rfl
  · show s.m_requests.Sublist (requests_t.insert _ s.m_requests)
    unfold requests_t.insert
    conv => lhs; rw [← List.take_append_drop (requests_t.upper_bound
      ⟨info_hash, piece, s.next_promise, now + timeout_ms⟩ s.m_requests) s.m_requests]
    exact List.Sublist.append (List.Sublist.refl _) (List.sublist_cons_self _ _)

/-- Instance of `read_piece_adds_one_request`: a second request for piece 3 of
torrent 1, which is not in the have-set. -/
theorem read_piece_adds_one_request_witness :
    added (file_requests.reached [.read_piece 1 3 0 10]).engine
        (file_requests.read_piece 1 3 2 10 (file_requests.reached [.read_piece 1 3 0 10])).engine
      = [.piece_priority 1 3 7] ∧
    (file_requests.read_piece 1 3 2 10 (file_requests.reached [.read_piece 1 3 0 10])).m_requests.Perm
      [⟨1, 3, 1, 12⟩, ⟨1, 3, 0, 10⟩] :=
  ⟨(read_piece_adds_one_request (file_requests.reached [.read_piece 1 3 0 10]) 1 3 2 10).1.trans
      (by decide),
    (read_piece_adds_one_request (file_requests.reached [.read_piece 1 3 0 10]) 1 3 2 10).2.1⟩

/-! ### The end of a streaming session -/

theorem mem_pieces_between (first last k : Int) :
    k ∈ pieces_between first last ↔ first ≤ k ∧ k < last := by
  unfold pieces_between
  rw [List.mem_map]
  constructor
  · rintro ⟨j, hj, hjk⟩
    rw [List.mem_range] at hj
    omega
  · intro h
    refine ⟨(k - first).toNat, ?_, ?_⟩
    · rw [List.mem_range]; omega
    · omega

/-- A `prioritize_pieces` call that gives one priority to every listed piece. -/
theorem prioritize_pieces_const (d : Int) (keys : List Int) :
    ∀ (prio : Int → Int) (k : Int),
      (k ∈ keys → prioritize_pieces prio (keys.map (fun p => (p, d))) k = d) ∧
      (k ∉ keys → prioritize_pieces prio (keys.map (fun p => (p, d))) k = prio k) := by
  induction keys with
  | nil =>
    intro prio k
    exact ⟨fun h => by simp at h, fun _ => rfl⟩
  | cons p rest ih =>
    intro prio k
    have hstep : prioritize_pieces prio ((p :: rest).map (fun p => (p, d))) k
        = prioritize_pieces (store prio p d) (rest.map (fun p => (p, d))) k := rfl
    rw [hstep]
    obtain ⟨i1, i2⟩ := ih (store prio p d) k
    constructor
    · intro hk
      by_cases hr : k ∈ rest
      · exact i1 hr
      · rw [i2 hr]
        have hkp : k = p := by
          rcases List.mem_cons.mp hk with h | h
          · exact h
          · exact absurd h hr
        rw [hkp, store_same]
    · intro hk
      have hr : k ∉ rest := fun h => hk (List.mem_cons_of_mem _ h)
      have hkp : k ≠ p := fun h => hk (by rw [h]; exact List.mem_cons_self _ _)
      rw [i2 hr, store_other _ _ _ _ hkp]

theorem for_head_priorities (s : stream_state) : s.for_head.priorities = s.priorities := by
  unfold stream_state.for_head
  split <;> rfl

theorem write_head_priorities (pe : piece_entry) (amount ret : Int) (s : stream_state) :
    (s.write_head pe amount ret).priorities = s.priorities := by
  unfold stream_state.write_head
  split
  · rfl
  · split
    · rfl
    · rw [for_head_priorities]

theorem wake_priorities (s : stream_state) : s.wake.priorities = s.priorities := by
  by_cases hw : s.pc = stream_pc.waiting
  · rw [wake_waiting s hw]
    cases queue_top s.queue with
    | none => rfl
    | some pe =>
      simp only []
      split
      · rfl
      · split
        · rfl
        · split
          · rfl
          · rw [write_head_priorities]; rfl
  · rw [wake_not_waiting s hw]

theorem write_returns_priorities (ret : Int) (eagain : Bool) (s : stream_state) :
    (s.write_returns ret eagain).priorities = s.priorities := by
  unfold stream_state.write_returns
  split
  · split
    · split <;> rfl
    · rw [write_head_priorities]; rfl
  · rfl

theorem step_priorities (s : stream_state) (e : stream_event) :
    (s.step e).priorities = s.priorities := by
  cases e with
  | deliver pe =>
    show (piece_alert_dispatch.on_alert pe s).priorities = _
    unfold piece_alert_dispatch.on_alert
    split <;> rfl
  | wake => exact wake_priorities s
  | write_returns ret eagain => exact write_returns_priorities ret eagain s

theorem run_priorities (es : List stream_event) :
    ∀ s : stream_state, (s.run es).priorities = s.priorities := by
  induction es with
  | nil => intro s; rfl
  | cons e es ih =>
    intro s
    show ((s.step e).run es).priorities = _
    rw [ih, step_priorities]

theorem start_stream_priorities (q : Int) (ti : torrent_file) (first last : Int) :
    (file_downloader.start_stream q ti first last).priorities
      = (pieces_between (file_downloader.start_stream q ti first last).pq_begin
          (file_downloader.start_stream q ti first last).pq_finish).map (fun p => (p, 5)) := by
  obtain ⟨f1, f2, _⟩ := start_stream_fields q ti first last
  rw [f1, f2]
  unfold file_downloader.start_stream
  rw [for_head_priorities]
  simp only [stream_state.set_deadlines, pieces_between, torrent_file.map_file, bind_pure_comp,
    List.map_eq_map, List.map_map]
  rfl

/-- Once the loop has been left no event writes to the socket or re-enters it. -/
theorem run_left_loop (es : List stream_event) :
    ∀ s : stream_state, s.pc = stream_pc.left_loop →
      (s.run es).pc = stream_pc.left_loop ∧ (s.run es).socket = s.socket := by
  induction es with
  | nil => intro s h; exact ⟨h, rfl⟩
  | cons e es ih =>
    intro s h
    have hstep : (s.step e).pc = stream_pc.left_loop ∧ (s.step e).socket = s.socket := by
      cases e with
      | deliver pe =>
        show (piece_alert_dispatch.on_alert pe s).pc = _ ∧ (piece_alert_dispatch.on_alert pe s).socket = _
        unfold piece_alert_dispatch.on_alert
        split
        · exact ⟨h, rfl⟩
        · exact ⟨h, rfl⟩
      | wake =>
        show s.wake.pc = _ ∧ s.wake.socket = _
        rw [wake_not_waiting s (by rw [h]; intro hc; cases hc)]
        exact ⟨h, rfl⟩
      | write_returns ret eagain =>
        show (s.write_returns ret eagain).pc = _ ∧ (s.write_returns ret eagain).socket = _
        rw [write_returns_not_writing s ret eagain (by intro pe amount; rw [h]; intro hc; cases hc)]
        exact ⟨h, rfl⟩
    obtain ⟨i1, i2⟩ := ih (s.step e) hstep.1
    exact ⟨i1, i2.trans hstep.2⟩

/-- C19 (the code departs from the claim): a session for the pieces 0 to 2 ends
while another session on the torrent has the window `[1, 3)`. Piece 0 had
priority 7 before the session and has the default priority 4 after it; piece 1,
in the window of the other session, has 4 as well and not the elevated 5. When
the session ends early, on a failed write of piece 0, the pieces 1 and 2 are in
`still_in_use` and their deadlines are not reset, and yet the last
`prioritize_pieces` call passes them with the default priority. -/
theorem session_end_sets_default_priority :
    (file_downloader.start_stream 8 demo_file 1 7).pq_begin = 0 ∧
    (file_downloader.start_stream 8 demo_file 1 7).pq_finish = 3 ∧
    ((file_downloader.start_stream 8 demo_file 1 7).run demo_events).pc = stream_pc.left_loop ∧
    prioritize_pieces (fun _ => 7) (file_downloader.start_stream 8 demo_file 1 7).priorities 1 = 5 ∧
    prioritize_pieces
      (prioritize_pieces (fun _ => 7) (file_downloader.start_stream 8 demo_file 1 7).priorities)
      (file_downloader.cleanup 4 (fun _ => (1, 3)) 1 0 [(1, 0), (1, 1)]
        ((file_downloader.start_stream 8 demo_file 1 7).run demo_events)).priorities 0 = 4 ∧
    prioritize_pieces
      (prioritize_pieces (fun _ => 7) (file_downloader.start_stream 8 demo_file 1 7).priorities)
      (file_downloader.cleanup 4 (fun _ => (1, 3)) 1 0 [(1, 0), (1, 1)]
        ((file_downloader.start_stream 8 demo_file 1 7).run demo_events)).priorities 1 = 4 ∧
    ((file_downloader.start_stream 8 demo_file 1 7).run
      [.deliver (true_piece demo_content 12 4 0), .wake, .write_returns (-1) false]).pc
      = stream_pc.left_loop ∧
    (file_downloader.cleanup 4 (fun _ => (1, 3)) 1 0 [(1, 0), (1, 1)]
      ((file_downloader.start_stream 8 demo_file 1 7).run
        [.deliver (true_piece demo_content 12 4 0), .wake, .write_returns (-1) false])).still_in_use
      = [1, 2] ∧
    (file_downloader.cleanup 4 (fun _ => (1, 3)) 1 0 [(1, 0), (1, 1)]
      ((file_downloader.start_stream 8 demo_file 1 7).run
        [.deliver (true_piece demo_content 12 4 0), .wake, .write_returns (-1) false])).reset_deadlines
      = [] ∧
    (file_downloader.cleanup 4 (fun _ => (1, 3)) 1 0 [(1, 0), (1, 1)]
      ((file_downloader.start_stream 8 demo_file 1 7).run
        [.deliver (true_piece demo_content 12 4 0), .wake, .write_returns (-1) false])).priorities
      = [(0, 4), (1, 4), (2, 4)] := by
  refine ⟨by decide, by decide, by decide, by decide, by decide, by decide, by decide, by decide,
    by decide, by decide⟩

/-- What the last `prioritize_pieces` call of `handle_http` does, after any
events and whatever the other sessions on the torrent are: every piece of the
range `[first piece, end piece)` gets the engine's default priority, and a
piece outside the range keeps the priority it has. -/
theorem cleanup_sets_default_priority (m_queue_size : Int) (ti : torrent_file)
    (first last : Int) (events : List stream_event) (default_priority : Int)
    (window : Nat → Int × Int) (info_hash pq : Nat) (m_torrents : List (Nat × Nat))
    (prio : Int → Int) (k : Int) :
    ((file_downloader.start_stream m_queue_size ti first last).pq_begin ≤ k ∧
        k < (file_downloader.start_stream m_queue_size ti first last).pq_finish →
      prioritize_pieces prio
        (file_downloader.cleanup default_priority window info_hash pq m_torrents
          ((file_downloader.start_stream m_queue_size ti first last).run events)).priorities k
        = default_priority) ∧
    (¬ ((file_downloader.start_stream m_queue_size ti first last).pq_begin ≤ k ∧
        k < (file_downloader.start_stream m_queue_size ti first last).pq_finish) →
      prioritize_pieces prio
        (file_downloader.cleanup default_priority window info_hash pq m_torrents
          ((file_downloader.start_stream m_queue_size ti first last).run events)).priorities k
        = prio k) := by
  have hp : (file_downloader.cleanup default_priority window info_hash pq m_torrents
      ((file_downloader.start_stream m_queue_size ti first last).run events)).priorities
      = (pieces_between (file_downloader.start_stream m_queue_size ti first last).pq_begin
          (file_downloader.start_stream m_queue_size ti first last).pq_finish).map
          (fun p => (p, default_priority)) := by
    show (((file_downloader.start_stream m_queue_size ti first last).run events).priorities).map
      (fun e => (e.1, default_priority)) = _
    rw [run_priorities, start_stream_priorities, List.map_map]
    rfl
  rw [hp]
  constructor
  · intro hk
    exact (prioritize_pieces_const default_priority _ prio k).1
      ((mem_pieces_between _ _ k).mpr hk)
  · intro hk
    exact (prioritize_pieces_const default_priority _ prio k).2
      (fun h => hk ((mem_pieces_between _ _ k).mp h))

/-- C20: when the thread waiting for piece `i` is woken and the top of the queue
is piece `i` with size 0, the loop is left with nothing written; whatever
happens afterwards nothing more is written to the socket, and control is at the
cleanup, which unsubscribes, resets deadlines and sets the priorities. -/
theorem zero_size_piece_ends_session (s : stream_state) (pe : piece_entry)
    (hw : s.pc = stream_pc.waiting) (ht : queue_top s.queue = some pe)
    (hp : pe.piece = s.i) (hz : pe.size = 0) (events : List stream_event)
    (default_priority : Int) (window : Nat → Int × Int) (info_hash pq : Nat)
    (m_torrents : List (Nat × Nat)) :
    s.wake.pc = stream_pc.left_loop ∧ s.wake.socket = s.socket ∧
    (s.wake.run events).pc = stream_pc.left_loop ∧
    (s.wake.run events).socket = s.socket ∧
    (s.wake.run events).body = s.body ∧
    stream_state.finish default_priority window info_hash pq m_torrents (s.wake.run events)
      = some (file_downloader.cleanup default_priority window info_hash pq m_torrents
          (s.wake.run events)) := by
  have hwake : s.wake.pc = stream_pc.left_loop ∧ s.wake.socket = s.socket := by
    rw [wake_waiting s hw, ht]
    simp only []
    rw [if_neg (by rw [hp]; exact lt_irrefl _), if_neg (by rw [hp]; exact lt_irrefl _),
      if_pos hz]
    exact ⟨rfl, rfl⟩
  obtain ⟨r1, r2⟩ := run_left_loop events s.wake hwake.1
  refine ⟨hwake.1, hwake.2, r1, r2.trans hwake.2, ?_, ?_⟩
  · unfold stream_state.body
    rw [r2, hwake.2]
  · unfold stream_state.finish
    rw [r1]

/-- Instance of `zero_size_piece_ends_session`: the first piece of a request for
the pieces 0 to 2 arrives with size 0 while two other sessions on the torrent
have the window `[1, 3)`; a later piece is not written, and the cleanup removes
the subscription of the session and sets the default priority 4. -/
theorem zero_size_piece_ends_session_witness :
    (((file_downloader.start_stream 8 demo_file 1 7).run [.deliver ⟨[], 0, 0⟩]).pc
        = stream_pc.waiting ∧
      queue_top ((file_downloader.start_stream 8 demo_file 1 7).run [.deliver ⟨[], 0, 0⟩]).queue
        = some ⟨[], 0, 0⟩ ∧
      (⟨[], 0, 0⟩ : piece_entry).piece
        = ((file_downloader.start_stream 8 demo_file 1 7).run [.deliver ⟨[], 0, 0⟩]).i ∧
      (⟨[], 0, 0⟩ : piece_entry).size = 0) ∧
    ((((file_downloader.start_stream 8 demo_file 1 7).run [.deliver ⟨[], 0, 0⟩]).wake.run
        [.deliver (true_piece demo_content 12 4 1), .wake, .write_returns 2 false]).socket = [] ∧
      stream_state.finish 4 (fun _ => (1, 3)) 1 0 [(0, 5), (1, 1), (1, 0), (1, 2), (2, 3)]
        (((file_downloader.start_stream 8 demo_file 1 7).run [.deliver ⟨[], 0, 0⟩]).wake.run
          [.deliver (true_piece demo_content 12 4 1), .wake, .write_returns 2 false])
        = some ⟨[(0, 5), (1, 1), (1, 2), (2, 3)], [1, 2, 1, 2], [], [(0, 4), (1, 4), (2, 4)]⟩) :=
  ⟨⟨by decide, by decide, by decide, by decide⟩,
    (zero_size_piece_ends_session _ ⟨[], 0, 0⟩ (by decide) (by decide) (by decide) (by decide)
      [.deliver (true_piece demo_content 12 4 1), .wake, .write_returns 2 false]
      4 (fun _ => (1, 3)) 1 0 [(0, 5), (1, 1), (1, 0), (1, 2), (2, 3)]).2.2.2.1.trans (by decide),
    (zero_size_piece_ends_session _ ⟨[], 0, 0⟩ (by decide) (by decide) (by decide) (by decide)
      [.deliver (true_piece demo_content 12 4 1), .wake, .write_returns 2 false]
      4 (fun _ => (1, 3)) 1 0 [(0, 5), (1, 1), (1, 0), (1, 2), (2, 3)]).2.2.2.2.2.trans
      (by decide)⟩

/-! ### The broker: one tick, the cursor, a finished piece -/

/-- C28: in every broker state reached by `read_piece`, `on_alert` and `on_tick`
calls `m_next_timeout` is `end()` or points to a pending request, and no two
pending requests share a promise, so that it points to one request. -/
theorem sweep_cursor_valid (calls : List broker_call) :
    ((file_requests.reached calls).m_next_timeout = none ∨
      ∃ r, r ∈ (file_requests.reached calls).m_requests ∧
        (file_requests.reached calls).m_next_timeout = some r.promise) ∧
    (file_requests.reached calls).pending.Nodup := by
  have hi := broker_inv_reached calls
  refine ⟨?_, hi.ids_nodup⟩
  cases hc : (file_requests.reached calls).m_next_timeout with
  | none => exact Or.inl rfl
  | some id =>
    right
    obtain ⟨r, hr, hrp⟩ := List.mem_map.mp (hi.cursor_ok id hc)
    exact ⟨r, hr, by rw [hrp]⟩

/-- C24: in a reachable broker state one `on_tick` fulfils no promise and makes
no engine call; it leaves the pending requests as they are, or erases one
request, whose timeout is earlier than the clock reading, and keeps the others
in their order. -/
theorem on_tick_erases_at_most_one (calls : List broker_call) (now : Int) :
    (file_requests.on_tick now (file_requests.reached calls)).fulfilled
      = (file_requests.reached calls).fulfilled ∧
    (file_requests.on_tick now (file_requests.reached calls)).engine
      = (file_requests.reached calls).engine ∧
    ((file_requests.on_tick now (file_requests.reached calls)).m_requests
        = (file_requests.reached calls).m_requests ∨
      ∃ P r S, (file_requests.reached calls).m_requests = P ++ r :: S ∧ r.timeout < now ∧
        (file_requests.on_tick now (file_requests.reached calls)).m_requests = P ++ S) := by
  have hi := broker_inv_reached calls
  generalize file_requests.reached calls = s at hi ⊢
  obtain ⟨_, t2, t3, _⟩ := on_tick_sweep now s hi
  refine ⟨t2, t3, ?_⟩
  by_cases hne : s.m_requests = []
  · have hc : s.m_next_timeout = none := by
      cases hc : s.m_next_timeout with
      | none => rfl
      | some id =>
        have := hi.cursor_ok id hc
        rw [file_requests.pending, hne] at this
        simp at this
    rw [on_tick_empty now s hne hc]
    exact Or.inl rfl
  · obtain ⟨P, r, S, hl, hP, hc, _⟩ := sweep_split s hi hne
    rw [on_tick_at now s P S r hl hP hc]
    by_cases ht : r.timeout < now
    · rw [if_pos ht]
      exact Or.inr ⟨P, r, S, hl, ht, rfl⟩
    · rw [if_neg ht]
      exact Or.inl rfl

/-- Instance of `on_tick_erases_at_most_one`: the first tick at 20 erases the
first of five pending requests, a tick at 5 erases none. -/
theorem on_tick_erases_at_most_one_witness :
    (file_requests.on_tick 20 (file_requests.reached demo_broker_calls)).fulfilled = [] ∧
    (file_requests.on_tick 20 (file_requests.reached demo_broker_calls)).pending = [0, 3, 4, 2] ∧
    (file_requests.on_tick 5 (file_requests.reached demo_broker_calls)).pending
      = [1, 0, 3, 4, 2] :=
  ⟨(on_tick_erases_at_most_one demo_broker_calls 20).1.trans (by decide), by decide, by decide⟩

/-- C23 (the code departs from the claim): a request for piece 5 of torrent 1 is
pending and none for piece 3; on the piece-finished alert for piece 3 the piece
is recorded in the have-set, and the engine read for piece 3 is issued. -/
theorem piece_finished_reads_without_request :
    (file_requests.reached [.read_piece 1 5 0 10]).m_requests.filter
        (fun r => decide (r.info_hash = 1 ∧ r.piece = 3)) = [] ∧
    (file_requests.on_alert (file_requests.reached [.read_piece 1 5 0 10])
        (.piece_finished 1 3)).m_have_pieces 1 3 = true ∧
    added (file_requests.reached [.read_piece 1 5 0 10]).engine
        (file_requests.on_alert (file_requests.reached [.read_piece 1 5 0 10])
          (.piece_finished 1 3)).engine
      = [engine_call.read_piece 1 3] ∧
    added (file_requests.reached [.read_piece 1 2 0 10]).engine
        (file_requests.on_alert (file_requests.reached [.read_piece 1 2 0 10])
          (.piece_finished 1 3)).engine
      = [] := by
  refine ⟨by decide, by decide, by decide, by decide⟩

/-! ### Range streaming: deadlines, blocking, the buffer, the counters -/

theorem for_head_deadlines (s : stream_state) : s.for_head.deadlines = s.deadlines := by
  unfold stream_state.for_head
  split <;> rfl

theorem start_stream_deadlines (q : Int) (ti : torrent_file) (first last : Int) :
    (file_downloader.start_stream q ti first last).deadlines
      = (pieces_between (file_downloader.start_stream q ti first last).pq_begin
          (file_downloader.start_stream q ti first last).pq_end).map
          (fun p => (p, 100 * (p - (file_downloader.start_stream q ti first last).pq_begin))) := by
  obtain ⟨f1, _, f3, _⟩ := start_stream_fields q ti first last
  rw [f1, f3]
  unfold file_downloader.start_stream
  rw [for_head_deadlines]
  simp only [stream_state.set_deadlines, pieces_between, torrent_file.map_file, bind_pure_comp,
    List.map_eq_map, List.map_map, List.nil_append]
  rfl

theorem pieces_between_pairwise (first last : Int) :
    (pieces_between first last).Pairwise (fun a b => a < b) := by
  unfold pieces_between
  rw [List.pairwise_map]
  exact (List.pairwise_lt_range _).imp (fun h => by omega)

/-- C27: at the entry of the consumption loop the deadlines set are those of the
pieces of the initial window `[begin, end)`, in ascending order, piece `p` with
`100 * (p - begin)` milliseconds: no other piece has one, the piece at `begin`
has 0, and a later piece has a later deadline. -/
theorem initial_deadlines (q : Int) (ti : torrent_file) (first last : Int) :
    (∀ p d, (p, d) ∈ (file_downloader.start_stream q ti first last).deadlines ↔
      ((file_downloader.start_stream q ti first last).pq_begin ≤ p ∧
        p < (file_downloader.start_stream q ti first last).pq_end ∧
        d = 100 * (p - (file_downloader.start_stream q ti first last).pq_begin))) ∧
    (file_downloader.start_stream q ti first last).deadlines.Pairwise
      (fun a b => a.1 < b.1 ∧ a.2 < b.2) ∧
    ((file_downloader.start_stream q ti first last).pq_begin
        < (file_downloader.start_stream q ti first last).pq_end →
      (file_downloader.start_stream q ti first last).deadlines.head?
        = some ((file_downloader.start_stream q ti first last).pq_begin, 0)) := by
  rw [start_stream_deadlines]
  generalize (file_downloader.start_stream q ti first last).pq_begin = b
  generalize (file_downloader.start_stream q ti first last).pq_end = e
  refine ⟨?_, ?_, ?_⟩
  · intro p d
    rw [List.mem_map]
    constructor
    · rintro ⟨x, hx, hxe⟩
      rw [mem_pieces_between] at hx
      injection hxe with h1 h2
      subst h1
      exact ⟨hx.1, hx.2, h2.symm⟩
    · rintro ⟨h1, h2, h3⟩
      exact ⟨p, (mem_pieces_between b e p).mpr ⟨h1, h2⟩, by rw [h3]⟩
  · rw [List.pairwise_map]
    exact (pieces_between_pairwise b e).imp (fun h => ⟨h, by omega⟩)
  · intro hbe
    unfold pieces_between
    obtain ⟨n, hn⟩ : ∃ n, (e - b).toNat = n + 1 := ⟨(e - b).toNat - 1, by omega⟩
    rw [hn, List.range_succ_eq_map]
    simp

/-- Instance of `initial_deadlines`: the window of the demo request is `[0, 2)`. -/
theorem initial_deadlines_witness :
    (file_downloader.start_stream 8 demo_file 1 7).pq_begin
      < (file_downloader.start_stream 8 demo_file 1 7).pq_end ∧
    (file_downloader.start_stream 8 demo_file 1 7).deadlines = [(0, 0), (1, 100)] ∧
    (file_downloader.start_stream 8 demo_file 1 7).deadlines.head? = some (0, 0) :=
  ⟨by decide, by decide,
    ((initial_deadlines 8 demo_file 1 7).2.2 (by decide)).trans (by decide)⟩

/-- C25 (the claim as written fails): the thread waits at index 0 and the buffer
holds piece 1 only; woken, it goes on waiting at index 0. -/
theorem wake_keeps_blocking_below_top :
    ((file_downloader.start_stream 8 demo_file 1 7).run
        [.deliver (true_piece demo_content 12 4 1)]).i = 0 ∧
    (((file_downloader.start_stream 8 demo_file 1 7).run
        [.deliver (true_piece demo_content 12 4 1)]).queue.map (fun pe => pe.piece)) = [1] ∧
    ((file_downloader.start_stream 8 demo_file 1 7).run
        [.deliver (true_piece demo_content 12 4 1), .wake])
      = (file_downloader.start_stream 8 demo_file 1 7).run
        [.deliver (true_piece demo_content 12 4 1)] ∧
    ((file_downloader.start_stream 8 demo_file 1 7).run
        [.deliver (true_piece demo_content 12 4 1), .wake]).pc = stream_pc.waiting := by
  refine ⟨by decide, by decide, by decide, by decide⟩

/-- C25 (amended): a thread waiting at index `i` that is woken goes on waiting,
with nothing changed, while the buffer is empty or its top is a piece above
`i`; it stops waiting when the top is piece `i`; and a top below `i` is popped
and dropped, with the index, the counters and the socket as they were. -/
theorem wake_blocks_until_top_le (s : stream_state) (hw : s.pc = stream_pc.waiting) :
    (queue_top s.queue = none → s.wake = s) ∧
    (∀ pe, queue_top s.queue = some pe → s.i < pe.piece → s.wake = s) ∧
    (∀ pe, queue_top s.queue = some pe → pe.piece = s.i →
      s.wake.pc ≠ stream_pc.waiting ∧ s.wake.i = s.i) ∧
    (∀ pe, queue_top s.queue = some pe → pe.piece < s.i →
      s.wake = { s with queue := queue_pop s.queue }) := by
  refine ⟨?_, ?_, ?_, ?_⟩
  · intro ht
    rw [wake_waiting s hw, ht]
  · intro pe ht hp
    rw [wake_waiting s hw, ht]
    simp only []
    rw [if_pos hp]
  · intro pe ht hp
    rw [wake_waiting s hw, ht]
    simp only []
    rw [if_neg (by rw [hp]; exact lt_irrefl _), if_neg (by rw [hp]; exact lt_irrefl _)]
    split
    · exact ⟨fun h => stream_pc.noConfusion h, rfl⟩
    · unfold stream_state.write_head
      split
      · exact ⟨fun h => stream_pc.noConfusion h, rfl⟩
      · rw [if_pos (by decide)]
        exact ⟨fun h => stream_pc.noConfusion h, rfl⟩
  · intro pe ht hp
    rw [wake_waiting s hw, ht]
    simp only []
    rw [if_neg (by omega), if_pos hp]

/-- Instance of `wake_blocks_until_top_le`: piece 0 arrives after piece 1 and the
woken thread starts to write it. -/
theorem wake_blocks_until_top_le_witness :
    (((file_downloader.start_stream 8 demo_file 1 7).run
        [.deliver (true_piece demo_content 12 4 1),
          .deliver (true_piece demo_content 12 4 0)]).pc = stream_pc.waiting ∧
      queue_top ((file_downloader.start_stream 8 demo_file 1 7).run
        [.deliver (true_piece demo_content 12 4 1),
          .deliver (true_piece demo_content 12 4 0)]).queue
        = some (true_piece demo_content 12 4 0) ∧
      (true_piece demo_content 12 4 0).piece = ((file_downloader.start_stream 8 demo_file 1 7).run
        [.deliver (true_piece demo_content 12 4 1),
          .deliver (true_piece demo_content 12 4 0)]).i) ∧
    ((file_downloader.start_stream 8 demo_file 1 7).run
        [.deliver (true_piece demo_content 12 4 1),
          .deliver (true_piece demo_content 12 4 0)]).wake.pc ≠ stream_pc.waiting :=
  ⟨⟨by decide, by decide, by decide⟩,
    ((wake_blocks_until_top_le _ (by decide)).2.2.1 (true_piece demo_content 12 4 0)
      (by decide) (by decide)).1⟩

theorem queue_pop_perm (q : List piece_entry) (m : piece_entry) (h : queue_top q = some m) :
    q.Perm (m :: queue_pop q) := by
  induction q generalizing m with
  | nil => simp [queue_top] at h
  | cons e q ih =>
    simp only [queue_top] at h
    simp only [queue_pop]
    cases ht : queue_top q with
    | none =>
      rw [ht] at h
      simp only [Option.some.injEq] at h
      have hq : q = [] := (queue_top_eq_none q).mp ht
      rw [hq, ← h]
    | some m2 =>
      rw [ht] at h
      simp only [] at h ⊢
      by_cases hlt : m2.piece < e.piece
      · rw [if_pos hlt] at h ⊢
        simp only [Option.some.injEq] at h
        rw [← h]
        exact ((ih m2 ht).cons e).trans (List.Perm.swap m2 e _)
      · rw [if_neg hlt] at h ⊢
        simp only [Option.some.injEq] at h
        rw [← h]

theorem buffer_inv_pop (s : stream_state) (hi : buffer_inv s) (m : piece_entry)
    (ht : queue_top s.queue = some m) :
    ((queue_pop s.queue).map (fun pe => pe.piece)).Nodup ∧
    (∀ pe, pe ∈ queue_pop s.queue → pe ∈ s.queue ∧ pe.piece ≠ m.piece ∧ m.piece ≤ pe.piece) := by
  have hperm := (queue_pop_perm s.queue m ht).map (fun pe => pe.piece)
  have hnd := hperm.nodup_iff.mp hi.once
  rw [List.map_cons, List.nodup_cons] at hnd
  refine ⟨hnd.2, ?_⟩
  intro pe hpe
  have hmem := queue_pop_subset s.queue pe hpe
  refine ⟨hmem, ?_, queue_top_le s.queue m ht pe hmem⟩
  intro hc
  apply hnd.1
  rw [← hc]
  exact List.mem_map_of_mem _ hpe

theorem buffer_inv_for_head (s : stream_state) (hend : s.pq_end ≤ s.pq_finish)
    (hb : s.pq_begin = s.i) (he : min (s.i + 1) s.pq_finish ≤ s.pq_end)
    (hf : ∀ pe, pe ∈ s.queue → s.pq_begin ≤ pe.piece)
    (ho : (s.queue.map (fun pe => pe.piece)).Nodup) : buffer_inv s.for_head := by
  unfold stream_state.for_head
  split
  · rename_i hlt
    refine ⟨hend, fun _ => ⟨hb, ?_⟩, fun pe amount h => stream_pc.noConfusion h, hf, ho⟩
    show s.i < s.pq_end
    omega
  · exact ⟨hend, fun h => stream_pc.noConfusion h, fun pe amount h => stream_pc.noConfusion h,
      hf, ho⟩

theorem buffer_inv_write_head (pe : piece_entry) (amount ret : Int) (s : stream_state)
    (hend : s.pq_end ≤ s.pq_finish) (hb : s.pq_begin = s.i + 1)
    (he : min (s.i + 2) s.pq_finish ≤ s.pq_end)
    (hf : ∀ pe, pe ∈ s.queue → s.pq_begin ≤ pe.piece)
    (ho : (s.queue.map (fun pe => pe.piece)).Nodup) :
    buffer_inv (s.write_head pe amount ret) := by
  unfold stream_state.write_head
  split
  · exact ⟨hend, fun h => stream_pc.noConfusion h, fun _ _ _ => ⟨hb, he⟩, hf, ho⟩
  · split
    · exact ⟨hend, fun h => stream_pc.noConfusion h, fun pe amount h => stream_pc.noConfusion h,
        hf, ho⟩
    · refine buffer_inv_for_head _ hend ?_ ?_ hf ho
      · exact hb
      · show min (s.i + 1 + 1) s.pq_finish ≤ s.pq_end
        omega

theorem buffer_inv_wake (s : stream_state) (hi : buffer_inv s) : buffer_inv s.wake := by
  by_cases hw : s.pc = stream_pc.waiting
  · rw [wake_waiting s hw]
    obtain ⟨hb, hie⟩ := hi.at_wait hw
    have hend := hi.end_le
    cases ht : queue_top s.queue with
    | none => exact hi
    | some m =>
      obtain ⟨p1, p2⟩ := buffer_inv_pop s hi m ht
      simp only []
      split
      · exact hi
      · split
        · refine ⟨hend, fun _ => ⟨hb, hie⟩, fun pe amount h => ?_, ?_, p1⟩
          · have h' : s.pc = stream_pc.writing pe amount := h
            rw [hw] at h'
            exact stream_pc.noConfusion h'
          · intro pe hpe
            exact hi.fresh pe (p2 pe hpe).1
        · rename_i h1 h2
          have hmi : m.piece = s.i := by omega
          obtain ⟨f1, f2, f3, f4, f5, _⟩ :=
            slide_fields ({ s with queue := queue_pop s.queue } : stream_state)
          have e1 : ({ s with queue := queue_pop s.queue } : stream_state).slide.pq_end
              = min (s.pq_end + 1) s.pq_finish := f1
          have e2 : ({ s with queue := queue_pop s.queue } : stream_state).slide.pq_begin
              = min (s.pq_begin + 1) (min (s.pq_end + 1) s.pq_finish) := f2
          have e3 : ({ s with queue := queue_pop s.queue } : stream_state).slide.pq_finish
              = s.pq_finish := f3
          have e4 : ({ s with queue := queue_pop s.queue } : stream_state).slide.queue
              = queue_pop s.queue := f4
          have e5 : ({ s with queue := queue_pop s.queue } : stream_state).slide.i = s.i := f5
          have hb' : ({ s with queue := queue_pop s.queue } : stream_state).slide.pq_begin
              = s.i + 1 := by rw [e2]; omega
          have hfresh : ∀ pe, pe ∈ ({ s with queue := queue_pop s.queue } : stream_state).slide.queue
              → ({ s with queue := queue_pop s.queue } : stream_state).slide.pq_begin ≤ pe.piece := by
            intro pe hpe
            rw [e4] at hpe
            rw [hb']
            have := p2 pe hpe
            omega
          have honce : (({ s with queue := queue_pop s.queue } : stream_state).slide.queue.map
              (fun pe => pe.piece)).Nodup := by rw [e4]; exact p1
          have hend' : ({ s with queue := queue_pop s.queue } : stream_state).slide.pq_end
              ≤ ({ s with queue := queue_pop s.queue } : stream_state).slide.pq_finish := by
            rw [e1, e3]; omega
          split
          · exact ⟨hend', fun h => stream_pc.noConfusion h,
              fun pe amount h => stream_pc.noConfusion h, hfresh, honce⟩
          · refine buffer_inv_write_head _ _ _ _ hend' ?_ ?_ hfresh honce
            · rw [hb', e5]
            · rw [e5, e3, e1]; omega
  · rw [wake_not_waiting s hw]
    exact hi

theorem buffer_inv_write_returns (s : stream_state) (hi : buffer_inv s) (ret : Int)
    (eagain : Bool) : buffer_inv (s.write_returns ret eagain) := by
  unfold stream_state.write_returns
  split
  · rename_i pe amount hpc
    obtain ⟨hb, he⟩ := hi.at_write pe amount hpc
    split
    · split
      · exact hi
      · exact ⟨hi.end_le, fun h => stream_pc.noConfusion h,
          fun pe amount h => stream_pc.noConfusion h, hi.fresh, hi.once⟩
    · exact buffer_inv_write_head _ _ _ _ hi.end_le hb he hi.fresh hi.once
  · exact hi

theorem buffer_inv_deliver (s : stream_state) (hi : buffer_inv s) (pe : piece_entry)
    (hnew : pe.piece ∉ s.queue.map (fun x => x.piece)) :
    buffer_inv (piece_alert_dispatch.on_alert pe s) := by
  unfold piece_alert_dispatch.on_alert
  split
  · exact hi
  · rename_i hin
    refine ⟨hi.end_le, hi.at_wait, hi.at_write, ?_, ?_⟩
    · intro x hx
      rcases List.mem_append.mp hx with h | h
      · exact hi.fresh x h
      · have hxe : x = pe := by simpa using h
        rw [hxe]
        show s.pq_begin ≤ pe.piece
        omega
    · show ((s.queue ++ [pe]).map (fun x => x.piece)).Nodup
      rw [List.map_append, List.nodup_append]
      refine ⟨hi.once, by simp, ?_⟩
      intro a ha hb
      have : a = pe.piece := by simpa using hb
      rw [this] at ha
      exact hnew ha

theorem step_queue_subset (s : stream_state) (e : stream_event) :
    ∀ x, x ∈ (s.step e).queue → x ∈ s.queue ∨ e = stream_event.deliver x := by
  intro x hx
  cases e with
  | deliver pe =>
    have hx' : x ∈ (piece_alert_dispatch.on_alert pe s).queue := hx
    unfold piece_alert_dispatch.on_alert at hx'
    split at hx'
    · exact Or.inl hx'
    · rcases List.mem_append.mp hx' with h | h
      · exact Or.inl h
      · right
        have : x = pe := by simpa using h
        rw [this]
  | wake =>
    left
    have hx' : x ∈ s.wake.queue := hx
    by_cases hw : s.pc = stream_pc.waiting
    · rw [wake_waiting s hw] at hx'
      cases ht : queue_top s.queue with
      | none => rw [ht] at hx'; exact hx'
      | some m =>
        rw [ht] at hx'
        simp only [] at hx'
        split at hx'
        · exact hx'
        · split at hx'
          · exact queue_pop_subset _ x hx'
          · split at hx'
            · exact queue_pop_subset _ x hx'
            · rw [(write_head_window _ _ _ _).2.2.2.1] at hx'
              exact queue_pop_subset _ x hx'
    · rw [wake_not_waiting s hw] at hx'
      exact hx'
  | write_returns ret eagain =>
    left
    have hx' : x ∈ (s.write_returns ret eagain).queue := hx
    unfold stream_state.write_returns at hx'
    split at hx'
    · split at hx'
      · split at hx'
        · exact hx'
        · exact hx'
      · rw [(write_head_window _ _ _ _).2.2.2.1] at hx'
        exact hx'
    · exact hx'

theorem accepted_deliver_in (s : stream_state) (pe : piece_entry) (es : List stream_event)
    (hin : ¬ (pe.piece < s.pq_begin ∨ pe.piece ≥ s.pq_end)) :
    s.accepted (.deliver pe :: es)
      = pe.piece :: (piece_alert_dispatch.on_alert pe s).accepted es := by
  show (if pe.piece < s.pq_begin ∨ pe.piece ≥ s.pq_end then [] else [pe.piece]) ++ _ = _
  rw [if_neg hin]
  rfl

theorem accepted_deliver_out (s : stream_state) (pe : piece_entry) (es : List stream_event)
    (hout : pe.piece < s.pq_begin ∨ pe.piece ≥ s.pq_end) :
    s.accepted (.deliver pe :: es) = s.accepted es := by
  show (if pe.piece < s.pq_begin ∨ pe.piece ≥ s.pq_end then [] else [pe.piece]) ++
    (piece_alert_dispatch.on_alert pe s).accepted es = _
  rw [if_pos hout]
  unfold piece_alert_dispatch.on_alert
  rw [if_pos hout]
  rfl

/-- The window and buffer invariant holds along every run in which `on_alert`
pushes no piece index twice. -/
theorem buffer_inv_run (es : List stream_event) :
    ∀ s : stream_state, buffer_inv s → (s.accepted es).Nodup →
      (∀ pe, pe ∈ s.queue → pe.piece ∉ s.accepted es) → buffer_inv (s.run es) := by
  induction es with
  | nil => intro s hi _ _; exact hi
  | cons e es ih =>
    intro s hi hnd hq
    show buffer_inv ((s.step e).run es)
    cases e with
    | deliver pe =>
      by_cases hout : pe.piece < s.pq_begin ∨ pe.piece ≥ s.pq_end
      · rw [accepted_deliver_out s pe es hout] at hnd hq
        have hs : s.step (.deliver pe) = s := by
          show piece_alert_dispatch.on_alert pe s = s
          unfold piece_alert_dispatch.on_alert
          rw [if_pos hout]
        rw [hs]
        exact ih s hi hnd hq
      · rw [accepted_deliver_in s pe es hout] at hnd hq
        have hnd' := List.nodup_cons.mp hnd
        refine ih _ (buffer_inv_deliver s hi pe ?_) hnd'.2 ?_
        · intro hc
          obtain ⟨x, hx, hxp⟩ := List.mem_map.mp hc
          apply hq x hx
          rw [hxp]
          exact List.mem_cons_self _ _
        · intro x hx
          rcases step_queue_subset s (.deliver pe) x hx with h | h
          · exact fun hc => hq x h (List.mem_cons_of_mem _ hc)
          · injection h with h
            rw [← h]
            exact hnd'.1
    | wake =>
      have ha : s.accepted (.wake :: es) = (s.step .wake).accepted es := rfl
      rw [ha] at hnd hq
      refine ih _ (buffer_inv_wake s hi) hnd ?_
      intro x hx
      rcases step_queue_subset s .wake x hx with h | h
      · exact hq x h
      · cases h
    | write_returns ret eagain =>
      have ha : s.accepted (.write_returns ret eagain :: es)
          = (s.step (.write_returns ret eagain)).accepted es := rfl
      rw [ha] at hnd hq
      refine ih _ (buffer_inv_write_returns s hi ret eagain) hnd ?_
      intro x hx
      rcases step_queue_subset s (.write_returns ret eagain) x hx with h | h
      · exact hq x h
      · cases h

theorem buffer_inv_start (q : Int) (ti : torrent_file) (first last : Int) :
    buffer_inv (file_downloader.start_stream q ti first last) := by
  unfold file_downloader.start_stream
  refine buffer_inv_for_head _ ?_ rfl ?_ ?_ ?_
  · show min _ _ ≤ _
    exact min_le_right _ _
  · show min ((ti.map_file first).1 + 1) ((ti.map_file last).1 + 1)
      ≤ min ((ti.map_file first).1 + max (q.tdiv ti.piece_length) 1) ((ti.map_file last).1 + 1)
    omega
  · intro pe hpe
    exact absurd hpe (List.not_mem_nil _)
  · exact List.nodup_nil

/-- C22 (the claim as written fails): piece 0 is posted twice while it is in the
window; when one copy has been popped the window begins at piece 1 and the
other copy is still in the buffer. -/
theorem duplicate_piece_stays_below_begin :
    ((file_downloader.start_stream 8 demo_file 1 7).run
        [.deliver (true_piece demo_content 12 4 0), .deliver (true_piece demo_content 12 4 0),
          .wake]).pq_begin = 1 ∧
    ((file_downloader.start_stream 8 demo_file 1 7).run
        [.deliver (true_piece demo_content 12 4 0), .deliver (true_piece demo_content 12 4 0),
          .wake]).queue.map (fun pe => pe.piece) = [0] := by
  constructor <;> decide

/-- C22 (amended): in every state of a session in which `on_alert` pushes no
piece index twice, no piece in the buffer has an index below `pq.begin`. A
piece posted again when the window has moved past it is not pushed. -/
theorem buffer_holds_no_stale_piece (q : Int) (ti : torrent_file) (first last : Int)
    (events : List stream_event)
    (hnd : ((file_downloader.start_stream q ti first last).accepted events).Nodup) :
    ∀ pe, pe ∈ ((file_downloader.start_stream q ti first last).run events).queue →
      ((file_downloader.start_stream q ti first last).run events).pq_begin ≤ pe.piece :=
  (buffer_inv_run events _ (buffer_inv_start q ti first last) hnd
    (fun pe hpe => absurd hpe (by
      rw [(start_stream_fields q ti first last).2.2.2.2.2.2.2.2.1]
      exact List.not_mem_nil _))).fresh

/-- Instance of `buffer_holds_no_stale_piece`: piece 0 is posted, popped and
posted again, then piece 1 is posted; the second copy of piece 0 is not pushed,
and the buffer holds piece 1 with the window beginning at 1. -/
theorem buffer_holds_no_stale_piece_witness :
    (delivered_pieces [.deliver (true_piece demo_content 12 4 0), .wake,
        .deliver (true_piece demo_content 12 4 0), .deliver (true_piece demo_content 12 4 1)]
      = [0, 0, 1] ∧
    ((file_downloader.start_stream 8 demo_file 1 7).accepted
      [.deliver (true_piece demo_content 12 4 0), .wake,
        .deliver (true_piece demo_content 12 4 0),
        .deliver (true_piece demo_content 12 4 1)]).Nodup) ∧
    ((file_downloader.start_stream 8 demo_file 1 7).run
      [.deliver (true_piece demo_content 12 4 0), .wake,
        .deliver (true_piece demo_content 12 4 0),
        .deliver (true_piece demo_content 12 4 1)]).queue = [true_piece demo_content 12 4 1] ∧
    ((file_downloader.start_stream 8 demo_file 1 7).run
      [.deliver (true_piece demo_content 12 4 0), .wake,
        .deliver (true_piece demo_content 12 4 0),
        .deliver (true_piece demo_content 12 4 1)]).pq_begin
      ≤ (true_piece demo_content 12 4 1).piece :=
  ⟨⟨by decide, by decide⟩, by decide,
    buffer_holds_no_stale_piece 8 demo_file 1 7 _ (by decide) _ (by decide)⟩

theorem counter_inv_for_head (s : stream_state) (h1 : s.bytes_sent + s.left_to_send = s.request_size)
    (h2 : 0 ≤ s.offset) : counter_inv s.for_head := by
  unfold stream_state.for_head
  split
  · exact ⟨h1, h2, fun pe amount h => stream_pc.noConfusion h⟩
  · exact ⟨h1, h2, fun pe amount h => stream_pc.noConfusion h⟩

theorem counter_inv_write_head (pe : piece_entry) (amount ret : Int) (s : stream_state)
    (h1 : s.bytes_sent + s.left_to_send = s.request_size) (h2 : 0 ≤ s.offset)
    (h3 : s.offset + amount ≤ pe.size) (h4 : amount ≤ s.left_to_send) :
    counter_inv (s.write_head pe amount ret) := by
  unfold stream_state.write_head
  split
  · rename_i hpos
    refine ⟨h1, h2, ?_⟩
    intro pe2 amount2 h
    have h' : stream_pc.writing pe amount = stream_pc.writing pe2 amount2 := h
    injection h' with e1 e2
    subst e1
    subst e2
    exact ⟨hpos, h3, h4⟩
  · split
    · exact ⟨h1, h2, fun pe amount h => stream_pc.noConfusion h⟩
    · exact counter_inv_for_head _ h1 (le_refl _)

theorem counter_inv_wake (s : stream_state) (hi : counter_inv s) : counter_inv s.wake := by
  by_cases hw : s.pc = stream_pc.waiting
  · rw [wake_waiting s hw]
    have hnw : ∀ pe amount, s.pc ≠ stream_pc.writing pe amount := by
      intro pe amount h
      rw [hw] at h
      exact stream_pc.noConfusion h
    cases queue_top s.queue with
    | none => exact hi
    | some m =>
      simp only []
      split
      · exact hi
      · split
        · exact ⟨hi.sum_eq, hi.offset_nonneg, fun pe amount h => absurd h (hnw pe amount)⟩
        · split
          · exact ⟨hi.sum_eq, hi.offset_nonneg, fun pe amount h => stream_pc.noConfusion h⟩
          · refine counter_inv_write_head _ _ _ _ hi.sum_eq hi.offset_nonneg ?_ ?_
            · show s.offset + min (m.size - s.offset) s.left_to_send ≤ m.size
              omega
            · show min (m.size - s.offset) s.left_to_send ≤ s.left_to_send
              omega
  · rw [wake_not_waiting s hw]
    exact hi

theorem counter_inv_write_returns (s : stream_state) (hi : counter_inv s) (ret : Int)
    (eagain : Bool) : counter_inv (s.write_returns ret eagain) := by
  unfold stream_state.write_returns
  split
  · rename_i pe amount hpc
    obtain ⟨a1, a2, a3⟩ := hi.at_write pe amount hpc
    have h1 := hi.sum_eq
    have h2 := hi.offset_nonneg
    split
    · split
      · exact hi
      · exact ⟨h1, h2, fun pe amount h => stream_pc.noConfusion h⟩
    · rename_i hret
      refine counter_inv_write_head _ _ _ _ ?_ ?_ ?_ ?_
      · show s.bytes_sent + ret + (s.left_to_send - ret) = s.request_size
        omega
      · show 0 ≤ s.offset + ret
        omega
      · show s.offset + ret + (amount - ret) ≤ pe.size
        omega
      · show amount - ret ≤ s.left_to_send - ret
        omega
  · exact hi

theorem counter_inv_step (s : stream_state) (hi : counter_inv s) (e : stream_event) :
    counter_inv (s.step e) := by
  cases e with
  | deliver pe =>
    show counter_inv (piece_alert_dispatch.on_alert pe s)
    unfold piece_alert_dispatch.on_alert
    split
    · exact hi
    · exact ⟨hi.sum_eq, hi.offset_nonneg, hi.at_write⟩
  | wake => exact counter_inv_wake s hi
  | write_returns ret eagain => exact counter_inv_write_returns s hi ret eagain

theorem counter_inv_run (es : List stream_event) :
    ∀ s : stream_state, counter_inv s → counter_inv (s.run es) := by
  induction es with
  | nil => intro s hi; exact hi
  | cons e es ih => intro s hi; exact ih _ (counter_inv_step s hi e)

theorem counter_inv_start (q : Int) (ti : torrent_file) (first last : Int)
    (hpl : 0 < ti.piece_length) : counter_inv (file_downloader.start_stream q ti first last) := by
  unfold file_downloader.start_stream
  refine counter_inv_for_head _ ?_ ?_
  · show (0 : Int) + (last - first + 1) = last - first + 1
    omega
  · show 0 ≤ (ti.file_offset + first) % ti.piece_length
    exact Int.emod_nonneg _ (by omega)

theorem for_head_request_size (s : stream_state) : s.for_head.request_size = s.request_size := by
  unfold stream_state.for_head
  split <;> rfl

theorem write_head_request_size (pe : piece_entry) (amount ret : Int) (s : stream_state) :
    (s.write_head pe amount ret).request_size = s.request_size := by
  unfold stream_state.write_head
  split
  · rfl
  · split
    · rfl
    · rw [for_head_request_size]

theorem wake_request_size (s : stream_state) : s.wake.request_size = s.request_size := by
  by_cases hw : s.pc = stream_pc.waiting
  · rw [wake_waiting s hw]
    cases queue_top s.queue with
    | none => rfl
    | some pe =>
      simp only []
      split
      · rfl
      · split
        · rfl
        · split
          · rfl
          · rw [write_head_request_size]; rfl
  · rw [wake_not_waiting s hw]

theorem write_returns_request_size (ret : Int) (eagain : Bool) (s : stream_state) :
    (s.write_returns ret eagain).request_size = s.request_size := by
  unfold stream_state.write_returns
  split
  · split
    · split <;> rfl
    · rw [write_head_request_size]; rfl
  · rfl

theorem run_request_size (es : List stream_event) :
    ∀ s : stream_state, (s.run es).request_size = s.request_size := by
  induction es with
  | nil => intro s; rfl
  | cons e es ih =>
    intro s
    show ((s.step e).run es).request_size = _
    rw [ih]
    cases e with
    | deliver pe =>
      show (piece_alert_dispatch.on_alert pe s).request_size = _
      unfold piece_alert_dispatch.on_alert
      split <;> rfl
    | wake => exact wake_request_size s
    | write_returns ret eagain => exact write_returns_request_size ret eagain s

/-- C29: in every state of a session on a torrent with a positive piece length,
whatever the engine posts and the socket returns, `bytes_sent + left_to_send`
is the size of the request and the offset is not negative; and when an
`mg_write` of `amount_to_send` bytes is pending, `offset + amount_to_send` is at
most the size of the piece and, for a return value of at most `amount_to_send`,
`bytes_sent + ret` is at most the size of the request. -/
theorem write_assertions_hold (q : Int) (ti : torrent_file) (first last : Int)
    (hpl : 0 < ti.piece_length) (events : List stream_event) :
    ((file_downloader.start_stream q ti first last).run events).bytes_sent
        + ((file_downloader.start_stream q ti first last).run events).left_to_send
      = ((file_downloader.start_stream q ti first last).run events).request_size ∧
    ((file_downloader.start_stream q ti first last).run events).request_size = last - first + 1 ∧
    0 ≤ ((file_downloader.start_stream q ti first last).run events).offset ∧
    (∀ pe amount,
      ((file_downloader.start_stream q ti first last).run events).pc
          = stream_pc.writing pe amount →
        0 < amount ∧
        ((file_downloader.start_stream q ti first last).run events).offset + amount ≤ pe.size ∧
        ∀ ret, ret ≤ amount →
          ((file_downloader.start_stream q ti first last).run events).bytes_sent + ret
            ≤ ((file_downloader.start_stream q ti first last).run events).request_size) := by
  have hi := counter_inv_run events _ (counter_inv_start q ti first last hpl)
  refine ⟨hi.sum_eq, ?_, hi.offset_nonneg, ?_⟩
  · rw [run_request_size]
    exact (start_stream_fields q ti first last).2.2.2.2.2.2.2.1
  · intro pe amount hpc
    obtain ⟨a1, a2, a3⟩ := hi.at_write pe amount hpc
    refine ⟨a1, a2, ?_⟩
    intro ret hret
    have := hi.sum_eq
    omega

/-- Instance of `write_assertions_hold`: the demo run up to its second write,
of piece 1 at offset 0 with two bytes left of seven. -/
theorem write_assertions_hold_witness :
    (0 < demo_file.piece_length ∧
      ((file_downloader.start_stream 8 demo_file 1 7).run
        [.deliver (true_piece demo_content 12 4 1), .deliver (true_piece demo_content 12 4 0),
          .wake, .write_returns 1 false, .wake]).pc
        = stream_pc.writing (true_piece demo_content 12 4 1) 4 ∧ (3 : Int) ≤ 4) ∧
    ((file_downloader.start_stream 8 demo_file 1 7).run
        [.deliver (true_piece demo_content 12 4 1), .deliver (true_piece demo_content 12 4 0),
          .wake, .write_returns 1 false, .wake]).bytes_sent + 3
      ≤ ((file_downloader.start_stream 8 demo_file 1 7).run
        [.deliver (true_piece demo_content 12 4 1), .deliver (true_piece demo_content 12 4 0),
          .wake, .write_returns 1 false, .wake]).request_size :=
  ⟨⟨by decide, by decide, by decide⟩,
    ((write_assertions_hold 8 demo_file 1 7 (by decide) _).2.2.2
      (true_piece demo_content 12 4 1) 4 (by decide)).2.2 3 (by decide)⟩

/-! ### The end of a streaming session: the subscription and the deadlines -/

theorem unsubscribe_loop_cons (window : Nat → Int × Int) (pq : Nat) (i : Nat × Nat × Nat)
    (rest : List (Nat × Nat × Nat)) (st : Option Nat × List Int) :
    piece_alert_dispatch.unsubscribe_loop window pq true (i :: rest) st
      = if i.2.2 ≠ pq then
          piece_alert_dispatch.unsubscribe_loop window pq true rest
            (st.1, st.2 ++ pieces_between (max (window pq).1 (window i.2.2).1)
              (min (window pq).2 (window i.2.2).2))
        else piece_alert_dispatch.unsubscribe_loop window pq true rest (some i.1, st.2) := by
  conv => lhs; unfold piece_alert_dispatch.unsubscribe_loop
  simp only [if_true, Bool.true_eq_false, if_false]

theorem unsubscribe_loop_append (window : Nat → Int × Int) (pq : Nat)
    (L1 L2 : List (Nat × Nat × Nat)) :
    ∀ st, piece_alert_dispatch.unsubscribe_loop window pq true (L1 ++ L2) st
      = piece_alert_dispatch.unsubscribe_loop window pq true L2
          (piece_alert_dispatch.unsubscribe_loop window pq true L1 st) := by
  induction L1 with
  | nil => intro st; rfl
  | cons i rest ih =>
    intro st
    rw [List.cons_append, unsubscribe_loop_cons, unsubscribe_loop_cons]
    split
    · exact ih _
    · exact ih _

theorem unsubscribe_loop_others (window : Nat → Int × Int) (pq : Nat)
    (L : List (Nat × Nat × Nat)) (hL : ∀ i, i ∈ L → i.2.2 ≠ pq) :
    ∀ st, (piece_alert_dispatch.unsubscribe_loop window pq true L st).1 = st.1 := by
  induction L with
  | nil => intro st; rfl
  | cons i rest ih =>
    intro st
    rw [unsubscribe_loop_cons, if_pos (hL i (List.mem_cons_self _ _))]
    exact ih (fun x hx => hL x (List.mem_cons_of_mem _ hx)) _

/-- What the loop of `unsubscribe` inserts into `*pieces`. -/
theorem unsubscribe_loop_pieces (window : Nat → Int × Int) (pq : Nat)
    (L : List (Nat × Nat × Nat)) (k : Int) :
    ∀ st, k ∈ (piece_alert_dispatch.unsubscribe_loop window pq true L st).2 ↔
      (k ∈ st.2 ∨ ∃ i, i ∈ L ∧ i.2.2 ≠ pq ∧
        k ∈ pieces_between (max (window pq).1 (window i.2.2).1)
          (min (window pq).2 (window i.2.2).2)) := by
  induction L with
  | nil =>
    intro st
    simp [piece_alert_dispatch.unsubscribe_loop]
  | cons i rest ih =>
    intro st
    rw [unsubscribe_loop_cons]
    by_cases hq : i.2.2 ≠ pq
    · rw [if_pos hq]
      rw [ih]
      simp only [List.mem_append, List.mem_cons]
      constructor
      · rintro (⟨h | h⟩ | ⟨x, hx, hxq, hxk⟩)
        · exact Or.inl h
        · exact Or.inr ⟨i, Or.inl rfl, hq, h⟩
        · exact Or.inr ⟨x, Or.inr hx, hxq, hxk⟩
      · rintro (h | ⟨x, hx | hx, hxq, hxk⟩)
        · exact Or.inl (Or.inl h)
        · rw [hx] at hxk
          exact Or.inl (Or.inr hxk)
        · exact Or.inr ⟨x, hx, hxq, hxk⟩
    · rw [if_neg hq]
      rw [ih]
      simp only [List.mem_cons]
      constructor
      · rintro (h | ⟨x, hx, hxq, hxk⟩)
        · exact Or.inl h
        · exact Or.inr ⟨x, Or.inr hx, hxq, hxk⟩
      · rintro (h | ⟨x, hx | hx, hxq, hxk⟩)
        · exact Or.inl h
        · rw [hx] at hxq
          exact absurd hxq hq
        · exact Or.inr ⟨x, hx, hxq, hxk⟩

theorem eraseIdx_split {α : Type} (A B : List α) (x : α) :
    (A ++ x :: B).eraseIdx A.length = A ++ B := by
  induction A with
  | nil => rfl
  | cons a t ih =>
    show a :: (t ++ x :: B).eraseIdx t.length = a :: (t ++ B)
    rw [ih]

theorem snd_mem_of_mem_enumFrom {α : Type} (n : Nat) (l : List α) (i : Nat × α)
    (h : i ∈ List.enumFrom n l) : i.2 ∈ l := by
  have := List.mem_map_of_mem Prod.snd h
  rw [List.enumFrom_map_snd] at this
  exact this

theorem exists_mem_enumFrom {α : Type} (n : Nat) (l : List α) (e : α) (h : e ∈ l) :
    ∃ i, i ∈ List.enumFrom n l ∧ i.2 = e := by
  rw [← List.enumFrom_map_snd n l] at h
  exact List.mem_map.mp h

/-- The method `unsubscribe` with a `pieces` pointer, for a queue that is
subscribed once: its entry is erased, and `*pieces` gets the overlap of its
window with the window of every other queue subscribed for the torrent. -/
theorem unsubscribe_spec (window : Nat → Int × Int) (ih pq : Nat) (A B : List (Nat × Nat))
    (hA : ∀ e, e ∈ A → e.2 ≠ pq) (hB : ∀ e, e ∈ B → e.2 ≠ pq) :
    (piece_alert_dispatch.unsubscribe window ih pq true (A ++ (ih, pq) :: B)).1 = A ++ B ∧
    ∀ k, k ∈ (piece_alert_dispatch.unsubscribe window ih pq true (A ++ (ih, pq) :: B)).2 ↔
      ∃ e, e ∈ A ++ B ∧ e.1 = ih ∧
        k ∈ pieces_between (max (window pq).1 (window e.2).1)
          (min (window pq).2 (window e.2).2) := by
  have hall : (A ++ (ih, pq) :: B).all (fun e => decide (e.1 < ih)) = false := by
    rw [Bool.eq_false_iff]
    intro hc
    rw [List.all_eq_true] at hc
    have := hc (ih, pq) (List.mem_append_right _ (List.mem_cons_self _ _))
    simp at this
  have hL : (A ++ (ih, pq) :: B).enum.filter (fun i => decide (i.2.1 = ih))
      = A.enum.filter (fun i => decide (i.2.1 = ih)) ++
        (A.length, (ih, pq)) ::
          (List.enumFrom (A.length + 1) B).filter (fun i => decide (i.2.1 = ih)) := by
    rw [List.enum_append, List.enumFrom_cons, List.filter_append,
      List.filter_cons_of_pos (by simp)]
  have hL2 : ∀ i, i ∈ (List.enumFrom (A.length + 1) B).filter (fun i => decide (i.2.1 = ih)) →
      i.2.2 ≠ pq :=
    fun i hi => hB _ (snd_mem_of_mem_enumFrom _ _ _ (List.mem_of_mem_filter hi))
  have hdel : (piece_alert_dispatch.unsubscribe_loop window pq true
      ((A ++ (ih, pq) :: B).enum.filter (fun i => decide (i.2.1 = ih))) (none, [])).1
      = some A.length := by
    rw [hL, unsubscribe_loop_append, unsubscribe_loop_cons, if_neg (by simp),
      unsubscribe_loop_others window pq _ hL2]
  unfold piece_alert_dispatch.unsubscribe
  rw [hall]
  simp only [Bool.false_eq_true, if_false]
  rw [hdel]
  simp only []
  refine ⟨eraseIdx_split A B (ih, pq), ?_⟩
  intro k
  rw [unsubscribe_loop_pieces]
  simp only [List.not_mem_nil, false_or]
  constructor
  · rintro ⟨i, hi, hiq, hik⟩
    have hmem := snd_mem_of_mem_enumFrom _ _ _ (List.mem_of_mem_filter hi)
    have hkey : i.2.1 = ih := by simpa using (List.mem_filter.mp hi).2
    refine ⟨i.2, ?_, hkey, hik⟩
    rcases List.mem_append.mp hmem with h | h
    · exact List.mem_append_left _ h
    · rcases List.mem_cons.mp h with h | h
      · rw [h] at hiq
        exact absurd rfl hiq
      · exact List.mem_append_right _ h
  · rintro ⟨e, he, hek, hk⟩
    have hmem : e ∈ A ++ (ih, pq) :: B := by
      rcases List.mem_append.mp he with h | h
      · exact List.mem_append_left _ h
      · exact List.mem_append_right _ (List.mem_cons_of_mem _ h)
    have hne : e.2 ≠ pq := by
      rcases List.mem_append.mp he with h | h
      · exact hA e h
      · exact hB e h
    obtain ⟨i, hi, hie⟩ := exists_mem_enumFrom 0 _ e hmem
    refine ⟨i, List.mem_filter.mpr ⟨hi, by rw [hie]; simpa using hek⟩, ?_, ?_⟩
    · rw [hie]; exact hne
    · rw [hie]; exact hk

/-- C26: at the exit of a session whose queue `pq` is subscribed once, the
cleanup erases the entry of `pq` from `m_torrents` and no other; `still_in_use`
holds the pieces of the window `[pq.begin, pq.end)` that lie in the window of
another queue subscribed for the torrent; and `reset_piece_deadline` is called
for the pieces of `[pq.begin, priority_cursor)` that are not in that set. -/
theorem cleanup_unsubscribes_and_resets (default_priority : Int) (window : Nat → Int × Int)
    (info_hash pq : Nat) (A B : List (Nat × Nat))
    (hA : ∀ e, e ∈ A → e.2 ≠ pq) (hB : ∀ e, e ∈ B → e.2 ≠ pq) (s : stream_state) :
    (file_downloader.cleanup default_priority window info_hash pq
      (A ++ (info_hash, pq) :: B) s).m_torrents = A ++ B ∧
    (∀ k, k ∈ (file_downloader.cleanup default_priority window info_hash pq
        (A ++ (info_hash, pq) :: B) s).still_in_use ↔
      (s.pq_begin ≤ k ∧ k < s.pq_end ∧
        ∃ e, e ∈ A ++ B ∧ e.1 = info_hash ∧ (window e.2).1 ≤ k ∧ k < (window e.2).2)) ∧
    (∀ k, k ∈ (file_downloader.cleanup default_priority window info_hash pq
        (A ++ (info_hash, pq) :: B) s).reset_deadlines ↔
      (s.pq_begin ≤ k ∧ k < s.priority_cursor ∧
        k ∉ (file_downloader.cleanup default_priority window info_hash pq
          (A ++ (info_hash, pq) :: B) s).still_in_use)) := by
  obtain ⟨u1, u2⟩ := unsubscribe_spec (store window pq (s.pq_begin, s.pq_end)) info_hash pq A B
    hA hB
  refine ⟨u1, ?_, ?_⟩
  · intro k
    show k ∈ (piece_alert_dispatch.unsubscribe (store window pq (s.pq_begin, s.pq_end))
      info_hash pq true (A ++ (info_hash, pq) :: B)).2 ↔ _
    rw [u2]
    constructor
    · rintro ⟨e, he, hek, hk⟩
      have hne : e.2 ≠ pq := by
        rcases List.mem_append.mp he with h | h
        · exact hA e h
        · exact hB e h
      rw [mem_pieces_between, store_same, store_other _ _ _ _ hne] at hk
      have h1 : max s.pq_begin (window e.2).1 ≤ k := hk.1
      have h2 : k < min s.pq_end (window e.2).2 := hk.2
      exact ⟨by omega, by omega, e, he, hek, by omega, by omega⟩
    · rintro ⟨h1, h2, e, he, hek, h3, h4⟩
      have hne : e.2 ≠ pq := by
        rcases List.mem_append.mp he with h | h
        · exact hA e h
        · exact hB e h
      refine ⟨e, he, hek, ?_⟩
      rw [mem_pieces_between, store_same, store_other _ _ _ _ hne]
      show max s.pq_begin (window e.2).1 ≤ k ∧ k < min s.pq_end (window e.2).2
      omega
  · intro k
    show k ∈ (pieces_between s.pq_begin s.priority_cursor).filter
      (fun k => !(piece_alert_dispatch.unsubscribe (store window pq (s.pq_begin, s.pq_end))
        info_hash pq true (A ++ (info_hash, pq) :: B)).2.contains k) ↔ _
    rw [List.mem_filter, mem_pieces_between]
    simp only [Bool.not_eq_true', List.contains_eq_any_beq, List.any_eq_false, beq_iff_eq]
    constructor
    · rintro ⟨⟨h1, h2⟩, h3⟩
      exact ⟨h1, h2, fun hc => h3 k hc rfl⟩
    · rintro ⟨h1, h2, h3⟩
      refine ⟨⟨h1, h2⟩, ?_⟩
      intro x hx hxk
      apply h3
      rw [← hxk] at hx
      exact hx

/-- Instance of `cleanup_unsubscribes_and_resets`: a session that ends on a
zero-size first piece with the window `[1, 3)`, while one other session on the
torrent has the window `[2, 5)` and one on another torrent `[1, 3)`. -/
theorem cleanup_unsubscribes_and_resets_witness :
    ((∀ e, e ∈ [((0 : Nat), (5 : Nat)), (1, 1)] → e.2 ≠ 0) ∧
      (∀ e, e ∈ [((2 : Nat), (3 : Nat))] → e.2 ≠ 0)) ∧
    (file_downloader.cleanup 4 (fun q => if q = 1 then (2, 5) else (1, 3)) 1 0
      ([(0, 5), (1, 1)] ++ (1, 0) :: [(2, 3)])
      ((file_downloader.start_stream 8 demo_file 1 7).run [.deliver ⟨[], 0, 0⟩, .wake]))
      = ⟨[(0, 5), (1, 1), (2, 3)], [2], [1], [(0, 4), (1, 4), (2, 4)]⟩ ∧
    (file_downloader.cleanup 4 (fun q => if q = 1 then (2, 5) else (1, 3)) 1 0
      ([(0, 5), (1, 1)] ++ (1, 0) :: [(2, 3)])
      ((file_downloader.start_stream 8 demo_file 1 7).run
        [.deliver ⟨[], 0, 0⟩, .wake])).m_torrents = [(0, 5), (1, 1)] ++ [(2, 3)] :=
  ⟨⟨by decide, by decide⟩, by decide,
    (cleanup_unsubscribes_and_resets 4 (fun q => if q = 1 then (2, 5) else (1, 3)) 1 0
      [(0, 5), (1, 1)] [(2, 3)] (by decide) (by decide) _).1⟩

/-! ### Strings -/

theorem npos_pos : 0 < npos := by decide

theorem substr_ok (s : List Char) (pos n : Nat) (h : pos ≤ s.length) :
    substr s pos n = Except.ok ((s.drop pos).take n) := by
  unfold substr
  rw [if_neg (by omega)]

theorem substr_throws (s : List Char) (pos n : Nat) (h : s.length < pos) :
    substr s pos n = Except.error cxx_exception.out_of_range := by
  unfold substr
  rw [if_pos h]

theorem starts_with_append (n t : List Char) : starts_with (n ++ t) n = true := by
  induction n with
  | nil => cases t <;> rfl
  | cons y n ih =>
    show (decide (y = y) && starts_with (n ++ t) n) = true
    rw [ih]
    simp

theorem starts_with_split (s n : List Char) (h : starts_with s n = true) :
    ∃ t, s = n ++ t := by
  induction n generalizing s with
  | nil => exact ⟨s, rfl⟩
  | cons y n ih =>
    cases s with
    | nil => simp [starts_with] at h
    | cons x s =>
      simp only [starts_with, Bool.and_eq_true, decide_eq_true_eq] at h
      obtain ⟨t, ht⟩ := ih s h.2
      exact ⟨t, by rw [h.1, ht]; rfl⟩

theorem find_str_nil (needle : List Char) (h : needle ≠ []) : find_str needle [] = npos := by
  unfold find_str
  rw [if_neg h]

theorem find_str_zero (needle t : List Char) : find_str needle (needle ++ t) = 0 := by
  cases hs : needle ++ t with
  | nil =>
    have : needle = [] := (List.append_eq_nil.mp hs).1
    simp [find_str, this]
  | cons x rest =>
    unfold find_str
    rw [← hs, starts_with_append, if_pos rfl]

theorem find_str_cons (needle : List Char) (x : Char) (rest : List Char)
    (h : starts_with (x :: rest) needle = false) :
    find_str needle (x :: rest)
      = if find_str needle rest = npos then npos else find_str needle rest + 1 := by
  conv => lhs; unfold find_str
  rw [h]
  simp

theorem find_str_bound (needle : List Char) (s : List Char) :
    find_str needle s = npos ∨ find_str needle s ≤ s.length := by
  induction s with
  | nil =>
    unfold find_str
    split
    · exact Or.inr (le_refl _)
    · exact Or.inl rfl
  | cons x rest ih =>
    unfold find_str
    split
    · exact Or.inr (Nat.zero_le _)
    · split
      · exact Or.inl rfl
      · rcases ih with h | h
        · contradiction
        · right
          simp only [List.length_cons]
          omega

/-- A stretch without the first character of the needle is passed over. -/
theorem find_str_skip (c : Char) (rest_needle u t : List Char) (hu : c ∉ u)
    (hlen : (u ++ t).length < npos) :
    find_str (c :: rest_needle) (u ++ t)
      = if find_str (c :: rest_needle) t = npos then npos
        else u.length + find_str (c :: rest_needle) t := by
  induction u with
  | nil =>
    simp only [List.nil_append, List.length_nil, Nat.zero_add]
    split
    · assumption
    · rfl
  | cons x u ih =>
    have hx : x ≠ c := fun h => hu (by rw [h]; exact List.mem_cons_self _ _)
    have hu' : c ∉ u := fun h => hu (List.mem_cons_of_mem _ h)
    have hlen' : (u ++ t).length < npos := by
      simp only [List.cons_append, List.length_cons] at hlen
      omega
    have hs : starts_with (x :: (u ++ t)) (c :: rest_needle) = false := by
      simp [starts_with, hx]
    rw [List.cons_append, find_str_cons _ _ _ hs, ih hu' hlen']
    have hb := find_str_bound (c :: rest_needle) t
    simp only [List.cons_append, List.length_cons, List.length_append] at hlen
    by_cases hF : find_str (c :: rest_needle) t = npos
    · simp [hF]
    · have hle : find_str (c :: rest_needle) t ≤ t.length := by
        rcases hb with h | h
        · exact absurd h hF
        · exact h
      rw [if_neg hF, if_neg hF, if_neg (by omega)]
      simp only [List.length_cons]
      omega

theorem find_str_absent (c : Char) (rest_needle s : List Char) (hs : c ∉ s)
    (hlen : s.length < npos) : find_str (c :: rest_needle) s = npos := by
  have h := find_str_skip c rest_needle s [] hs (by simpa using hlen)
  rw [List.append_nil, find_str_nil _ (List.cons_ne_nil _ _)] at h
  simpa using h

theorem find_char_absent (c : Char) (s : List Char) (hs : c ∉ s) (hlen : s.length < npos) :
    find_char c s = npos :=
  find_str_absent c [] s hs hlen

theorem find_char_split (c : Char) (u p : List Char) (hu : c ∉ u)
    (hlen : (u ++ c :: p).length < npos) : find_char c (u ++ c :: p) = u.length := by
  unfold find_char
  rw [find_str_skip c [] u (c :: p) hu hlen]
  have h0 : find_str [c] (c :: p) = 0 := find_str_zero [c] p
  rw [h0, if_neg (by decide)]
  rfl

/-- Two splits of one string at a character that stands in neither first part
are the same split. -/
theorem split_unique (c : Char) (a b x y : List Char) (ha : c ∉ a) (hb : c ∉ b)
    (h : a ++ c :: x = b ++ c :: y) : a = b ∧ x = y := by
  induction a generalizing b with
  | nil =>
    cases b with
    | nil =>
      simp only [List.nil_append, List.cons.injEq, true_and] at h
      exact ⟨rfl, h⟩
    | cons b0 b =>
      simp only [List.nil_append, List.cons_append, List.cons.injEq] at h
      exact absurd (by rw [h.1]; exact List.mem_cons_self _ _) hb
  | cons a0 a ih =>
    cases b with
    | nil =>
      simp only [List.nil_append, List.cons_append, List.cons.injEq] at h
      exact absurd (by rw [← h.1]; exact List.mem_cons_self _ _) ha
    | cons b0 b =>
      simp only [List.cons_append, List.cons.injEq] at h
      obtain ⟨i1, i2⟩ := ih b (fun hc => ha (List.mem_cons_of_mem _ hc))
        (fun hc => hb (List.mem_cons_of_mem _ hc)) h.2
      exact ⟨by rw [h.1, i1], i2⟩

/-! ### The Basic credentials -/

/-- Credentials whose decoded text has no colon: `substr` throws. -/
theorem parse_http_auth_no_colon (base64decode : List Char → List Char)
    (find_user : List Char → List Char → Option Nat) (header at_basic : List Char)
    (hb : strcasestr "basic ".toList header = some at_basic)
    (hc : ':' ∉ base64decode ((at_basic.drop 6).dropWhile (fun c => c = ' ' || c = '\t')))
    (hlen : (base64decode
      ((at_basic.drop 6).dropWhile (fun c => c = ' ' || c = '\t'))).length < npos) :
    parse_http_auth base64decode find_user (some header)
      = Except.error cxx_exception.out_of_range := by
  unfold parse_http_auth
  simp only [hb]
  generalize base64decode ((at_basic.drop 6).dropWhile (fun c => c = ' ' || c = '\t')) = cred
    at hc hlen
  rw [find_char_absent ':' cred hc hlen, substr_ok cred 0 npos (Nat.zero_le _)]
  simp only [List.drop_zero]
  rw [List.take_of_length_le (by omega), substr_throws cred (cred.length + 1) npos (by omega)]

/-- Credentials `user:pwd`: the result is that of `find_user`. -/
theorem parse_http_auth_colon (base64decode : List Char → List Char)
    (find_user : List Char → List Char → Option Nat) (header at_basic user pwd : List Char)
    (hb : strcasestr "basic ".toList header = some at_basic)
    (hc : base64decode ((at_basic.drop 6).dropWhile (fun c => c = ' ' || c = '\t'))
      = user ++ ':' :: pwd)
    (hu : ':' ∉ user) (hlen : (user ++ ':' :: pwd).length < npos) :
    parse_http_auth base64decode find_user (some header) = Except.ok (find_user user pwd) := by
  unfold parse_http_auth
  simp only [hb]
  rw [hc, find_char_split ':' user pwd hu hlen, substr_ok _ 0 _ (Nat.zero_le _)]
  simp only [List.drop_zero, List.take_left]
  rw [substr_ok _ _ _ (by simp)]
  have hd : (user ++ ':' :: pwd).drop (user.length + 1) = pwd := by
    rw [← List.drop_drop, List.drop_left]
    rfl
  simp only [hd]
  rw [List.take_of_length_le (by simp only [List.length_append, List.length_cons] at hlen; omega)]

/-- C21 (the code departs from the claim): for the header `Basic dXNlcg==`,
whose credentials decode to `user`, without a colon, `parse_http_auth` throws
`std::out_of_range`; for credentials that decode to `user:pw` it returns what
`find_user` gives. -/
theorem parse_http_auth_throws_without_colon :
    ':' ∉ demo_decode "dXNlcg==".toList ∧
    parse_http_auth demo_decode demo_find_user (some "Basic dXNlcg==".toList)
      = Except.error cxx_exception.out_of_range ∧
    parse_http_auth demo_decode demo_find_user (some "Basic ".toList)
      = Except.error cxx_exception.out_of_range ∧
    parse_http_auth demo_decode demo_find_user (some "Basic dXNlcjpwdw==".toList)
      = Except.ok (some 0) :=
  ⟨by decide, rfl, rfl, rfl⟩

/-! ### The arguments of the query string -/

theorem first_value_cons_eq (k : List Char) (p : List Char × List Char)
    (rest : List (List Char × List Char)) (h : p.1 = k) : first_value k (p :: rest) = p.2 := by
  unfold first_value
  rw [List.find?_cons_of_pos _ (by simpa using h)]

theorem first_value_cons_ne (k : List Char) (p : List Char × List Char)
    (rest : List (List Char × List Char)) (h : p.1 ≠ k) :
    first_value k (p :: rest) = first_value k rest := by
  unfold first_value
  rw [List.find?_cons_of_neg _ (by simpa using h)]

/-- The text `&k=` stands at a separator exactly when the key after it is `k`. -/
theorem starts_with_key (k k2 X : List Char) (hk : '=' ∉ k) (hk2 : '=' ∉ k2)
    (h : starts_with ('&' :: (k2 ++ '=' :: X)) ('&' :: (k ++ ['='])) = true) : k2 = k := by
  obtain ⟨t, ht⟩ := starts_with_split _ _ h
  simp only [List.cons_append, List.cons.injEq, true_and, List.append_assoc,
    List.nil_append] at ht
  exact (split_unique '=' k2 k X t hk2 hk ht).1

/-- The search for `&k=` in the rest of a query string: it fails when no
parameter of the rest has the key `k`, and else finds the first one that has. -/
theorem find_sep (k : List Char) (hk : '=' ∉ k) (rest : List (List Char × List Char)) :
    (∀ p, p ∈ rest → '=' ∉ p.1 ∧ '&' ∉ p.1 ∧ '&' ∉ p.2) →
    ∀ u : List Char, '&' ∉ u → (u ++ sep_args rest).length < npos →
      (first_value k rest = [] ∧
        find_str ('&' :: (k ++ ['='])) (u ++ sep_args rest) = npos) ∨
      ∃ A v R, u ++ sep_args rest = A ++ (('&' :: (k ++ ['='])) ++ (v ++ sep_args R)) ∧
        find_str ('&' :: (k ++ ['='])) (u ++ sep_args rest) = A.length ∧
        '&' ∉ v ∧ first_value k rest = v := by
  induction rest with
  | nil =>
    intro _ u hu hlen
    left
    refine ⟨rfl, ?_⟩
    rw [sep_args, List.append_nil] at hlen ⊢
    exact find_str_absent '&' _ u hu hlen
  | cons p rest ih =>
    intro hclean u hu hlen
    obtain ⟨c1, c2, c3⟩ := hclean p (List.mem_cons_self _ _)
    have hclean' : ∀ q, q ∈ rest → '=' ∉ q.1 ∧ '&' ∉ q.1 ∧ '&' ∉ q.2 :=
      fun q hq => hclean q (List.mem_cons_of_mem _ hq)
    have hskip := find_str_skip '&' (k ++ ['=']) u (sep_args (p :: rest)) hu hlen
    have hst : sep_args (p :: rest) = '&' :: (p.1 ++ '=' :: (p.2 ++ sep_args rest)) := rfl
    have hlen1 : (u ++ '&' :: (p.1 ++ '=' :: (p.2 ++ sep_args rest))).length < npos := by
      rw [← hst]; exact hlen
    by_cases hpk : p.1 = k
    · right
      refine ⟨u, p.2, rest, ?_, ?_, c3, first_value_cons_eq k p rest hpk⟩
      · rw [hst, hpk]
        simp
      · have h0 : find_str ('&' :: (k ++ ['='])) (sep_args (p :: rest)) = 0 := by
          have : sep_args (p :: rest) = ('&' :: (k ++ ['='])) ++ (p.2 ++ sep_args rest) := by
            rw [hst, hpk]; simp
          rw [this]
          exact find_str_zero _ _
        rw [hskip, h0, if_neg (by decide)]
        rfl
    · have hns : starts_with ('&' :: (p.1 ++ '=' :: (p.2 ++ sep_args rest)))
          ('&' :: (k ++ ['='])) = false := by
        rw [Bool.eq_false_iff]
        exact fun hc => hpk (starts_with_key k p.1 _ hk c1 hc)
      have hu2 : '&' ∉ p.1 ++ '=' :: p.2 := by
        intro hc
        rcases List.mem_append.mp hc with h | h
        · exact c2 h
        · rcases List.mem_cons.mp h with h | h
          · exact absurd h (by decide)
          · exact c3 h
      have hlen2 : ((p.1 ++ '=' :: p.2) ++ sep_args rest).length < npos := by
        simp only [List.length_append, List.length_cons] at hlen1 ⊢
        omega
      have hcons : find_str ('&' :: (k ++ ['='])) (sep_args (p :: rest))
          = if find_str ('&' :: (k ++ ['=']))
                ((p.1 ++ '=' :: p.2) ++ sep_args rest) = npos then npos
            else find_str ('&' :: (k ++ ['=']))
                ((p.1 ++ '=' :: p.2) ++ sep_args rest) + 1 := by
        rw [hst, find_str_cons _ _ _ hns]
        simp only [List.append_assoc, List.cons_append]
      rcases ih hclean' (p.1 ++ '=' :: p.2) hu2 hlen2 with ⟨i1, i2⟩ | ⟨A, v, R, i1, i2, i3, i4⟩
      · left
        refine ⟨by rw [first_value_cons_ne k p rest hpk]; exact i1, ?_⟩
        rw [hskip, hcons, i2]
        simp
      · right
        have hAlen : A.length + 1 + u.length < npos := by
          have := congrArg List.length i1
          simp only [List.length_append, List.length_cons] at this hlen1
          omega
        refine ⟨u ++ '&' :: A, v, R, ?_, ?_, i3, by rw [first_value_cons_ne k p rest hpk]; exact i4⟩
        · rw [hst]
          have : p.1 ++ '=' :: (p.2 ++ sep_args rest) = (p.1 ++ '=' :: p.2) ++ sep_args rest := by
            simp
          rw [this, i1]
          simp
        · have hA : (if A.length = npos then npos else A.length + 1) = A.length + 1 :=
            if_neg (by omega)
          rw [hskip, hcons, i2, hA, if_neg (by omega)]
          simp only [List.length_append, List.length_cons]

theorem drop_of_split {α : Type} (A B : List α) (n : Nat) (h : n = A.length) :
    (A ++ B).drop n = B := by
  rw [h, List.drop_left]

/-- What follows a value in a query string: the value is cut out by the search
for the next `&`. -/
theorem find_amp (v : List Char) (R : List (List Char × List Char)) (hv : '&' ∉ v)
    (hlen : (v ++ sep_args R).length < npos) :
    (find_str ['&'] (v ++ sep_args R) = npos ∧ R = []) ∨
    (find_str ['&'] (v ++ sep_args R) = v.length ∧ v.length < npos) := by
  cases R with
  | nil =>
    left
    refine ⟨?_, rfl⟩
    rw [sep_args, List.append_nil] at hlen ⊢
    exact find_str_absent '&' [] v hv hlen
  | cons p R =>
    right
    have hl : v.length < npos := by
      simp only [List.length_append] at hlen
      omega
    exact ⟨find_char_split '&' v _ hv hlen, hl⟩

theorem query_string_cons (p : List Char × List Char) (rest : List (List Char × List Char)) :
    query_string (p :: rest) = '?' :: ((p.1 ++ '=' :: p.2) ++ sep_args rest) := by
  simp [query_string]

theorem find_question (T : List Char) : find_char '?' ('?' :: T) = 0 :=
  find_str_zero ['?'] T

/-- The first branch of `url_has_argument`: the first parameter has the key. -/
theorem url_has_argument_first (url k head tail : List Char) (hq : find_char '?' url ≠ npos)
    (h1 : substr url (find_char '?' url + 1) (k ++ ['=']).length = Except.ok head)
    (hh : head = k ++ ['='])
    (h2 : substr url (find_char '?' url + 1 + (k ++ ['=']).length) npos = Except.ok tail) :
    url_has_argument url k
      = substr url (find_char '?' url + 1 + (k ++ ['=']).length) (find_char '&' tail) := by
  unfold url_has_argument
  rw [if_neg hq, h1]
  simp only []
  rw [if_pos hh, h2]

/-- The second branch of `url_has_argument` when the search for `&k=` fails. -/
theorem url_has_argument_absent (url k head : List Char) (hq : find_char '?' url ≠ npos)
    (h1 : substr url (find_char '?' url + 1) (k ++ ['=']).length = Except.ok head)
    (hh : head ≠ k ++ ['='])
    (h3 : find_from url ('&' :: (k ++ ['='])) (find_char '?' url + 1) = Except.ok npos) :
    url_has_argument url k = Except.ok [] := by
  unfold url_has_argument
  rw [if_neg hq, h1]
  simp only []
  rw [if_neg hh, h3]
  simp only [if_true]

/-- The second branch of `url_has_argument` when the search for `&k=` succeeds. -/
theorem url_has_argument_later (url k head : List Char) (i q : Nat)
    (hq : find_char '?' url ≠ npos)
    (h1 : substr url (find_char '?' url + 1) (k ++ ['=']).length = Except.ok head)
    (hh : head ≠ k ++ ['='])
    (h3 : find_from url ('&' :: (k ++ ['='])) (find_char '?' url + 1) = Except.ok i)
    (hi : i ≠ npos)
    (h4 : find_from url ['&'] (i + ('&' :: (k ++ ['='])).length) = Except.ok q) :
    url_has_argument url k
      = substr url (i + ('&' :: (k ++ ['='])).length)
          (q - (i + ('&' :: (k ++ ['='])).length)) := by
  unfold url_has_argument
  rw [if_neg hq, h1]
  simp only []
  rw [if_neg hh, h3]
  simp only []
  rw [if_neg hi, h4]

theorem find_from_ok (url needle tail : List Char) (pos : Nat) (hpos : pos ≤ url.length)
    (hd : url.drop pos = tail) (hl : tail.length ≤ npos) :
    find_from url needle pos
      = if find_str needle tail = npos then Except.ok npos
        else Except.ok (pos + find_str needle tail) := by
  unfold find_from
  rw [substr_ok url pos npos hpos, hd, List.take_of_length_le hl]
  simp only []
  split
  · rename_i h
    rw [h]
  · rfl

/-- C30: for a query string `?k1=v1&...&kn=vn` and a key `k`,
`url_has_argument` returns the value of the first parameter whose key is `k`,
and the empty view if there is none. Of the claim's conditions the proof uses
that the keys contain neither `=` nor `&`, that the values contain no `&` and
that `k`, being a key, contains no `=`; a string in memory is shorter than
`npos`. -/
theorem url_has_argument_first_value (params : List (List Char × List Char)) (k : List Char)
    (hparams : ∀ p, p ∈ params → '=' ∉ p.1 ∧ '&' ∉ p.1 ∧ '&' ∉ p.2) (hk : '=' ∉ k)
    (hlen : (query_string params).length < npos) :
    url_has_argument (query_string params) k = Except.ok (first_value k params) := by
  cases params with
  | nil =>
    have hq : query_string [] = ['?'] := rfl
    have hf : find_char '?' ['?'] = 0 := find_question []
    have hq0 : find_char '?' ['?'] ≠ npos := by rw [hf]; decide
    have h1 : substr ['?'] (find_char '?' ['?'] + 1) (k ++ ['=']).length = Except.ok [] := by
      rw [hf, substr_ok _ _ _ (show 0 + 1 ≤ ['?'].length by decide)]
      show Except.ok (List.take _ []) = _
      rw [List.take_nil]
    have hh : ([] : List Char) ≠ k ++ ['='] := by simp
    have h3 : find_from ['?'] ('&' :: (k ++ ['='])) (find_char '?' ['?'] + 1)
        = Except.ok npos := by
      rw [hf, find_from_ok ['?'] _ [] (0 + 1) (by decide) rfl (Nat.zero_le _),
        find_str_nil _ (List.cons_ne_nil _ _), if_pos rfl]
    rw [hq, url_has_argument_absent ['?'] k [] hq0 h1 hh h3]
    rfl
  | cons p rest =>
    obtain ⟨c1, c2, c3⟩ := hparams p (List.mem_cons_self _ _)
    have hrest : ∀ q, q ∈ rest → '=' ∉ q.1 ∧ '&' ∉ q.1 ∧ '&' ∉ q.2 :=
      fun q hq => hparams q (List.mem_cons_of_mem _ hq)
    rw [query_string_cons] at hlen ⊢
    have hu : '&' ∉ p.1 ++ '=' :: p.2 := by
      intro hc
      rcases List.mem_append.mp hc with h | h
      · exact c2 h
      · rcases List.mem_cons.mp h with h | h
        · exact absurd h (by decide)
        · exact c3 h
    have hfs := find_sep k hk rest hrest (p.1 ++ '=' :: p.2) hu
      (by rw [List.length_cons] at hlen; omega)
    generalize hT : (p.1 ++ '=' :: p.2) ++ sep_args rest = T at hlen hfs ⊢
    have hTlen : T.length + 1 < npos := by
      rw [List.length_cons] at hlen
      exact hlen
    have hf : find_char '?' ('?' :: T) = 0 := find_question T
    have hq0 : find_char '?' ('?' :: T) ≠ npos := by rw [hf]; decide
    have h1 : substr ('?' :: T) (find_char '?' ('?' :: T) + 1) (k ++ ['=']).length
        = Except.ok (T.take (k ++ ['=']).length) := by
      rw [hf, substr_ok _ _ _ (by rw [List.length_cons]; omega)]
      rfl
    by_cases hpk : p.1 = k
    · have hTk : T = (k ++ ['=']) ++ (p.2 ++ sep_args rest) := by
        rw [← hT, hpk]
        simp only [List.append_assoc, List.cons_append, List.nil_append]
      have hh : T.take (k ++ ['=']).length = k ++ ['='] := by rw [hTk, List.take_left]
      have hX : (p.2 ++ sep_args rest).length < npos := by
        have := congrArg List.length hTk
        rw [List.length_append] at this
        omega
      have hpos : find_char '?' ('?' :: T) + 1 + (k ++ ['=']).length ≤ ('?' :: T).length := by
        have := congrArg List.length hTk
        rw [List.length_append] at this
        rw [hf, List.length_cons]
        omega
      have hdrop : ('?' :: T).drop (find_char '?' ('?' :: T) + 1 + (k ++ ['=']).length)
          = p.2 ++ sep_args rest := by
        have e : find_char '?' ('?' :: T) + 1 + (k ++ ['=']).length
            = (k ++ ['=']).length + 1 := by rw [hf]; omega
        rw [e, List.drop_succ_cons, hTk, List.drop_left]
      have h2 : substr ('?' :: T) (find_char '?' ('?' :: T) + 1 + (k ++ ['=']).length) npos
          = Except.ok (p.2 ++ sep_args rest) := by
        rw [substr_ok _ _ _ hpos, hdrop, List.take_of_length_le (by omega)]
      rw [url_has_argument_first _ k _ _ hq0 h1 hh h2, substr_ok _ _ _ hpos, hdrop,
        first_value_cons_eq k p rest hpk]
      unfold find_char
      rcases find_amp p.2 rest c3 hX with ⟨a1, a2⟩ | ⟨a1, a2⟩
      · rw [a1, List.take_of_length_le (by omega), a2]
        show Except.ok (p.2 ++ []) = _
        rw [List.append_nil]
      · rw [a1, List.take_left]
    · have hh : T.take (k ++ ['=']).length ≠ k ++ ['='] := by
        intro hc
        have h := List.take_append_drop (k ++ ['=']).length T
        rw [hc, ← hT] at h
        simp only [List.append_assoc, List.cons_append, List.nil_append] at h
        exact hpk (split_unique '=' k p.1 _ _ hk c1 h).1.symm
      have hff : find_from ('?' :: T) ('&' :: (k ++ ['='])) (find_char '?' ('?' :: T) + 1)
          = if find_str ('&' :: (k ++ ['='])) T = npos then Except.ok npos
            else Except.ok (find_char '?' ('?' :: T) + 1 + find_str ('&' :: (k ++ ['='])) T) :=
        find_from_ok ('?' :: T) _ T _ (by rw [hf, List.length_cons]; omega)
          (by rw [hf]; rfl) (by omega)
      rw [first_value_cons_ne k p rest hpk]
      rcases hfs with ⟨g1, g2⟩ | ⟨A, v, R, g1, g2, g3, g4⟩
      · rw [g2, if_pos rfl] at hff
        rw [url_has_argument_absent _ k _ hq0 h1 hh hff, g1]
      · have hAl : A.length + (('&' :: (k ++ ['='])).length + (v ++ sep_args R).length) + 1
            < npos := by
          have := congrArg List.length g1
          rw [List.length_append, List.length_append] at this
          omega
        rw [g2, if_neg (show ¬ (A.length = npos) by omega)] at hff
        have hTl : ('?' :: T).length = T.length + 1 := rfl
        have hgl : T.length
            = A.length + (('&' :: (k ++ ['='])).length + (v ++ sep_args R).length) := by
          have := congrArg List.length g1
          rw [List.length_append, List.length_append] at this
          exact this
        have hi : find_char '?' ('?' :: T) + 1 + A.length ≠ npos := by omega
        have hpos : find_char '?' ('?' :: T) + 1 + A.length + ('&' :: (k ++ ['='])).length
            ≤ ('?' :: T).length := by omega
        have hdrop : ('?' :: T).drop
            (find_char '?' ('?' :: T) + 1 + A.length + ('&' :: (k ++ ['='])).length)
            = v ++ sep_args R := by
          have e : find_char '?' ('?' :: T) + 1 + A.length + ('&' :: (k ++ ['='])).length
              = (A.length + ('&' :: (k ++ ['='])).length) + 1 := by omega
          rw [e, List.drop_succ_cons, g1, ← List.append_assoc,
            drop_of_split _ _ _ (by rw [List.length_append])]
        have h4 := find_from_ok ('?' :: T) ['&'] (v ++ sep_args R)
          (find_char '?' ('?' :: T) + 1 + A.length + ('&' :: (k ++ ['='])).length)
          hpos hdrop (by omega)
        rw [g4]
        rcases find_amp v R g3 (by omega) with ⟨a1, a2⟩ | ⟨a1, a2⟩
        · rw [a1, if_pos rfl] at h4
          rw [url_has_argument_later _ k _ _ _ hq0 h1 hh hff hi h4, substr_ok _ _ _ hpos, hdrop,
            a2]
          show Except.ok (List.take _ (v ++ [])) = _
          rw [List.append_nil, List.take_of_length_le]
          rw [a2] at hgl
          have hv : (v ++ sep_args []).length = v.length := by
            show (v ++ []).length = _
            rw [List.append_nil]
          omega
        · rw [a1, if_neg (show ¬ (v.length = npos) by omega)] at h4
          rw [url_has_argument_later _ k _ _ _ hq0 h1 hh hff hi h4, substr_ok _ _ _ hpos, hdrop,
            Nat.add_sub_cancel_left, List.take_left]

theorem demo_params_length : (query_string demo_params).length < npos := by
  have h : (query_string demo_params).length = 26 := rfl
  rw [h]
  decide

/-- Instance of `url_has_argument_first_value`: the argument `sid` in a query
string that also has the key `xsid` and has the key `sid` twice. -/
theorem url_has_argument_first_value_witness :
    ((∀ p, p ∈ demo_params → '=' ∉ p.1 ∧ '&' ∉ p.1 ∧ '&' ∉ p.2) ∧ '=' ∉ "sid".toList ∧
      (query_string demo_params).length < npos) ∧
    query_string demo_params = "?ih=abc&xsid=9&sid=7&sid=8".toList ∧
    url_has_argument (query_string demo_params) "sid".toList = Except.ok "7".toList :=
  ⟨⟨by decide, by decide, demo_params_length⟩, rfl,
    url_has_argument_first_value demo_params "sid".toList (by decide) (by decide)
      demo_params_length⟩
